import Mathlib

/-!
Verification of the `rpp` containers: the binary min-heap (`src/rpp/heap.h`)
and the Robin Hood open-addressing hash map (`src/rpp/map.h`).

The C++ sources are shallowly embedded: buffers are `List`s of slots,
`u64` arithmetic is `Nat` arithmetic (with explicit `% 2^64` where the
source relies on 64-bit wrap), and the unbounded `for(;;)` probe loops are
modelled by fuel-indexed structural recursion returning `Option` (`none`
models the loop failing to terminate within the fuel bound; all theorems
about terminating behaviour prove a `some`-result).
-/

set_option maxHeartbeats 1000000
set_option synthInstance.maxSize 1000
set_option synthInstance.maxHeartbeats 400000

namespace rpp

/-! ### 64-bit arithmetic helpers -/

/-- Number of bits of `n`, computed with explicit fuel so that it reduces by
`decide`/`rfl`.  `bitLenF fuel n` is the bit length of `n` provided
`n < 2 ^ fuel`. -/
def bitLenF : Nat → Nat → Nat
  | 0, _ => 0
  | fuel + 1, n => if n = 0 then 0 else bitLenF fuel (n / 2) + 1

/-- Bit length of a 64-bit quantity (adequate for all `n < 2^128`). -/
def bitLen (n : Nat) : Nat := bitLenF 128 n

/-- Modelled from the spec: `Math::ctlz` (count of leading zero bits of a
`u64`), which is not part of `src/`; the spec uses it as
`shift = count-of-leading-zero-bits(capacity)+1`.  For `n = 2^m` (`m ≤ 63`)
this is `63 - m`, and `ctlz 0 = 64`. -/
def ctlz (n : Nat) : Nat := 64 - bitLen n

/-- Modelled from the spec: `Math::next_pow2`, not part of `src/`; the spec
says `construct` "rounds requested capacity up to the next power of two",
i.e. the least power of two that is `≥ n` (and `0` for `n = 0`). -/
def nextPow2 (n : Nat) : Nat := if n = 0 then 0 else 2 ^ bitLen (n - 1)

/-! ### Buffer access helpers -/

/-- The index following `i` in the cyclic probe order, as the source writes
it in `insert_slot`, `try_get` and `try_erase`: `if(++idx == capacity_) idx = 0`. -/
def nextIdx (cap i : Nat) : Nat := if i + 1 = cap then 0 else i + 1

/-- The index preceding `i` in the cyclic probe order (used only in invariant
statements, not by the source). -/
def prevIdx (cap i : Nat) : Nat := if i = 0 then cap - 1 else i - 1

/-- The cyclic displacement computation of the source
(`kidx <= idx ? idx - kidx : capacity_ + idx - kidx`). -/
def kdistOf (cap idx kidx : Nat) : Nat :=
  if kidx ≤ idx then idx - kidx else cap + idx - kidx

/-- Iterated probe successor: the index reached from `p` after `t` forward
probe steps. -/
def iterNext (cap p : Nat) : Nat → Nat
  | 0 => p
  | t + 1 => nextIdx cap (iterNext cap p t)

section Map

variable {K V : Type} [DecidableEq K] [DecidableEq V]

/-! ### The Map data model (`src/rpp/map.h`) -/

/-- One table slot: a 64-bit tag (`0 = EMPTY_SLOT`, otherwise `hash(key)|1`)
plus the optional `Pair<K,V>` payload stored in the `Storage`. -/
structure Slot (K V : Type) where
  hash : Nat
  data : Option (K × V)
deriving DecidableEq

/-- A default-constructed (empty) slot. -/
def emptySlot : Slot K V := ⟨0, none⟩

/-- Total buffer read: out-of-range reads yield the empty slot (the source
never reads out of range when the well-formedness invariant holds). -/
def bget (l : List (Slot K V)) (i : Nat) : Slot K V := (l.get? i).getD ⟨0, none⟩

/-- The state of a `Map<K,V>`: the buffer plus the five scalar fields. -/
structure Map (K V : Type) where
  data : List (Slot K V)
  capacity : Nat
  length : Nat
  usable : Nat
  shift : Nat
deriving DecidableEq

/-- The source's `hash_`: `hash(k) | 1` on a 64-bit hash value. -/
def hashOf (hf : K → Nat) (k : K) : Nat := (hf k % 2 ^ 64) ||| 1

/-- Whether slot `s` stores key `k` (the source's `data->first == key`,
which is only evaluated on occupied slots). -/
def slotKeyIs (s : Slot K V) (k : K) : Prop :=
  match s.data with
  | some p => p.1 = k
  | none => False

instance (s : Slot K V) (k : K) : Decidable (slotKeyIs s k) :=
  match h : s.data with
  | some p => decidable_of_iff (p.1 = k) (by simp [slotKeyIs, h])
  | none => .isFalse (by simp [slotKeyIs, h])

/-- Whether two slots store equal keys (the source's
`data_[idx].data->first == slot.data->first` in `insert_slot`). -/
def keysMatch (s t : Slot K V) : Prop :=
  match t.data with
  | some p => slotKeyIs s p.1
  | none => False

instance (s t : Slot K V) : Decidable (keysMatch s t) :=
  match h : t.data with
  | some p => decidable_of_iff (slotKeyIs s p.1) (by simp [keysMatch, h])
  | none => .isFalse (by simp [keysMatch, h])

/-- The probe loop of `Map::try_get`.  Returns `some none` when the key is
reported absent, `some (some v)` when found with value `v`, and `none` on
fuel exhaustion (the source loops forever only on states that violate the
occupancy invariant). -/
def tryGetLoop (cap shift : Nat) (buf : List (Slot K V)) (h : Nat) (key : K) :
    Nat → Nat → Nat → Option (Option V)
  | _, _, 0 => none
  | idx, dist, fuel + 1 =>
    let s := bget buf idx
    if s.hash = 0 then some none
    else if s.hash = h ∧ slotKeyIs s key then
      some (match s.data with | some p => some p.2 | none => none)
    else
      let kidx := s.hash >>> shift
      let kdist := kdistOf cap idx kidx
      if kdist < dist then some none
      else tryGetLoop cap shift buf h key (nextIdx cap idx) (dist + 1) fuel

/-- `Map::try_get`. -/
def tryGet (hf : K → Nat) (m : Map K V) (key : K) : Option (Option V) :=
  if m.length = 0 then some none
  else
    let h := hashOf hf key
    tryGetLoop m.capacity m.shift m.data h key (h >>> m.shift) 0 (m.capacity + 1)

/-- `Map::contains` (`try_get(key)` converted to `bool`).  `none` on fuel
exhaustion. -/
def containsKey (hf : K → Nat) (m : Map K V) (key : K) : Option Bool :=
  (tryGet hf m key).map Option.isSome

/-- `Map::get`: aborts fatally (modelled `none`) when `try_get` is empty. -/
def getKey (hf : K → Nat) (m : Map K V) (key : K) : Option V :=
  (tryGet hf m key).bind id

/-- The probe loop of `Map::insert_slot`.  `slot` is the local variable the
incumbent is swapped into; the returned reference (`placement`) does not
affect the table state and is not modelled. -/
def insertSlotLoop (cap shift : Nat) :
    List (Slot K V) → Slot K V → Nat → Nat → Nat → Option (List (Slot K V))
  | _, _, _, _, 0 => none
  | buf, slot, idx, dist, fuel + 1 =>
    let s := bget buf idx
    if s.hash = 0 then some (buf.set idx slot)
    else if s.hash = slot.hash ∧ keysMatch s slot then some (buf.set idx slot)
    else
      let hashidx := s.hash >>> shift
      let hashdist := kdistOf cap idx hashidx
      if hashdist < dist then
        insertSlotLoop cap shift (buf.set idx slot) s (nextIdx cap idx) (hashdist + 1) fuel
      else
        insertSlotLoop cap shift buf slot (nextIdx cap idx) (dist + 1) fuel

/-- `Map::insert_slot` on a map state (fuel `capacity + 1`, enough to reach
the first empty slot whenever one exists). -/
def insertSlot (m : Map K V) (slot : Slot K V) : Option (Map K V) :=
  (insertSlotLoop m.capacity m.shift m.data slot (slot.hash >>> m.shift) 0
      (m.capacity + 1)).map
    (fun d => { m with data := d })

/-- The backward-shift repair loop `Map::fix_up`.  A move
(`data_[idx] = std::move(data_[next])`) copies the slot backward and leaves
the source slot with the `EMPTY_SLOT` tag. -/
def fixUpLoop (cap shift : Nat) : List (Slot K V) → Nat → Nat → Option (List (Slot K V))
  | _, _, 0 => none
  | buf, idx, fuel + 1 =>
    let next := if idx = cap - 1 then 0 else idx + 1
    let nexthash := (bget buf next).hash
    if nexthash = 0 then some buf
    else if nexthash >>> shift = next then some buf
    else fixUpLoop cap shift ((buf.set idx (bget buf next)).set next emptySlot) next fuel

/-- The probe loop of `Map::try_erase`: on a hash+key match the slot is
destructed (`~Slot()` sets the `EMPTY_SLOT` tag) and `fix_up` runs from the
freed index.  Note that, unlike `try_get`, this loop has no explicit empty-slot
check; an empty slot is only left via the `kdist < dist` comparison. -/
def tryEraseLoop (cap shift : Nat) (buf : List (Slot K V)) (h : Nat) (key : K) :
    Nat → Nat → Nat → Option (Bool × List (Slot K V))
  | _, _, 0 => none
  | idx, dist, fuel + 1 =>
    let s := bget buf idx
    if s.hash = h ∧ slotKeyIs s key then
      (fixUpLoop cap shift (buf.set idx emptySlot) idx (cap + 1)).map (fun d => (true, d))
    else
      let kidx := s.hash >>> shift
      let kdist := kdistOf cap idx kidx
      if kdist < dist then some (false, buf)
      else tryEraseLoop cap shift buf h key (nextIdx cap idx) (dist + 1) fuel

/-- `Map::try_erase`. -/
def tryErase (hf : K → Nat) (m : Map K V) (key : K) : Option (Bool × Map K V) :=
  if m.length = 0 then some (false, m)
  else
    let h := hashOf hf key
    match tryEraseLoop m.capacity m.shift m.data h key (h >>> m.shift) 0 (m.capacity + 1) with
    | none => none
    | some (false, d) => some (false, { m with data := d })
    | some (true, d) => some (true, { m with data := d, length := m.length - 1 })

/-- `Map::erase`: `die` (the fatal abort) when `try_erase` returns false is
modelled by `none`; `some` is the state after a successful erase. -/
def eraseKey (hf : K → Nat) (m : Map K V) (key : K) : Option (Map K V) :=
  (tryErase hf m key).bind (fun r => if r.1 then some r.2 else none)

/-- The rehash loop of `Map::reserve`: every occupied slot of the old buffer
is re-inserted (in ascending index order) into the new buffer via
`insert_slot`. -/
def rehash (cap shift : Nat) : List (Slot K V) → List (Slot K V) → Option (List (Slot K V))
  | [], acc => some acc
  | s :: rest, acc =>
    if s.hash ≠ 0 then
      (insertSlotLoop cap shift acc s (s.hash >>> shift) 0 (cap + 1)).bind
        (fun acc2 => rehash cap shift rest acc2)
    else rehash cap shift rest acc

/-- `Map::reserve`.  A fresh buffer starts with all slots in the `EMPTY`
state (modelled from the spec: the construct operation "allocates `capacity`
empty slots"; the allocator `Mdefault` itself is not part of `src/`). -/
def reserveMap (m : Map K V) (newCapacity : Nat) : Option (Map K V) :=
  if newCapacity ≤ m.capacity then some m
  else
    (rehash newCapacity (ctlz newCapacity + 1) m.data
        (List.replicate newCapacity emptySlot)).map
      (fun d =>
        { data := d, capacity := newCapacity, length := m.length,
          usable := newCapacity / 4 * 3, shift := ctlz newCapacity + 1 })

/-- `Map::grow`. -/
def growMap (m : Map K V) : Option (Map K V) :=
  reserveMap m (if m.capacity = 0 then 32 else 2 * m.capacity)

/-- `Map::insert` (and `emplace`, which constructs the same slot and runs the
identical code path): grow when `full()`, run `insert_slot`, then
unconditionally `length_ += 1`. -/
def insertPair (hf : K → Nat) (m : Map K V) (k : K) (v : V) : Option (Map K V) :=
  (if m.length = m.usable then growMap m else some m).bind fun m1 =>
    (insertSlot m1 ⟨hashOf hf k, some (k, v)⟩).map fun m2 =>
      { m2 with length := m2.length + 1 }

/-- `Map::Map(u64 capacity)` where the allocator-returned buffer contents are
given by `junk` (the constructor writes no slot itself; `src/` leaves the
buffer exactly as `A::alloc` returned it). -/
def constructJunk (junk : Nat → Slot K V) (capacity : Nat) : Map K V :=
  let cap := nextPow2 capacity
  { data := (List.range cap).map junk, capacity := cap, length := 0,
    usable := cap / 4 * 3, shift := ctlz cap + 1 }

/-- `Map::Map(u64 capacity)` with the buffer in the all-EMPTY state
(modelled from the spec: `construct` "allocates `capacity` empty slots"). -/
def construct (capacity : Nat) : Map K V :=
  constructJunk (fun _ => emptySlot) capacity

/-- The default-constructed `Map()`: all fields zero. -/
def emptyMap : Map K V := ⟨[], 0, 0, 0, 0⟩

/-- `Map::clear` (destructs every slot, resets `length_`, keeps
capacity/usable/shift). -/
def clearMap (m : Map K V) : Map K V :=
  { m with data := List.replicate m.capacity emptySlot, length := 0 }

/-- The non-trivial (`Clone`) path of `Map::clone`: `Map ret(capacity_)`,
`ret.length_ = length_`, then `new(&ret.data_[i]) Slot{data_[i].clone()}`
for `i` ranging over `0 ≤ i < length_` — physical indices, not occupied
slots.  A payload deep-clone is value-equal to its source, so `Slot::clone`
is the identity on the slot value. -/
def cloneExplicit (m : Map K V) : Map K V :=
  let ret : Map K V := construct m.capacity
  { ret with length := m.length,
             data := m.data.take m.length ++ ret.data.drop m.length }

/-- The trivial path of `Map::clone`: `memcpy` of all `capacity_` slots. -/
def cloneTrivial (m : Map K V) : Map K V :=
  let ret : Map K V := construct m.capacity
  { ret with length := m.length,
             data := m.data ++ ret.data.drop m.data.length }

/-- `Map(Map&& src)` / move assignment: the destination takes all five
fields (the buffer is transferred as-is, no slot is destructed), the source
is left in the all-zero state. -/
def mapMove (m : Map K V) : Map K V × Map K V :=
  (⟨m.data, m.capacity, m.length, m.usable, m.shift⟩, ⟨[], 0, 0, 0, 0⟩)

end Map

section Heap

variable {T : Type} [LinearOrder T]

/-! ### The Heap data model (`src/rpp/heap.h`)

The buffer is modelled by its live prefix `data_[0 .. length_)`; the
uninitialised tail of the physical buffer is never read by the source.
`length()` is `data.length`. -/

/-- The state of a `Heap<T>`. -/
structure Heap (T : Type) where
  data : List T
  capacity : Nat
deriving DecidableEq

/-- A default-constructed empty heap. -/
def emptyHeap : Heap T := ⟨[], 0⟩

/-- `Heap::swap(a, b)` (move out `a`, move `b` into `a`, move the temp into
`b`): exchange two buffer entries.  Out-of-range indices leave the buffer
unchanged (the source never swaps out of range). -/
def lswap (l : List T) (a b : Nat) : List T :=
  match l.get? a, l.get? b with
  | some x, some y => (l.set a y).set b x
  | _, _ => l

/-- The sift-up loop `Heap::reheap_up` (fuel-indexed; `fuel ≥ idx` always
suffices since the index strictly decreases).  The loop body compares
`elem = data_[idx]` with `parent = data_[(idx-1)/2]` and swaps while
`elem < parent`. -/
def reheapUp (l : List T) : Nat → Nat → List T
  | _, 0 => l
  | idx, fuel + 1 =>
    if h : idx ≠ 0 ∧ idx < l.length then
      if l.get ⟨idx, h.2⟩ <
          l.get ⟨(idx - 1) / 2,
            lt_of_le_of_lt (Nat.le_trans (Nat.div_le_self _ 2) (Nat.pred_le idx)) h.2⟩ then
        reheapUp (lswap l idx ((idx - 1) / 2)) ((idx - 1) / 2) fuel
      else l
    else l

/-- The sift-down loop `Heap::reheap_down` (fuel-indexed; `fuel ≥ length`
always suffices since the index strictly increases and stays below
`length`).  `left = idx*2+1`, `right = left+1`; with two live children the
source swaps left when `lchild < parent && !(rchild < lchild)`, else right
when `rchild < parent && !(lchild < rchild)`, else stops; with only a left
child it swaps once when `lchild < parent` and returns. -/
def reheapDown (l : List T) : Nat → Nat → List T
  | _, 0 => l
  | idx, fuel + 1 =>
    if hr : idx * 2 + 2 < l.length ∧ idx < l.length then
      if l.get ⟨idx * 2 + 1, by omega⟩ < l.get ⟨idx, hr.2⟩ ∧
          ¬(l.get ⟨idx * 2 + 2, hr.1⟩ < l.get ⟨idx * 2 + 1, by omega⟩) then
        reheapDown (lswap l idx (idx * 2 + 1)) (idx * 2 + 1) fuel
      else if l.get ⟨idx * 2 + 2, hr.1⟩ < l.get ⟨idx, hr.2⟩ ∧
          ¬(l.get ⟨idx * 2 + 1, by omega⟩ < l.get ⟨idx * 2 + 2, hr.1⟩) then
        reheapDown (lswap l idx (idx * 2 + 2)) (idx * 2 + 2) fuel
      else l
    else if hl : idx * 2 + 1 < l.length ∧ idx < l.length then
      if l.get ⟨idx * 2 + 1, hl.1⟩ < l.get ⟨idx, hl.2⟩ then lswap l idx (idx * 2 + 1)
      else l
    else l

/-- `Heap::push` (and `emplace`, which constructs in place and runs the same
code): grow when full (which only changes the capacity; the live prefix is
relocated unchanged), append, sift up from the new index. -/
def pushHeap (h : Heap T) (x : T) : Heap T :=
  let cap := if h.data.length = h.capacity then
               (if h.capacity = 0 then 8 else 2 * h.capacity)
             else h.capacity
  let l := h.data ++ [x]
  ⟨reheapUp l (l.length - 1) l.length, cap⟩

/-- `Heap::pop`: asserts non-empty (modelled `none`), destroys the root,
moves the former last element into the root slot and sifts down. -/
def popHeap (h : Heap T) : Option (Heap T) :=
  match h.data.getLast? with
  | none => none
  | some last =>
    if h.data.length = 1 then some ⟨[], h.capacity⟩
    else
      let l := (h.data.dropLast).set 0 last
      some ⟨reheapDown l 0 (l.length + 1), h.capacity⟩

/-- `Heap::top` (`data_[0]`; undefined on an empty heap, modelled `none`). -/
def topHeap (h : Heap T) : Option T := h.data.head?

/-- `Heap(Heap&& src)` / move assignment: transfers buffer/length/capacity;
the source is left with a null buffer and zero length/capacity, and no
element destructor runs on the transferred buffer (its contents are taken
as-is). -/
def heapMove (h : Heap T) : Heap T × Heap T := (⟨h.data, h.capacity⟩, ⟨[], 0⟩)

/-- A heap operation: a push or a pop. -/
inductive HOp (T : Type) where
  | push (x : T)
  | pop
deriving DecidableEq

/-- Run a sequence of heap operations; `none` as soon as a pop hits an empty
heap (the source's `assert(length_ > 0)`). -/
def runHeap (h : Heap T) : List (HOp T) → Option (Heap T)
  | [] => some h
  | .push x :: rest => runHeap (pushHeap h x) rest
  | .pop :: rest => (popHeap h).bind (fun h2 => runHeap h2 rest)

/-- The binary-heap ordering condition at index `i`: the parent value is
`≤` the value at `i` (the source checks `elem < parent` and swaps). -/
def heapCond (l : List T) (i : Nat) : Prop :=
  ∀ x ∈ l.get? i, ∀ p ∈ l.get? ((i - 1) / 2), p ≤ x

/-- The heap structural invariant: `data[parent(i)] ≤ data[i]` for every
non-root live index. -/
def heapInv (l : List T) : Prop := ∀ i, 0 < i → heapCond l i

instance (l : List T) (i : Nat) : Decidable (heapCond l i) := by
  unfold heapCond; infer_instance

instance (l : List T) : Decidable (heapInv l) :=
  decidable_of_iff (∀ i < l.length, 0 < i → heapCond l i) (by
    constructor
    · intro h i hi
      by_cases hl : i < l.length
      · exact h i hl hi
      · intro x hx; rw [List.get?_eq_none.2 (by omega)] at hx; cases hx
    · intro h i _ hi; exact h i hi)

/-- Loop invariant of the sift-up: the ordering condition holds everywhere
except possibly at `i`, and the elements at `i`'s child positions are
already `≥` the element at `i`'s parent position (so a swap at `i` cannot
break the condition at `i`'s children). -/
def AlmostUp (l : List T) (i : Nat) : Prop :=
  (∀ j, 0 < j → j ≠ i → heapCond l j) ∧
  (∀ c, (c = i * 2 + 1 ∨ c = i * 2 + 2) →
    ∀ x ∈ l.get? c, ∀ p ∈ l.get? ((i - 1) / 2), p ≤ x)

/-- Loop invariant of the sift-down: the ordering condition holds everywhere
except possibly at the two children of `i`, and (when `i` is not the root)
the elements at `i`'s child positions are `≥` the element at `i`'s parent
position. -/
def AlmostDown (l : List T) (i : Nat) : Prop :=
  (∀ j, 0 < j → j ≠ i * 2 + 1 → j ≠ i * 2 + 2 → heapCond l j) ∧
  (0 < i → ∀ c, (c = i * 2 + 1 ∨ c = i * 2 + 2) →
    ∀ x ∈ l.get? c, ∀ p ∈ l.get? ((i - 1) / 2), p ≤ x)

end Heap

section MapInvariants

variable {K V : Type} [DecidableEq K] [DecidableEq V]

/-! ### Map invariants and observation predicates -/

/-- Well-formedness of a slot with respect to the hash function: an occupied
slot's tag is `hash_(key)` of its stored key, an empty slot has no payload. -/
def slotWF (hf : K → Nat) (s : Slot K V) : Prop :=
  match s.data with
  | none => s.hash = 0
  | some p => s.hash = hashOf hf p.1

instance (hf : K → Nat) (s : Slot K V) : Decidable (slotWF hf s) :=
  match h : s.data with
  | none => decidable_of_iff (s.hash = 0) (by simp [slotWF, h])
  | some p => decidable_of_iff (s.hash = hashOf hf p.1) (by simp [slotWF, h])

/-- Structural well-formedness of a map state: the buffer has `capacity`
slots, `1 ≤ shift ≤ 64` and `2^(64 - shift) ≤ capacity` (so every ideal
index `h >> shift` of a 64-bit hash lands inside the buffer; for the
power-of-two capacities produced by `construct`/`grow` this holds with
equality), and every slot is well-formed. -/
def WF (hf : K → Nat) (m : Map K V) : Prop :=
  m.data.length = m.capacity ∧ 1 ≤ m.shift ∧ m.shift ≤ 64 ∧
    2 ^ (64 - m.shift) ≤ m.capacity ∧
    ∀ i < m.capacity, slotWF hf (bget m.data i)

instance (hf : K → Nat) (m : Map K V) : Decidable (WF hf m) := by
  unfold WF; infer_instance

/-- The ideal index of slot `i` of the buffer (the high bits of its tag). -/
def idealOf (shift : Nat) (buf : List (Slot K V)) (i : Nat) : Nat :=
  (bget buf i).hash >>> shift

/-- The displacement of slot `i`, computed exactly as the source computes
`kdist`/`hashdist`. -/
def slotDist (cap shift : Nat) (buf : List (Slot K V)) (i : Nat) : Nat :=
  kdistOf cap i (idealOf shift buf i)

/-- Whether slot `i` of the buffer is occupied (non-`EMPTY_SLOT` tag). -/
def occupied (buf : List (Slot K V)) (i : Nat) : Prop := (bget buf i).hash ≠ 0

instance (buf : List (Slot K V)) (i : Nat) : Decidable (occupied buf i) := by
  unfold occupied; infer_instance

/-- The local Robin Hood balance condition at index `i`: if slot `i` is
occupied with nonzero displacement, its cyclic predecessor is occupied with
displacement at least `d(i) - 1`. -/
def rhAt (cap shift : Nat) (buf : List (Slot K V)) (i : Nat) : Prop :=
  occupied buf i → 0 < slotDist cap shift buf i →
    occupied buf (prevIdx cap i) ∧
      slotDist cap shift buf i - 1 ≤ slotDist cap shift buf (prevIdx cap i)

instance (cap shift : Nat) (buf : List (Slot K V)) (i : Nat) :
    Decidable (rhAt cap shift buf i) := by
  unfold rhAt; infer_instance

/-- The local Robin Hood balance invariant: every occupied slot with nonzero
displacement is immediately preceded (cyclically) by an occupied slot whose
displacement is at least its own minus one.  Equivalently: along a probe
run, the displacement drops only at a slot that is nearer its ideal index
than the probe distance, and a slot following an empty slot is at its ideal
index. -/
def rhInv (cap shift : Nat) (buf : List (Slot K V)) : Prop :=
  ∀ i < cap, rhAt cap shift buf i

instance (cap shift : Nat) (buf : List (Slot K V)) : Decidable (rhInv cap shift buf) := by
  unfold rhInv; infer_instance

/-- The stored key of a slot. -/
def keyOf (s : Slot K V) : Option K := s.data.map Prod.fst

/-- The buffer holds the pair `(k, v)` in some occupied slot below `cap`. -/
def HasPairB (cap : Nat) (buf : List (Slot K V)) (k : K) (v : V) : Prop :=
  ∃ i, i < cap ∧ occupied buf i ∧ (bget buf i).data = some (k, v)

instance (cap : Nat) (buf : List (Slot K V)) (k : K) (v : V) :
    Decidable (HasPairB cap buf k v) := by
  unfold HasPairB; infer_instance

/-- The invariant exactly as the specification states it: scanning forward
from any occupied slot's ideal index, the displacements of the occupied
slots encountered are non-decreasing until the first empty slot. -/
def scanInv (cap shift : Nat) (buf : List (Slot K V)) : Prop :=
  ∀ i < cap, occupied buf i →
    ∀ t < cap,
      (∀ u ≤ t + 1, occupied buf (iterNext cap (idealOf shift buf i) u)) →
      slotDist cap shift buf (iterNext cap (idealOf shift buf i) t) ≤
        slotDist cap shift buf (iterNext cap (idealOf shift buf i) (t + 1))

instance (cap shift : Nat) (buf : List (Slot K V)) : Decidable (scanInv cap shift buf) := by
  unfold scanInv; infer_instance

/-- Distinct keys: no two occupied slots store the same key. -/
def distinctKeys (cap : Nat) (buf : List (Slot K V)) : Prop :=
  ∀ i < cap, ∀ j < cap, i ≠ j → occupied buf i → occupied buf j →
    (bget buf i).data.map Prod.fst ≠ (bget buf j).data.map Prod.fst

instance (cap : Nat) (buf : List (Slot K V)) : Decidable (distinctKeys cap buf) := by
  unfold distinctKeys; infer_instance

/-- The number of occupied slots of the buffer. -/
def occount (buf : List (Slot K V)) : Nat := buf.countP (fun s => s.hash ≠ 0)

/-- The map holds the pair `(k, v)` in some occupied slot. -/
def HasPair (m : Map K V) (k : K) (v : V) : Prop :=
  HasPairB m.capacity m.data k v

instance (m : Map K V) (k : K) (v : V) : Decidable (HasPair m k v) := by
  unfold HasPair; infer_instance

/-- Key `k` is stored in no occupied slot of the map. -/
def keyAbsent (m : Map K V) (k : K) : Prop :=
  ∀ i < m.capacity, occupied m.data i → ¬ slotKeyIs (bget m.data i) k

/-- The conjunction of invariants maintained by every map operation:
structural well-formedness, the local Robin Hood balance invariant,
distinctness of stored keys, and `occupied slots ≤ length_` (duplicate-key
inserts can only inflate `length_`, never deflate it below the number of
occupied slots). -/
def GoodMap (hf : K → Nat) (m : Map K V) : Prop :=
  WF hf m ∧ rhInv m.capacity m.shift m.data ∧ distinctKeys m.capacity m.data ∧
    occount m.data ≤ m.length

instance (hf : K → Nat) (m : Map K V) : Decidable (GoodMap hf m) := by
  unfold GoodMap; infer_instance

/-- Pairwise-distinct keys across the occupied slots of a raw slot list
(used while re-inserting an old buffer during `reserve`'s rehash). -/
def ListDistinctKeys (l : List (Slot K V)) : Prop :=
  l.Pairwise (fun s t => s.hash ≠ 0 → t.hash ≠ 0 → keyOf s ≠ keyOf t)

/-- The slot list holds the pair `(k, v)` in some occupied slot. -/
def ListHasPair (l : List (Slot K V)) (k : K) (v : V) : Prop :=
  ∃ s ∈ l, s.hash ≠ 0 ∧ s.data = some (k, v)

instance (m : Map K V) (k : K) : Decidable (keyAbsent m k) := by
  unfold keyAbsent; infer_instance

/-- A map operation (`emplace` is `insert`; `erase` runs the same mutation
as `try_erase`). -/
inductive MOp (K V : Type) where
  | ins (k : K) (v : V)
  | del (k : K)
  | gro
  | res (n : Nat)
  | clr
deriving DecidableEq

/-- Run a sequence of map operations (`none` propagates a probe loop that
failed to terminate within its fuel). -/
def runMap (hf : K → Nat) (m : Map K V) : List (MOp K V) → Option (Map K V)
  | [] => some m
  | .ins k v :: rest => (insertPair hf m k v).bind (fun m2 => runMap hf m2 rest)
  | .del k :: rest => (tryErase hf m k).bind (fun r => runMap hf r.2 rest)
  | .gro :: rest => (growMap m).bind (fun m2 => runMap hf m2 rest)
  | .res n :: rest => (reserveMap m (n % 2 ^ 64)).bind (fun m2 => runMap hf m2 rest)
  | .clr :: rest => runMap hf (clearMap m) rest

/-- The zero state of a map that has never allocated: the default-constructed
`Map()` and every state reachable from it before the first growth. -/
def ZeroMap (m : Map K V) : Prop :=
  m.capacity = 0 ∧ m.data = [] ∧ m.length = 0

instance (m : Map K V) : Decidable (ZeroMap m) := by
  unfold ZeroMap; infer_instance

/-- The `usable_` field always holds `capacity_ / 4 * 3` (integer division,
as `reserve` computes it). -/
def UsableInv (m : Map K V) : Prop := m.usable = m.capacity / 4 * 3

instance (m : Map K V) : Decidable (UsableInv m) := by
  unfold UsableInv; infer_instance

/-- The full state invariant carried across map operations: either the map
has allocated (and the Robin Hood invariants hold) or it is still in the
zero state. -/
def MapInv (hf : K → Nat) (m : Map K V) : Prop :=
  (GoodMap hf m ∨ ZeroMap m) ∧ UsableInv m

instance (hf : K → Nat) (m : Map K V) : Decidable (MapInv hf m) := by
  unfold MapInv; infer_instance

end MapInvariants

section SpecVariants

variable {K V : Type} [DecidableEq K] [DecidableEq V]

/-- Modelled from the spec's open question, which asserts that the insert
loop "keeps probing with the *same* running `dist`, without resetting it to
the incumbent's own displacement": identical to `insertSlotLoop` except that
the swap branch does not reset `dist` (the source's `dist = hashdist;` line
is dropped).  Used only to compare against the source's behaviour. -/
def insertSlotLoopSpec (cap shift : Nat) :
    List (Slot K V) → Slot K V → Nat → Nat → Nat → Option (List (Slot K V))
  | _, _, _, _, 0 => none
  | buf, slot, idx, dist, fuel + 1 =>
    let s := bget buf idx
    if s.hash = 0 then some (buf.set idx slot)
    else if s.hash = slot.hash ∧ keysMatch s slot then some (buf.set idx slot)
    else
      let hashidx := s.hash >>> shift
      let hashdist := kdistOf cap idx hashidx
      if hashdist < dist then
        insertSlotLoopSpec cap shift (buf.set idx slot) s (nextIdx cap idx) (dist + 1) fuel
      else
        insertSlotLoopSpec cap shift buf slot (nextIdx cap idx) (dist + 1) fuel

/-- `grow()` iterated `n` times. -/
def growIter (m : Map K V) : Nat → Option (Map K V)
  | 0 => some m
  | n + 1 => (growMap m).bind (fun m2 => growIter m2 n)

end SpecVariants

/-! ### Concrete instances used by counterexamples and witnesses -/

/-- A deterministic hash for `Nat` keys whose ideal bucket in a capacity-8
table is `k % 8` (the low three bits are placed at the top of the 64-bit
hash). -/
def hash8 : Nat → Nat := fun k => k % 8 * 2 ^ 61

/-- The table state reached by `Map(8)`; `insert(0,0)`; `insert(8,1)`;
`insert(2,2)` under `hash8`: keys `0` and `8` share ideal index 0, key `2`
sits at its ideal index 2 with displacement 0 directly behind the displaced
key `8`. -/
def c4State : Map Nat Nat :=
  ⟨[⟨1, some (0, 0)⟩, ⟨1, some (8, 1)⟩, ⟨2 ^ 62 + 1, some (2, 2)⟩,
    ⟨0, none⟩, ⟨0, none⟩, ⟨0, none⟩, ⟨0, none⟩, ⟨0, none⟩], 8, 3, 6, 61⟩

/-- The state reached by `Map()`; `reserve(1)`; `insert(1,1)` under `hash8`:
capacity 2, `usable = 0`, but `length = 1`. -/
def c10State : Map Nat Nat :=
  ⟨[⟨2 ^ 61 + 1, some (1, 1)⟩, ⟨0, none⟩], 2, 1, 0, 63⟩

/-- A capacity-8 buffer holding key 0 at its ideal index 0, key 1 at its
ideal index 1, and key 9 (ideal index 1) displaced to index 2. -/
def swapBuffer : List (Slot Nat Nat) :=
  [⟨1, some (0, 100)⟩, ⟨2 ^ 61 + 1, some (1, 101)⟩, ⟨2 ^ 61 + 1, some (9, 102)⟩,
   ⟨0, none⟩, ⟨0, none⟩, ⟨0, none⟩, ⟨0, none⟩, ⟨0, none⟩]

/-- An incoming slot for key 16 (ideal index 0) to be inserted into
`swapBuffer`. -/
def swapSlot : Slot Nat Nat := ⟨1, some (16, 103)⟩

/-! ### Theorems -/

/-- C1: evaluation of the claim's own scenario (capacity-8 map;
`insert(a,1)`, `insert(b,2)`, `insert(a,3)` with distinct keys `a = 1`,
`b = 2`): the duplicate insert does overwrite the stored value in place
(`try_get(a) = 3`), but `Map::insert` increments `length_` unconditionally,
so `length()` is 3, not the claimed 2. -/
theorem C1_insert_overwrites_but_increments_length :
    (runMap hash8 ((construct 8 : Map Nat Nat)) [.ins 1 1, .ins 2 2, .ins 1 3]).map Map.length
        = some 3 ∧
      (runMap hash8 ((construct 8 : Map Nat Nat)) [.ins 1 1, .ins 2 2, .ins 1 3]).bind
          (fun m => tryGet hash8 m 1)
        = some (some 3) ∧
      (runMap hash8 ((construct 8 : Map Nat Nat)) [.ins 1 1, .ins 2 2, .ins 1 3]).map Map.length
        ≠ some 2 := by
  refine ⟨by decide, by decide, by decide⟩

/-- C2: the non-trivial path of `Map::clone` iterates `i < length_` over
physical indices instead of the occupied slots of the whole table: for a
capacity-8 map holding key 5 at its ideal index 5 (with `length_ = 1`), the
original reports the entry but the clone loses it (`try_get(5)` is empty on
the clone). -/
theorem C2_clone_drops_displaced_slot :
    (runMap hash8 ((construct 8 : Map Nat Nat)) [.ins 5 7]).bind (fun m => tryGet hash8 m 5)
        = some (some 7) ∧
      (runMap hash8 ((construct 8 : Map Nat Nat)) [.ins 5 7]).bind
          (fun m => tryGet hash8 (cloneExplicit m) 5)
        = some none := by
  refine ⟨by decide, by decide⟩

/-- C4 counterexample: after the reachable insert sequence `Map(8)`;
`insert(0,0)`; `insert(8,1)`; `insert(2,2)`, scanning forward from slot 0's
ideal index 0 the displacements of the occupied slots encountered are
`0, 1, 0` — not non-decreasing before any empty slot — so the invariant as
the claim states it does not hold after every insert.  The local Robin Hood
balance invariant `rhInv` does hold on the same state. -/
theorem C4_scan_invariant_counterexample :
    runMap hash8 ((construct 8 : Map Nat Nat)) [.ins 0 0, .ins 8 1, .ins 2 2] = some c4State ∧
      ¬ scanInv c4State.capacity c4State.shift c4State.data ∧
      rhInv c4State.capacity c4State.shift c4State.data := by
  refine ⟨by decide, by decide, by decide⟩

/-- C5 counterexample: the source's `insert_slot` and the claimed variant
that keeps the same running `dist` after a swap produce different tables on
a concrete input (inserting key 16, ideal 0, into `swapBuffer`): the source
resets `dist` to the incumbent's displacement, so at index 2 (incumbent
displacement 1, running source `dist` 1, claimed `dist` 2) only the claimed
variant swaps again. -/
theorem C5_same_dist_counterexample :
    insertSlotLoop 8 61 swapBuffer swapSlot 0 0 9 ≠
      insertSlotLoopSpec 8 61 swapBuffer swapSlot 0 0 9 := by
  decide

/-- C5 amended: when the probed slot is occupied, is no key match, and is
richer than the incoming entry (`hashdist < dist`), the source swaps the
incumbent into the local variable and continues the scan with `dist` reset
to the incumbent's own displacement (`dist = hashdist` followed by the
unconditional `dist++`), not with the same running value. -/
theorem C5_swap_resets_dist {K V : Type} [DecidableEq K] [DecidableEq V]
    (cap shift : Nat) (buf : List (Slot K V)) (slot : Slot K V) (idx dist fuel : Nat)
    (h1 : (bget buf idx).hash ≠ 0)
    (h2 : ¬((bget buf idx).hash = slot.hash ∧ keysMatch (bget buf idx) slot))
    (h3 : kdistOf cap idx ((bget buf idx).hash >>> shift) < dist) :
    insertSlotLoop cap shift buf slot idx dist (fuel + 1) =
      insertSlotLoop cap shift (buf.set idx slot) (bget buf idx) (nextIdx cap idx)
        (kdistOf cap idx ((bget buf idx).hash >>> shift) + 1) fuel := by
  simp only [insertSlotLoop]
  rw [if_neg h1, if_neg h2, if_pos h3]

/-- Witness for `C5_swap_resets_dist` at the concrete probe step reached in
`swapBuffer` at index 1 with running distance 1. -/
theorem C5_swap_resets_dist_witness :
    ((bget swapBuffer 1).hash ≠ 0 ∧
        ¬((bget swapBuffer 1).hash = swapSlot.hash ∧ keysMatch (bget swapBuffer 1) swapSlot) ∧
        kdistOf 8 1 ((bget swapBuffer 1).hash >>> 61) < 1) ∧
      insertSlotLoop 8 61 swapBuffer swapSlot 1 1 9 =
        insertSlotLoop 8 61 (swapBuffer.set 1 swapSlot) (bget swapBuffer 1) (nextIdx 8 1)
          (kdistOf 8 1 ((bget swapBuffer 1).hash >>> 61) + 1) 8 :=
  ⟨⟨by decide, by decide, by decide⟩,
    C5_swap_resets_dist 8 61 swapBuffer swapSlot 1 1 8 (by decide) (by decide) (by decide)⟩

/-- C8: moving a container (construction or assignment both perform the same
field transfer) hands every field to the destination — the buffer contents
are taken verbatim, with no element destructed — and leaves the source in
the all-zero/null empty state. -/
theorem C8_move_transfers_and_zeroes_source {T K V : Type} [LinearOrder T]
    [DecidableEq K] [DecidableEq V] (h : Heap T) (m : Map K V) :
    (heapMove h).1 = h ∧ (heapMove h).2 = emptyHeap ∧ (heapMove h).1.data = h.data ∧
      (mapMove m).1 = m ∧ (mapMove m).2 = emptyMap ∧ (mapMove m).1.data = m.data := by
  refine ⟨rfl, rfl, rfl, rfl, rfl, rfl⟩

/-- C9: `Map::Map(capacity)` rounds the capacity up to the next power of
two, sets `shift = ctlz(capacity)+1` and `usable = capacity*3/4`, and no
matter what the allocator left in the returned buffer (`junk` is arbitrary:
nothing assumes zero-initialisation), every lookup on the freshly
constructed map reports the key absent. -/
theorem C9_construct_lookup_absent {K V : Type} [DecidableEq K] [DecidableEq V]
    (hf : K → Nat) (junk : Nat → Slot K V) (c : Nat) (k : K) :
    (constructJunk junk c : Map K V).capacity = nextPow2 c ∧
      (constructJunk junk c : Map K V).shift = ctlz (nextPow2 c) + 1 ∧
      (constructJunk junk c : Map K V).usable = nextPow2 c / 4 * 3 ∧
      (constructJunk junk c : Map K V).length = 0 ∧
      tryGet hf (constructJunk junk c) k = some none ∧
      containsKey hf (constructJunk junk c) k = some false := by
  refine ⟨rfl, rfl, rfl, rfl, ?_, ?_⟩ <;>
    simp [tryGet, containsKey, constructJunk]

/-- C10 counterexample: `Map()`; `reserve(1)`; a single `insert` reaches a
state with `length = 1 > usable = 0` (capacity 2), so `length ≤ usable`
does not hold after every operation.  (`usable = capacity*3/4` itself is
still the constructor's formula on this state.) -/
theorem C10_length_le_usable_counterexample :
    runMap hash8 (emptyMap : Map Nat Nat) [.res 1, .ins 1 1] = some c10State ∧
      c10State.usable = c10State.capacity / 4 * 3 ∧
      ¬(c10State.length ≤ c10State.usable) := by
  refine ⟨by decide, by decide, by decide⟩

section HeapProofs

variable {T : Type} [LinearOrder T]

theorem lswap_len (l : List T) (a b : Nat) : (lswap l a b).length = l.length := by
  unfold lswap
  rcases h1 : l.get? a with _ | x <;> rcases h2 : l.get? b with _ | y <;> simp

theorem lswap_fst (l : List T) {a b : Nat} (ha : a < l.length) (hb : b < l.length) :
    (lswap l a b).get? a = l.get? b := by
  unfold lswap
  rw [List.get?_eq_get ha, List.get?_eq_get hb]
  simp only [List.get?_eq_getElem?, List.getElem?_set, List.length_set]
  by_cases hab : b = a
  · subst hab; simp [hb, List.getElem?_eq_getElem]
  · simp [hab, ha, List.getElem?_eq_getElem]

theorem lswap_snd (l : List T) {a b : Nat} (ha : a < l.length) (hb : b < l.length) :
    (lswap l a b).get? b = l.get? a := by
  unfold lswap
  rw [List.get?_eq_get ha, List.get?_eq_get hb]
  simp only [List.get?_eq_getElem?, List.getElem?_set, List.length_set]
  simp [hb, ha, List.getElem?_eq_getElem]

theorem lswap_other (l : List T) {a b t : Nat} (hta : t ≠ a) (htb : t ≠ b) :
    (lswap l a b).get? t = l.get? t := by
  unfold lswap
  rcases h1 : l.get? a with _ | x
  · rfl
  · rcases h2 : l.get? b with _ | y
    · rfl
    · simp only [List.get?_eq_getElem?, List.getElem?_set, List.length_set,
        if_neg (Ne.symm htb), if_neg (Ne.symm hta)]

theorem lswap_mem (l : List T) (a b : Nat) (x : T) : x ∈ lswap l a b ↔ x ∈ l := by
  by_cases ha : a < l.length
  · by_cases hb : b < l.length
    · constructor
      · intro hx
        obtain ⟨n, hn⟩ := List.mem_iff_get?.1 hx
        by_cases hna : n = a
        · subst hna; rw [lswap_fst l ha hb] at hn
          exact List.mem_iff_get?.2 ⟨b, hn⟩
        · by_cases hnb : n = b
          · subst hnb; rw [lswap_snd l ha hb] at hn
            exact List.mem_iff_get?.2 ⟨a, hn⟩
          · rw [lswap_other l hna hnb] at hn
            exact List.mem_iff_get?.2 ⟨n, hn⟩
      · intro hx
        obtain ⟨n, hn⟩ := List.mem_iff_get?.1 hx
        by_cases hna : n = a
        · refine List.mem_iff_get?.2 ⟨b, ?_⟩
          rw [lswap_snd l ha hb, ← hna, hn]
        · by_cases hnb : n = b
          · refine List.mem_iff_get?.2 ⟨a, ?_⟩
            rw [lswap_fst l ha hb, ← hnb, hn]
          · refine List.mem_iff_get?.2 ⟨n, ?_⟩
            rw [lswap_other l hna hnb, hn]
    · unfold lswap
      rcases h1 : l.get? a with _ | x <;> rcases h2 : l.get? b with _ | y <;> simp
      exact absurd (List.get?_eq_some.1 h2).1 hb
  · unfold lswap
    rcases h1 : l.get? a with _ | x <;> simp
    exact absurd (List.get?_eq_some.1 h1).1 ha

theorem mem_get? {l : List T} {n : Nat} {x : T} (h : x ∈ l.get? n) :
    ∃ hn : n < l.length, l.get ⟨n, hn⟩ = x :=
  List.get?_eq_some.1 (Option.mem_def.1 h)

theorem get_mem_get? (l : List T) {n : Nat} (hn : n < l.length) :
    l.get ⟨n, hn⟩ ∈ l.get? n := by
  rw [List.get?_eq_get hn]; rfl

theorem almostUp_swap (l : List T) (i : Nat) (h0 : i ≠ 0) (hi : i < l.length)
    (h : AlmostUp l i)
    (hlt : l.get ⟨i, hi⟩ < l.get ⟨(i - 1) / 2, by omega⟩) :
    AlmostUp (lswap l i ((i - 1) / 2)) ((i - 1) / 2) := by
  obtain ⟨h1, h2⟩ := h
  have hp : (i - 1) / 2 < l.length := by omega
  have hpi : (i - 1) / 2 < i := by omega
  constructor
  · intro j hj hjp x hx q hq
    by_cases hji : j = i
    · subst hji
      rw [lswap_fst l hi hp] at hx
      rw [lswap_snd l hi hp] at hq
      obtain ⟨_, hx2⟩ := mem_get? hx
      obtain ⟨_, hq2⟩ := mem_get? hq
      rw [← hx2, ← hq2]
      exact le_of_lt hlt
    · have hxo : x ∈ l.get? j := by
        rw [← lswap_other l hji hjp]; exact hx
      by_cases hpar_i : (j - 1) / 2 = i
      · rw [hpar_i, lswap_fst l hi hp] at hq
        have hchild : j = i * 2 + 1 ∨ j = i * 2 + 2 := by omega
        exact h2 j hchild x hxo q hq
      · by_cases hpar_p : (j - 1) / 2 = (i - 1) / 2
        · rw [hpar_p, lswap_snd l hi hp] at hq
          obtain ⟨_, hq2⟩ := mem_get? hq
          have hcond := h1 j hj hji x hxo (l.get ⟨(i - 1) / 2, hp⟩)
            (by rw [hpar_p]; exact get_mem_get? l hp)
          have hql : q < l.get ⟨(i - 1) / 2, hp⟩ := by rw [← hq2]; exact hlt
          exact le_trans (le_of_lt hql) hcond
        · rw [lswap_other l hpar_i hpar_p] at hq
          exact h1 j hj hji x hxo q hq
  · intro c hc x hx q hq
    have hcp : c ≠ (i - 1) / 2 := by omega
    by_cases hci : c = i
    · subst hci
      rw [lswap_fst l hi hp] at hx
      by_cases hpz : (c - 1) / 2 = 0
      · have hg : ((c - 1) / 2 - 1) / 2 = (c - 1) / 2 := by omega
        rw [hg, lswap_snd l hi hp] at hq
        obtain ⟨_, hx2⟩ := mem_get? hx
        obtain ⟨_, hq2⟩ := mem_get? hq
        rw [← hx2, ← hq2]
        exact le_of_lt hlt
      · have hgi : ((c - 1) / 2 - 1) / 2 ≠ c := by omega
        have hgp : ((c - 1) / 2 - 1) / 2 ≠ (c - 1) / 2 := by omega
        rw [lswap_other l hgi hgp] at hq
        exact h1 ((c - 1) / 2) (by omega) (by omega) x hx q hq
    · have hxo : x ∈ l.get? c := by
        rw [← lswap_other l hci hcp]; exact hx
      have hcpar : (c - 1) / 2 = (i - 1) / 2 := by omega
      have hcv := h1 c (by omega) hci x hxo (l.get ⟨(i - 1) / 2, hp⟩)
        (by rw [hcpar]; exact get_mem_get? l hp)
      by_cases hpz : (i - 1) / 2 = 0
      · have hg : ((i - 1) / 2 - 1) / 2 = (i - 1) / 2 := by omega
        rw [hg, lswap_snd l hi hp] at hq
        obtain ⟨_, hq2⟩ := mem_get? hq
        have hql : q < l.get ⟨(i - 1) / 2, hp⟩ := by rw [← hq2]; exact hlt
        exact le_trans (le_of_lt hql) hcv
      · have hgi : ((i - 1) / 2 - 1) / 2 ≠ i := by omega
        have hgp : ((i - 1) / 2 - 1) / 2 ≠ (i - 1) / 2 := by omega
        rw [lswap_other l hgi hgp] at hq
        have hpv := h1 ((i - 1) / 2) (by omega) (by omega)
          (l.get ⟨(i - 1) / 2, hp⟩) (get_mem_get? l hp) q hq
        exact le_trans hpv hcv

theorem reheapUp_correct : ∀ (fuel : Nat) (l : List T) (i : Nat), i < fuel → AlmostUp l i →
    heapInv (reheapUp l i fuel) ∧ (∀ x, x ∈ reheapUp l i fuel ↔ x ∈ l) ∧
      (reheapUp l i fuel).length = l.length := by
  intro fuel
  induction fuel with
  | zero => intro l i h; omega
  | succ fuel IH =>
    intro l i hfuel h
    rw [reheapUp]
    by_cases hc : i ≠ 0 ∧ i < l.length
    · rw [dif_pos hc]
      by_cases hlt : l.get ⟨i, hc.2⟩ <
          l.get ⟨(i - 1) / 2,
            lt_of_le_of_lt (Nat.le_trans (Nat.div_le_self _ 2) (Nat.pred_le i)) hc.2⟩
      · rw [if_pos hlt]
        have hrec := IH (lswap l i ((i - 1) / 2)) ((i - 1) / 2) (by omega)
          (almostUp_swap l i hc.1 hc.2 h hlt)
        refine ⟨hrec.1, ?_, ?_⟩
        · intro x; rw [hrec.2.1 x, lswap_mem]
        · rw [hrec.2.2, lswap_len]
      · rw [if_neg hlt]
        refine ⟨?_, fun x => Iff.rfl, rfl⟩
        intro j hj
        by_cases hji : j = i
        · subst hji
          intro x hx q hq
          obtain ⟨_, hx2⟩ := mem_get? hx
          obtain ⟨_, hq2⟩ := mem_get? hq
          rw [← hx2, ← hq2]
          exact not_lt.1 hlt
        · exact h.1 j hj hji
    · rw [dif_neg hc]
      refine ⟨?_, fun x => Iff.rfl, rfl⟩
      intro j hj
      by_cases hji : j = i
      · subst hji
        intro x hx q hq
        rcases not_and_or.1 hc with h0 | hlen
        · exact absurd hj (by omega)
        · obtain ⟨hn, _⟩ := mem_get? hx; omega
      · exact h.1 j hj hji

theorem almostDown_stop (l : List T) (i : Nat) (h : AlmostDown l i)
    (hstop : ∀ c, (c = i * 2 + 1 ∨ c = i * 2 + 2) → ∀ hc : c < l.length,
      ∀ hi : i < l.length, l.get ⟨i, hi⟩ ≤ l.get ⟨c, hc⟩) :
    heapInv l := by
  intro j hj
  by_cases hjc : j = i * 2 + 1 ∨ j = i * 2 + 2
  · intro x hx q hq
    obtain ⟨hxn, hx2⟩ := mem_get? hx
    have hpar : (j - 1) / 2 = i := by omega
    rw [hpar] at hq
    obtain ⟨hqn, hq2⟩ := mem_get? hq
    rw [← hx2, ← hq2]
    exact hstop j hjc hxn hqn
  · exact h.1 j hj (fun h1 => hjc (Or.inl h1)) (fun h2 => hjc (Or.inr h2))

theorem almostDown_swap (l : List T) (i c : Nat) (hi : i < l.length) (hc : c < l.length)
    (hcc : c = i * 2 + 1 ∨ c = i * 2 + 2)
    (h : AlmostDown l i)
    (hlt : l.get ⟨c, hc⟩ < l.get ⟨i, hi⟩)
    (hsib : ∀ s, (s = i * 2 + 1 ∨ s = i * 2 + 2) → s ≠ c → ∀ hs : s < l.length,
      l.get ⟨c, hc⟩ ≤ l.get ⟨s, hs⟩) :
    AlmostDown (lswap l i c) c := by
  obtain ⟨h1, h2⟩ := h
  have hic : i ≠ c := by omega
  constructor
  · intro j hj hj1 hj2 x hx q hq
    by_cases hjc : j = c
    · subst hjc
      rw [lswap_snd l hi hc] at hx
      have hpar : (j - 1) / 2 = i := by omega
      rw [hpar, lswap_fst l hi hc] at hq
      obtain ⟨_, hx2⟩ := mem_get? hx
      obtain ⟨_, hq2⟩ := mem_get? hq
      rw [← hx2, ← hq2]
      exact le_of_lt hlt
    · by_cases hji : j = i
      · subst hji
        rw [lswap_fst l hi hc] at hx
        have hgi : (j - 1) / 2 ≠ j := by omega
        have hgc : (j - 1) / 2 ≠ c := by omega
        rw [lswap_other l hgi hgc] at hq
        exact h2 hj c hcc x hx q hq
      · by_cases hjs : j = i * 2 + 1 ∨ j = i * 2 + 2
        · have hxo : x ∈ l.get? j := by rw [← lswap_other l hji hjc]; exact hx
          have hpar : (j - 1) / 2 = i := by omega
          rw [hpar, lswap_fst l hi hc] at hq
          obtain ⟨hxn, hx2⟩ := mem_get? hxo
          obtain ⟨_, hq2⟩ := mem_get? hq
          rw [← hx2, ← hq2]
          exact hsib j hjs hjc hxn
        · have hxo : x ∈ l.get? j := by rw [← lswap_other l hji hjc]; exact hx
          have hpi : (j - 1) / 2 ≠ i := by omega
          have hpc : (j - 1) / 2 ≠ c := by omega
          rw [lswap_other l hpi hpc] at hq
          exact h1 j hj (fun a => hjs (Or.inl a)) (fun a => hjs (Or.inr a)) x hxo q hq
  · intro _ d hd x hx q hq
    have hdi : d ≠ i := by omega
    have hdc : d ≠ c := by omega
    have hxo : x ∈ l.get? d := by rw [← lswap_other l hdi hdc]; exact hx
    have hpar : (c - 1) / 2 = i := by omega
    rw [hpar, lswap_fst l hi hc] at hq
    obtain ⟨hxn, hx2⟩ := mem_get? hxo
    obtain ⟨_, hq2⟩ := mem_get? hq
    rw [← hx2, ← hq2]
    have hpard : (d - 1) / 2 = c := by omega
    exact h1 d (by omega) (by omega) (by omega) (l.get ⟨d, hxn⟩) (get_mem_get? l hxn)
      (l.get ⟨c, hc⟩) (by rw [hpard]; exact get_mem_get? l hc)

theorem reheapDown_correct : ∀ (fuel : Nat) (l : List T) (i : Nat), l.length ≤ fuel + i →
    AlmostDown l i →
    heapInv (reheapDown l i fuel) ∧ (∀ x, x ∈ reheapDown l i fuel ↔ x ∈ l) ∧
      (reheapDown l i fuel).length = l.length := by
  intro fuel
  induction fuel with
  | zero =>
    intro l i hfuel h
    exact ⟨almostDown_stop l i h (fun c hcc hc hi => by omega), fun x => Iff.rfl, rfl⟩
  | succ fuel IH =>
    intro l i hfuel h
    rw [reheapDown]
    by_cases hr : i * 2 + 2 < l.length ∧ i < l.length
    · rw [dif_pos hr]
      by_cases hswl : l.get ⟨i * 2 + 1, by omega⟩ < l.get ⟨i, hr.2⟩ ∧
          ¬(l.get ⟨i * 2 + 2, hr.1⟩ < l.get ⟨i * 2 + 1, by omega⟩)
      · rw [if_pos hswl]
        have hstep : AlmostDown (lswap l i (i * 2 + 1)) (i * 2 + 1) :=
          almostDown_swap l i (i * 2 + 1) hr.2 (by omega) (Or.inl rfl) h hswl.1
            (fun s hs12 hsne hs => by
              have hs2 : s = i * 2 + 2 := by omega
              subst hs2
              exact not_lt.1 hswl.2)
        have hrec := IH (lswap l i (i * 2 + 1)) (i * 2 + 1) (by rw [lswap_len]; omega) hstep
        refine ⟨hrec.1, ?_, ?_⟩
        · intro x; rw [hrec.2.1 x, lswap_mem]
        · rw [hrec.2.2, lswap_len]
      · rw [if_neg hswl]
        by_cases hswr : l.get ⟨i * 2 + 2, hr.1⟩ < l.get ⟨i, hr.2⟩ ∧
            ¬(l.get ⟨i * 2 + 1, by omega⟩ < l.get ⟨i * 2 + 2, hr.1⟩)
        · rw [if_pos hswr]
          have hstep : AlmostDown (lswap l i (i * 2 + 2)) (i * 2 + 2) :=
            almostDown_swap l i (i * 2 + 2) hr.2 hr.1 (Or.inr rfl) h hswr.1
              (fun s hs12 hsne hs => by
                have hs2 : s = i * 2 + 1 := by omega
                subst hs2
                exact not_lt.1 hswr.2)
          have hrec := IH (lswap l i (i * 2 + 2)) (i * 2 + 2) (by rw [lswap_len]; omega) hstep
          refine ⟨hrec.1, ?_, ?_⟩
          · intro x; rw [hrec.2.1 x, lswap_mem]
          · rw [hrec.2.2, lswap_len]
        · rw [if_neg hswr]
          refine ⟨?_, fun x => Iff.rfl, rfl⟩
          have hplc : ¬(l.get ⟨i * 2 + 1, by omega⟩ < l.get ⟨i, hr.2⟩) := by
            intro hlc
            by_cases hrl : l.get ⟨i * 2 + 2, hr.1⟩ < l.get ⟨i * 2 + 1, by omega⟩
            · exact hswr ⟨lt_trans hrl hlc, not_lt.2 (le_of_lt hrl)⟩
            · exact hswl ⟨hlc, hrl⟩
          have hprc : ¬(l.get ⟨i * 2 + 2, hr.1⟩ < l.get ⟨i, hr.2⟩) := by
            intro hrc
            refine hswr ⟨hrc, fun hlr => ?_⟩
            exact hplc (lt_trans hlr hrc)
          refine almostDown_stop l i h (fun c hcc hc hi => ?_)
          rcases hcc with rfl | rfl
          · exact not_lt.1 hplc
          · exact not_lt.1 hprc
    · rw [dif_neg hr]
      by_cases hl : i * 2 + 1 < l.length ∧ i < l.length
      · rw [dif_pos hl]
        by_cases hsw : l.get ⟨i * 2 + 1, hl.1⟩ < l.get ⟨i, hl.2⟩
        · rw [if_pos hsw]
          have hstep : AlmostDown (lswap l i (i * 2 + 1)) (i * 2 + 1) :=
            almostDown_swap l i (i * 2 + 1) hl.2 hl.1 (Or.inl rfl) h hsw
              (fun s hs12 hsne hs => by
                have hs2 : s = i * 2 + 2 := by omega
                exact absurd hs (by omega))
          refine ⟨?_, fun x => lswap_mem l i (i * 2 + 1) x, lswap_len l i (i * 2 + 1)⟩
          refine almostDown_stop _ _ hstep (fun c hcc hc hic => ?_)
          rw [lswap_len] at hc
          exact absurd hc (by omega)
        · rw [if_neg hsw]
          refine ⟨?_, fun x => Iff.rfl, rfl⟩
          refine almostDown_stop l i h (fun c hcc hc hi => ?_)
          rcases hcc with rfl | rfl
          · exact not_lt.1 hsw
          · exact absurd hc (by omega)
      · rw [dif_neg hl]
        refine ⟨?_, fun x => Iff.rfl, rfl⟩
        refine almostDown_stop l i h (fun c hcc hc hi => ?_)
        rcases not_and_or.1 hl with h1 | h2
        · exact absurd hc (by omega)
        · exact absurd hi (by omega)

theorem pushHeap_correct (h : Heap T) (x : T) (hinv : heapInv h.data) :
    heapInv (pushHeap h x).data ∧
      (∀ y, y ∈ (pushHeap h x).data ↔ y ∈ h.data ∨ y = x) ∧
      (pushHeap h x).data.length = h.data.length + 1 := by
  have hlen : (h.data ++ [x]).length = h.data.length + 1 := by simp
  have hau : AlmostUp (h.data ++ [x]) h.data.length := by
    constructor
    · intro j hj hji y hy q hq
      have hjlt : j < h.data.length := by
        obtain ⟨hn, _⟩ := mem_get? hy
        rw [hlen] at hn; omega
      rw [List.get?_append hjlt] at hy
      rw [List.get?_append (by omega)] at hq
      exact hinv j hj y hy q hq
    · intro c hc y hy q hq
      obtain ⟨hn, _⟩ := mem_get? hy
      rw [hlen] at hn; omega
  have hcall := reheapUp_correct (h.data ++ [x]).length (h.data ++ [x])
      ((h.data ++ [x]).length - 1) (by omega) (by rw [hlen]; exact hau)
  refine ⟨hcall.1, ?_, ?_⟩
  · intro y
    rw [show (pushHeap h x).data =
        reheapUp (h.data ++ [x]) ((h.data ++ [x]).length - 1) (h.data ++ [x]).length from rfl,
      hcall.2.1 y, List.mem_append, List.mem_singleton]
  · rw [show (pushHeap h x).data =
        reheapUp (h.data ++ [x]) ((h.data ++ [x]).length - 1) (h.data ++ [x]).length from rfl,
      hcall.2.2, hlen]

theorem popHeap_correct (h h2 : Heap T) (hinv : heapInv h.data)
    (hp : popHeap h = some h2) :
    heapInv h2.data ∧ (∀ y, y ∈ h2.data → y ∈ h.data) ∧
      h2.data.length = h.data.length - 1 := by
  unfold popHeap at hp
  rcases hlast : h.data.getLast? with _ | last
  · rw [hlast] at hp; cases hp
  · rw [hlast] at hp
    dsimp only at hp
    have hne : h.data ≠ [] := by
      intro he; rw [he] at hlast; cases hlast
    have hpos : 0 < h.data.length := List.length_pos.2 hne
    by_cases h1 : h.data.length = 1
    · rw [if_pos h1] at hp
      obtain rfl : (⟨[], h.capacity⟩ : Heap T) = h2 := Option.some.inj hp
      refine ⟨fun j hj y hy q hq => ?_, fun y hy => ?_, by simp [h1]⟩
      · rw [List.get?_eq_none.2 (by simp)] at hy
        cases hy
      · cases hy
    · rw [if_neg h1] at hp
      have hlen2 : 2 ≤ h.data.length := by omega
      have hdl : (h.data.dropLast).length = h.data.length - 1 := by simp
      have hllen : ((h.data.dropLast).set 0 last).length = h.data.length - 1 := by
        rw [List.length_set, hdl]
      have hmem_last : last ∈ h.data := by
        have := List.getLast?_eq_getLast h.data hne
        rw [hlast] at this
        obtain rfl : h.data.getLast hne = last := (Option.some.inj this).symm
        exact List.getLast_mem hne
      have had : AlmostDown ((h.data.dropLast).set 0 last) 0 := by
        constructor
        · intro j hj hj1 hj2 y hy q hq
          obtain ⟨hn, _⟩ := mem_get? hy
          rw [hllen] at hn
          rw [List.get?_set_ne _ _ (by omega : (0 : Nat) ≠ j), List.dropLast_eq_take,
            List.get?_take (by omega)] at hy
          rw [List.get?_set_ne _ _ (by omega : (0 : Nat) ≠ (j - 1) / 2),
            List.dropLast_eq_take, List.get?_take (by omega)] at hq
          exact hinv j hj y hy q hq
        · intro h0; omega
      have hcall := reheapDown_correct (((h.data.dropLast).set 0 last).length + 1)
          ((h.data.dropLast).set 0 last) 0 (by omega) had
      obtain rfl : (⟨reheapDown ((h.data.dropLast).set 0 last) 0
          (((h.data.dropLast).set 0 last).length + 1), h.capacity⟩ : Heap T) = h2 :=
        Option.some.inj hp
      refine ⟨hcall.1, ?_, ?_⟩
      · intro y hy
        rw [hcall.2.1 y] at hy
        obtain ⟨n, hn⟩ := List.mem_iff_get?.1 hy
        have hnb : n < ((h.data.dropLast).set 0 last).length :=
          (List.get?_eq_some.1 hn).1
        rw [hllen] at hnb
        by_cases hn0 : n = 0
        · subst hn0
          rw [List.get?_set_eq] at hn
          have hd0 : 0 < (h.data.dropLast).length := by omega
          rw [List.get?_eq_get hd0] at hn
          simp only [Option.map_eq_map, Option.map_some, Option.some.injEq] at hn
          rw [← hn]
          exact hmem_last
        · rw [List.get?_set_ne _ _ (Ne.symm hn0), List.dropLast_eq_take,
            List.get?_take (by omega)] at hn
          exact List.mem_iff_get?.2 ⟨n, hn⟩
      · rw [hcall.2.2, hllen]

theorem heapInv_root_le (l : List T) (hinv : heapInv l) :
    ∀ i (hi : i < l.length) (h0 : 0 < l.length), l.get ⟨0, h0⟩ ≤ l.get ⟨i, hi⟩ := by
  intro i
  induction i using Nat.strong_induction_on with
  | _ i IH =>
    intro hi h0
    rcases Nat.eq_zero_or_pos i with rfl | hip
    · exact le_refl _
    · have hpar := hinv i hip (l.get ⟨i, hi⟩) (get_mem_get? l hi)
        (l.get ⟨(i - 1) / 2, by omega⟩) (get_mem_get? l (by omega))
      exact le_trans (IH ((i - 1) / 2) (by omega) (by omega) h0) hpar

theorem heapInv_top_min (l : List T) (hinv : heapInv l) :
    ∀ r ∈ l.head?, ∀ x ∈ l, r ≤ x := by
  intro r hr x hx
  have h0 : 0 < l.length := by
    cases l with
    | nil => cases hr
    | cons a t => simp
  have hr2 : r ∈ l.get? 0 := by rwa [List.get?_zero]
  obtain ⟨_, hr3⟩ := mem_get? hr2
  obtain ⟨n, hn⟩ := List.mem_iff_get?.1 hx
  obtain ⟨hnb, hn2⟩ := List.get?_eq_some.1 hn
  rw [← hr3, ← hn2]
  exact heapInv_root_le l hinv n hnb h0

theorem runHeap_inv : ∀ (ops : List (HOp T)) (h0 h1 : Heap T), heapInv h0.data →
    runHeap h0 ops = some h1 → heapInv h1.data := by
  intro ops
  induction ops with
  | nil =>
    intro h0 h1 hi hr
    obtain rfl := Option.some.inj hr
    exact hi
  | cons op rest IH =>
    intro h0 h1 hi hr
    cases op with
    | push x => exact IH (pushHeap h0 x) h1 (pushHeap_correct h0 x hi).1 hr
    | pop =>
      rcases hpop : popHeap h0 with _ | h2
      · rw [runHeap, hpop] at hr; cases hr
      · rw [runHeap, hpop] at hr
        exact IH h2 h1 (popHeap_correct h0 h2 hi hpop).1 hr

/-- C6: for every sequence of pushes and pops starting from the empty heap
(a pop on an empty heap is the source's fatal `assert` and yields no
result), the structural invariant `data[parent(i)] ≤ data[i]` holds for all
non-root live indices after every operation, and `top()` is a minimum of
the currently held elements. -/
theorem C6_heap_invariant_and_top_min {T : Type} [LinearOrder T]
    (ops : List (HOp T)) (hh : Heap T)
    (hrun : runHeap emptyHeap ops = some hh) :
    heapInv hh.data ∧ ∀ r ∈ topHeap hh, ∀ x ∈ hh.data, r ≤ x := by
  have hinv : heapInv hh.data := by
    refine runHeap_inv ops emptyHeap hh ?_ hrun
    intro j hj y hy q hq
    cases hy
  exact ⟨hinv, heapInv_top_min hh.data hinv⟩

/-- Witness for `C6_heap_invariant_and_top_min`: the spec's own scenario,
push 5,3,8,1,4 then pop, evaluated concretely. -/
theorem C6_heap_invariant_and_top_min_witness :
    runHeap (emptyHeap : Heap Nat)
        [.push 5, .push 3, .push 8, .push 1, .push 4, .pop] = some ⟨[3, 4, 8, 5], 8⟩ ∧
      (heapInv ([3, 4, 8, 5] : List Nat) ∧
        ∀ r ∈ topHeap (⟨[3, 4, 8, 5], 8⟩ : Heap Nat),
          ∀ x ∈ ([3, 4, 8, 5] : List Nat), r ≤ x) :=
  ⟨by decide,
    C6_heap_invariant_and_top_min [.push 5, .push 3, .push 8, .push 1, .push 4, .pop]
      ⟨[3, 4, 8, 5], 8⟩ (by decide)⟩

end HeapProofs

section MapProofs

variable {K V : Type} [DecidableEq K] [DecidableEq V]

theorem bget_set {buf : List (Slot K V)} {i : Nat} (s : Slot K V) (hi : i < buf.length)
    (j : Nat) : bget (buf.set i s) j = if j = i then s else bget buf j := by
  unfold bget
  by_cases hji : j = i
  · subst hji
    rw [List.get?_set_eq, List.get?_eq_get hi]
    simp
  · rw [List.get?_set_ne _ _ (Ne.symm hji), if_neg hji]

theorem kdistOf_lt {cap idx kidx : Nat} (h1 : idx < cap) (h2 : kidx < cap) :
    kdistOf cap idx kidx < cap := by
  unfold kdistOf; split <;> omega

theorem nextIdx_lt {cap idx : Nat} (h : idx < cap) : nextIdx cap idx < cap := by
  unfold nextIdx; split <;> omega

theorem prevIdx_lt {cap i : Nat} (h0 : 0 < cap) (hi : i < cap) : prevIdx cap i < cap := by
  unfold prevIdx; split <;> omega

theorem prevIdx_nextIdx {cap idx : Nat} (h : idx < cap) :
    prevIdx cap (nextIdx cap idx) = idx := by
  unfold nextIdx
  by_cases h1 : idx + 1 = cap
  · rw [if_pos h1]; unfold prevIdx; rw [if_pos rfl]; omega
  · rw [if_neg h1]; unfold prevIdx; rw [if_neg (by omega : ¬(idx + 1 = 0))]; omega

theorem kdistOf_eq_zero {cap i q : Nat} (hi : i < cap) (hq : q < cap) :
    kdistOf cap i q = 0 ↔ i = q := by
  unfold kdistOf; split <;> omega

theorem kdistOf_next_to {cap j idx : Nat} (hj : j < cap) (hi : idx < cap)
    (h : 0 < kdistOf cap j idx) :
    kdistOf cap j (nextIdx cap idx) = kdistOf cap j idx - 1 := by
  unfold kdistOf at h
  unfold kdistOf nextIdx
  by_cases h1 : idx + 1 = cap
  · rw [if_pos h1]
    split_ifs at h ⊢ <;> omega
  · rw [if_neg h1]
    split_ifs at h ⊢ <;> omega

theorem kdistOf_from_next {cap idx q : Nat} (hi : idx < cap) (hq : q < cap)
    (h : kdistOf cap idx q < cap - 1) :
    kdistOf cap (nextIdx cap idx) q = kdistOf cap idx q + 1 := by
  unfold kdistOf at h
  unfold kdistOf nextIdx
  by_cases h1 : idx + 1 = cap
  · rw [if_pos h1]
    split_ifs at h ⊢ <;> omega
  · rw [if_neg h1]
    split_ifs at h ⊢ <;> omega

theorem hashOf_ne_zero (hf : K → Nat) (k : K) : hashOf hf k ≠ 0 := by
  unfold hashOf
  intro h
  have h0 := Nat.testBit_lor (hf k % 2 ^ 64) 1 0
  rw [h] at h0
  simp at h0

theorem hashOf_lt (hf : K → Nat) (k : K) : hashOf hf k < 2 ^ 64 := by
  unfold hashOf
  exact Nat.or_lt_two_pow (Nat.mod_lt _ (by norm_num)) (by norm_num)

theorem shiftRight_lt_of_lt {h s : Nat} (hs : s ≤ 64) (hlt : h < 2 ^ 64) :
    h >>> s < 2 ^ (64 - s) := by
  rw [Nat.shiftRight_eq_div_pow]
  refine Nat.div_lt_of_lt_mul ?_
  calc h < 2 ^ 64 := hlt
    _ = 2 ^ (s + (64 - s)) := by congr 1; omega
    _ = 2 ^ s * 2 ^ (64 - s) := pow_add 2 s (64 - s)

theorem WF_ideal {hf : K → Nat} {m : Map K V} (hwf : WF hf m) :
    ∀ i < m.capacity, idealOf m.shift m.data i < m.capacity := by
  intro i hi
  obtain ⟨hlen, hs1, hs64, hcap, hslots⟩ := hwf
  have hsw := hslots i hi
  unfold idealOf
  unfold slotWF at hsw
  rcases hd : (bget m.data i).data with _ | p
  · rw [hd] at hsw
    rw [hsw]
    simp only [Nat.zero_shiftRight]
    omega
  · rw [hd] at hsw
    rw [hsw]
    exact lt_of_lt_of_le (shiftRight_lt_of_lt hs64 (hashOf_lt hf p.1)) hcap

theorem WF_cap_pos {hf : K → Nat} {m : Map K V} (hwf : WF hf m) : 0 < m.capacity :=
  lt_of_lt_of_le (Nat.pos_pow_of_pos _ (by norm_num)) hwf.2.2.2.1

theorem rh_chain {cap shift : Nat} {buf : List (Slot K V)}
    (hideal : ∀ i < cap, idealOf shift buf i < cap)
    (hinv : rhInv cap shift buf) {j : Nat} (hj : j < cap) (hocc : occupied buf j) :
    ∀ r, r ≤ slotDist cap shift buf j → ∀ idx, idx < cap → kdistOf cap j idx = r →
      occupied buf idx ∧ slotDist cap shift buf j - r ≤ slotDist cap shift buf idx := by
  intro r
  induction r with
  | zero =>
    intro _ idx hidx hk
    obtain rfl : j = idx := (kdistOf_eq_zero hj hidx).1 hk
    exact ⟨hocc, by omega⟩
  | succ r IH =>
    intro hr idx hidx hk
    have hkpos : 0 < kdistOf cap j idx := by omega
    have hnext := kdistOf_next_to hj hidx hkpos
    have hnlt := nextIdx_lt hidx
    have IH2 := IH (by omega) (nextIdx cap idx) hnlt (by omega)
    have hdpos : 0 < slotDist cap shift buf (nextIdx cap idx) := by omega
    have hrh := hinv (nextIdx cap idx) hnlt IH2.1 hdpos
    rw [prevIdx_nextIdx hidx] at hrh
    exact ⟨hrh.1, by omega⟩

theorem tryGetLoop_absent {cap shift : Nat} {buf : List (Slot K V)} {h : Nat} {key : K}
    (hideal : ∀ i < cap, idealOf shift buf i < cap)
    (hnomatch : ∀ i < cap, ¬((bget buf i).hash = h ∧ slotKeyIs (bget buf i) key)) :
    ∀ fuel idx dist, idx < cap → dist ≤ cap → cap + 1 ≤ fuel + dist →
      tryGetLoop cap shift buf h key idx dist fuel = some none := by
  intro fuel
  induction fuel with
  | zero => intro idx dist h1 h2 h3; omega
  | succ fuel IH =>
    intro idx dist hidx hdist hfd
    simp only [tryGetLoop]
    by_cases he : (bget buf idx).hash = 0
    · rw [if_pos he]
    · rw [if_neg he, if_neg (hnomatch idx hidx)]
      by_cases hex : kdistOf cap idx ((bget buf idx).hash >>> shift) < dist
      · rw [if_pos hex]
      · rw [if_neg hex]
        have hkd : kdistOf cap idx ((bget buf idx).hash >>> shift) < cap :=
          kdistOf_lt hidx (hideal idx hidx)
        exact IH (nextIdx cap idx) (dist + 1) (nextIdx_lt hidx) (by omega) (by omega)

theorem tryEraseLoop_absent {cap shift : Nat} {buf : List (Slot K V)} {h : Nat} {key : K}
    (hideal : ∀ i < cap, idealOf shift buf i < cap)
    (hnomatch : ∀ i < cap, ¬((bget buf i).hash = h ∧ slotKeyIs (bget buf i) key)) :
    ∀ fuel idx dist, idx < cap → dist ≤ cap → cap + 1 ≤ fuel + dist →
      tryEraseLoop cap shift buf h key idx dist fuel = some (false, buf) := by
  intro fuel
  induction fuel with
  | zero => intro idx dist h1 h2 h3; omega
  | succ fuel IH =>
    intro idx dist hidx hdist hfd
    simp only [tryEraseLoop]
    rw [if_neg (hnomatch idx hidx)]
    by_cases hex : kdistOf cap idx ((bget buf idx).hash >>> shift) < dist
    · rw [if_pos hex]
    · rw [if_neg hex]
      have hkd : kdistOf cap idx ((bget buf idx).hash >>> shift) < cap :=
        kdistOf_lt hidx (hideal idx hidx)
      exact IH (nextIdx cap idx) (dist + 1) (nextIdx_lt hidx) (by omega) (by omega)

/-- C3: when the key is absent (stored in no occupied slot), the erase
probe reports exactly what lookup reports: `try_get` returns the empty
result, `try_erase` returns `false` and leaves the map unchanged, and
`erase` aborts fatally (modelled as `none`).  `try_erase` locates the slot
with the same probe start, the same match test and the same
`kdist < dist` early-exit rule as `try_get`; it has no explicit empty-slot
check, but an empty slot never matches (a real tag has bit 0 set), so the
probe still terminates in the absent verdict. -/
theorem C3_absent_erase_matches_lookup (hf : K → Nat) (m : Map K V) (key : K)
    (hwf : WF hf m) (habs : keyAbsent m key) :
    tryErase hf m key = some (false, m) ∧ eraseKey hf m key = none ∧
      tryGet hf m key = some none := by
  have hideal := WF_ideal hwf
  have hnomatch : ∀ i < m.capacity,
      ¬((bget m.data i).hash = hashOf hf key ∧ slotKeyIs (bget m.data i) key) := by
    intro i hi hcon
    have hocc : occupied m.data i := by
      unfold occupied; rw [hcon.1]; exact hashOf_ne_zero hf key
    exact habs i hi hocc hcon.2
  have hcpos : 0 < m.capacity := WF_cap_pos hwf
  have hidx0 : hashOf hf key >>> m.shift < m.capacity :=
    lt_of_lt_of_le (shiftRight_lt_of_lt hwf.2.2.1 (hashOf_lt hf key)) hwf.2.2.2.1
  have hte : tryErase hf m key = some (false, m) := by
    unfold tryErase
    by_cases hl : m.length = 0
    · rw [if_pos hl]
    · rw [if_neg hl]
      simp only
      rw [tryEraseLoop_absent hideal hnomatch (m.capacity + 1) _ 0 hidx0 (by omega) (by omega)]
  refine ⟨hte, ?_, ?_⟩
  · unfold eraseKey
    rw [hte]
    rfl
  · unfold tryGet
    by_cases hl : m.length = 0
    · rw [if_pos hl]
    · rw [if_neg hl]
      simp only
      exact tryGetLoop_absent hideal hnomatch (m.capacity + 1) _ 0 hidx0 (by omega) (by omega)

/-- Witness for `C3_absent_erase_matches_lookup`: a capacity-8 map holding
key 1, probed for the absent key 2. -/
theorem C3_absent_erase_matches_lookup_witness :
    (WF hash8 (⟨[⟨0, none⟩, ⟨2 ^ 61 + 1, some (1, 5)⟩, ⟨0, none⟩, ⟨0, none⟩,
        ⟨0, none⟩, ⟨0, none⟩, ⟨0, none⟩, ⟨0, none⟩], 8, 1, 6, 61⟩ : Map Nat Nat) ∧
      keyAbsent (⟨[⟨0, none⟩, ⟨2 ^ 61 + 1, some (1, 5)⟩, ⟨0, none⟩, ⟨0, none⟩,
        ⟨0, none⟩, ⟨0, none⟩, ⟨0, none⟩, ⟨0, none⟩], 8, 1, 6, 61⟩ : Map Nat Nat) 2) ∧
      (tryErase hash8 (⟨[⟨0, none⟩, ⟨2 ^ 61 + 1, some (1, 5)⟩, ⟨0, none⟩, ⟨0, none⟩,
        ⟨0, none⟩, ⟨0, none⟩, ⟨0, none⟩, ⟨0, none⟩], 8, 1, 6, 61⟩ : Map Nat Nat) 2 =
          some (false, ⟨[⟨0, none⟩, ⟨2 ^ 61 + 1, some (1, 5)⟩, ⟨0, none⟩, ⟨0, none⟩,
            ⟨0, none⟩, ⟨0, none⟩, ⟨0, none⟩, ⟨0, none⟩], 8, 1, 6, 61⟩) ∧
        eraseKey hash8 (⟨[⟨0, none⟩, ⟨2 ^ 61 + 1, some (1, 5)⟩, ⟨0, none⟩, ⟨0, none⟩,
          ⟨0, none⟩, ⟨0, none⟩, ⟨0, none⟩, ⟨0, none⟩], 8, 1, 6, 61⟩ : Map Nat Nat) 2 = none ∧
        tryGet hash8 (⟨[⟨0, none⟩, ⟨2 ^ 61 + 1, some (1, 5)⟩, ⟨0, none⟩, ⟨0, none⟩,
          ⟨0, none⟩, ⟨0, none⟩, ⟨0, none⟩, ⟨0, none⟩], 8, 1, 6, 61⟩ : Map Nat Nat) 2 =
          some none) :=
  ⟨⟨by decide, by decide⟩,
    C3_absent_erase_matches_lookup hash8 _ 2 (by decide) (by decide)⟩

theorem bget_set_self {buf : List (Slot K V)} {i : Nat} (s : Slot K V)
    (hi : i < buf.length) : bget (buf.set i s) i = s := by
  rw [bget_set s hi, if_pos rfl]

theorem bget_set_other {buf : List (Slot K V)} {i j : Nat} (s : Slot K V)
    (hj : j ≠ i) : bget (buf.set i s) j = bget buf j := by
  unfold bget
  rw [List.get?_set_ne _ _ (Ne.symm hj)]

theorem occupied_set_other {buf : List (Slot K V)} {i j : Nat} (s : Slot K V)
    (hj : j ≠ i) : occupied (buf.set i s) j ↔ occupied buf j := by
  unfold occupied; rw [bget_set_other s hj]

theorem slotDist_set_other {cap shift : Nat} {buf : List (Slot K V)} {i j : Nat}
    (s : Slot K V) (hj : j ≠ i) :
    slotDist cap shift (buf.set i s) j = slotDist cap shift buf j := by
  unfold slotDist idealOf; rw [bget_set_other s hj]

theorem prevIdx_ne {cap i : Nat} (h2 : 2 ≤ cap) (hi : i < cap) : prevIdx cap i ≠ i := by
  unfold prevIdx; split <;> omega

theorem nextIdx_prevIdx {cap i : Nat} (hi : i < cap) :
    nextIdx cap (prevIdx cap i) = i := by
  unfold prevIdx
  by_cases h0 : i = 0
  · rw [if_pos h0]; unfold nextIdx; rw [if_pos (by omega)]; omega
  · rw [if_neg h0]; unfold nextIdx; rw [if_neg (by omega)]; omega

theorem keysMatch_keyOf {s t : Slot K V} (h : keysMatch s t) : keyOf s = keyOf t := by
  unfold keysMatch at h
  rcases ht : t.data with _ | q
  · rw [ht] at h; cases h
  · rw [ht] at h
    unfold slotKeyIs at h
    rcases hs : s.data with _ | p
    · rw [hs] at h; cases h
    · rw [hs] at h
      unfold keyOf
      rw [hs, ht]
      simp [h]

theorem occount_set {buf : List (Slot K V)} :
    ∀ {i : Nat}, i < buf.length → ∀ s : Slot K V,
      occount (buf.set i s) + (if (bget buf i).hash ≠ 0 then 1 else 0) =
        occount buf + (if s.hash ≠ 0 then 1 else 0) := by
  induction buf with
  | nil => intro i hi s; exact absurd hi (by simp)
  | cons a t IH =>
    intro i hi s
    cases i with
    | zero =>
      unfold occount bget
      simp only [List.set, List.get?, Option.getD_some, List.countP_cons]
      by_cases ha : a.hash ≠ 0 <;> by_cases hs : s.hash ≠ 0 <;>
        simp [ha, hs] <;> omega
    | succ n =>
      have hn : n < t.length := by simpa using hi
      have IH2 := IH hn s
      unfold occount at IH2 ⊢
      have hb : bget (a :: t) (n + 1) = bget t n := by unfold bget; rfl
      rw [hb]
      simp only [List.set, List.countP_cons]
      omega

theorem insertSlotLoop_fresh {cap shift : Nat} :
    ∀ (fuel : Nat) (buf : List (Slot K V)) (slot : Slot K V) (idx dist e : Nat),
      buf.length = cap →
      (∀ i < cap, idealOf shift buf i < cap) →
      slot.hash >>> shift < cap →
      slot.hash ≠ 0 →
      idx < cap →
      kdistOf cap idx (slot.hash >>> shift) = dist →
      rhInv cap shift buf →
      (0 < dist → occupied buf (prevIdx cap idx) ∧
        dist - 1 ≤ slotDist cap shift buf (prevIdx cap idx)) →
      distinctKeys cap buf →
      (∀ i < cap, occupied buf i → keyOf (bget buf i) ≠ keyOf slot) →
      e < cap → ¬occupied buf e →
      dist + kdistOf cap e idx ≤ cap - 1 →
      kdistOf cap e idx < fuel →
      ∃ buf2, insertSlotLoop cap shift buf slot idx dist fuel = some buf2 ∧
        buf2.length = cap ∧
        rhInv cap shift buf2 ∧
        distinctKeys cap buf2 ∧
        occount buf2 = occount buf + 1 ∧
        (∀ k2 v2, HasPairB cap buf2 k2 v2 ↔
          (HasPairB cap buf k2 v2 ∨ slot.data = some (k2, v2))) ∧
        (∀ P : Slot K V → Prop, P slot →
          (∀ i < cap, P (bget buf i)) →
          ∀ i < cap, P (bget buf2 i)) := by
  intro fuel
  induction fuel with
  | zero => intro buf slot idx dist e _ _ _ _ _ _ _ _ _ _ _ _ _ hf; omega
  | succ fuel IH =>
    intro buf slot idx dist e hlen hideal hsideal hshash hidx hJ1 hinv hJ3 hdk hkey
      he hempty hsum hfuel
    by_cases hhe : (bget buf idx).hash = 0
    · refine ⟨buf.set idx slot, ?_, ?_, ?_, ?_, ?_, ?_, ?_⟩
      · simp only [insertSlotLoop]
        rw [if_pos hhe]
      · rw [List.length_set, hlen]
      · intro j hj
        have hds : slotDist cap shift (buf.set idx slot) idx =
            kdistOf cap idx (slot.hash >>> shift) := by
          unfold slotDist idealOf
          rw [bget_set_self slot (by omega)]
        by_cases hji : j = idx
        · subst hji
          intro _ hd
          rw [hds, hJ1] at hd
          have hdlt : dist < cap := by
            rw [← hJ1]; exact kdistOf_lt hidx hsideal
          have hcap2 : 2 ≤ cap := by omega
          have hpne : prevIdx cap j ≠ j := prevIdx_ne hcap2 hidx
          obtain ⟨hop, hdp⟩ := hJ3 hd
          rw [hds, hJ1]
          rw [occupied_set_other slot hpne, slotDist_set_other slot hpne]
          exact ⟨hop, hdp⟩
        · intro hocc2 hd2
          rw [occupied_set_other slot hji] at hocc2
          rw [slotDist_set_other slot hji] at hd2 ⊢
          obtain ⟨hop, hdp⟩ := hinv j hj hocc2 hd2
          by_cases hpj : prevIdx cap j = idx
          · rw [hpj] at hop
            exact absurd hhe hop
          · rw [occupied_set_other slot hpj, slotDist_set_other slot hpj]
            exact ⟨hop, hdp⟩
      · intro i hi j hj hij hoi hoj
        by_cases hii : i = idx
        · subst hii
          have hjne : j ≠ i := Ne.symm hij
          rw [occupied_set_other slot hjne] at hoj
          rw [bget_set_self slot (by omega), bget_set_other slot hjne]
          exact fun hcon => hkey j hj hoj (by unfold keyOf; rw [hcon])
        · by_cases hjj : j = idx
          · subst hjj
            rw [occupied_set_other slot hii] at hoi
            rw [bget_set_self slot (by omega), bget_set_other slot hii]
            exact fun hcon => hkey i hi hoi (by unfold keyOf; rw [← hcon])
          · rw [occupied_set_other slot hii] at hoi
            rw [occupied_set_other slot hjj] at hoj
            rw [bget_set_other slot hii, bget_set_other slot hjj]
            exact hdk i hi j hj hij hoi hoj
      · have := occount_set (by omega : idx < buf.length) slot
        rw [if_neg (by simpa using hhe), if_pos hshash] at this
        omega
      · intro k2 v2
        constructor
        · rintro ⟨i, hi, hocc2, hdata⟩
          by_cases hii : i = idx
          · subst hii
            rw [bget_set_self slot (by omega)] at hdata
            exact Or.inr hdata
          · rw [occupied_set_other slot hii] at hocc2
            rw [bget_set_other slot hii] at hdata
            exact Or.inl ⟨i, hi, hocc2, hdata⟩
        · rintro (⟨i, hi, hocc2, hdata⟩ | hdata)
          · have hii : i ≠ idx := by
              intro hcon; rw [hcon] at hocc2; exact hocc2 hhe
            refine ⟨i, hi, ?_, ?_⟩
            · rw [occupied_set_other slot hii]; exact hocc2
            · rw [bget_set_other slot hii]; exact hdata
          · refine ⟨idx, hidx, ?_, ?_⟩
            · unfold occupied
              rw [bget_set_self slot (by omega)]
              exact hshash
            · rw [bget_set_self slot (by omega)]; exact hdata
      · intro P hPs hPb i hi
        by_cases hii : i = idx
        · subst hii
          rw [bget_set_self slot (by omega)]
          exact hPs
        · rw [bget_set_other slot hii]
          exact hPb i hi
    · have hoccidx : occupied buf idx := hhe
      by_cases hm : (bget buf idx).hash = slot.hash ∧ keysMatch (bget buf idx) slot
      · exact absurd (keysMatch_keyOf hm.2) (hkey idx hidx hoccidx)
      · have heidx : idx ≠ e := by
          intro hcon; rw [hcon] at hoccidx; exact hempty hoccidx
        have hke : 0 < kdistOf cap e idx := by
          rcases Nat.eq_zero_or_pos (kdistOf cap e idx) with h0 | hpos
          · exact absurd ((kdistOf_eq_zero he hidx).1 h0) (Ne.symm heidx)
          · exact hpos
        have hkenext := kdistOf_next_to he hidx hke
        have hnlt := nextIdx_lt hidx
        have hhdlt : kdistOf cap idx ((bget buf idx).hash >>> shift) < cap :=
          kdistOf_lt hidx (hideal idx hidx)
        by_cases hsw : kdistOf cap idx ((bget buf idx).hash >>> shift) < dist
        · have hslen : idx < buf.length := by omega
          have hIH := IH (buf.set idx slot) (bget buf idx) (nextIdx cap idx)
            (kdistOf cap idx ((bget buf idx).hash >>> shift) + 1) e
            (by rw [List.length_set, hlen])
            (by
              intro i hi
              by_cases hii : i = idx
              · subst hii
                unfold idealOf
                rw [bget_set_self slot hslen]
                exact hsideal
              · unfold idealOf
                rw [bget_set_other slot hii]
                exact hideal i hi)
            (hideal idx hidx) hhe hnlt
            (kdistOf_from_next hidx (hideal idx hidx) (by omega))
            (by
              intro j hj
              have hdsj : slotDist cap shift (buf.set idx slot) idx =
                  kdistOf cap idx (slot.hash >>> shift) := by
                unfold slotDist idealOf
                rw [bget_set_self slot hslen]
              by_cases hji : j = idx
              · subst hji
                intro _ hd
                rw [hdsj, hJ1] at hd
                have hcap2 : 2 ≤ cap := by omega
                have hpne : prevIdx cap j ≠ j := prevIdx_ne hcap2 hidx
                obtain ⟨hop, hdp⟩ := hJ3 (by omega)
                rw [hdsj, hJ1]
                rw [occupied_set_other slot hpne, slotDist_set_other slot hpne]
                exact ⟨hop, hdp⟩
              · intro hocc2 hd2
                rw [occupied_set_other slot hji] at hocc2
                rw [slotDist_set_other slot hji] at hd2 ⊢
                obtain ⟨hop, hdp⟩ := hinv j hj hocc2 hd2
                by_cases hpj : prevIdx cap j = idx
                · rw [hpj] at hop hdp ⊢
                  unfold occupied
                  rw [bget_set_self slot hslen]
                  refine ⟨hshash, ?_⟩
                  rw [hdsj, hJ1]
                  have : slotDist cap shift buf idx =
                      kdistOf cap idx ((bget buf idx).hash >>> shift) := rfl
                  omega
                · rw [occupied_set_other slot hpj, slotDist_set_other slot hpj]
                  exact ⟨hop, hdp⟩)
            (by
              intro _
              rw [prevIdx_nextIdx hidx]
              constructor
              · unfold occupied
                rw [bget_set_self slot hslen]
                exact hshash
              · unfold slotDist idealOf
                rw [bget_set_self slot hslen, hJ1]
                omega)
            (by
              intro i hi j hj hij hoi hoj
              by_cases hii : i = idx
              · subst hii
                have hjne : j ≠ i := Ne.symm hij
                rw [occupied_set_other slot hjne] at hoj
                rw [bget_set_self slot hslen, bget_set_other slot hjne]
                exact fun hcon => hkey j hj hoj (by unfold keyOf; rw [hcon])
              · by_cases hjj : j = idx
                · subst hjj
                  rw [occupied_set_other slot hii] at hoi
                  rw [bget_set_self slot hslen, bget_set_other slot hii]
                  exact fun hcon => hkey i hi hoi (by unfold keyOf; rw [← hcon])
                · rw [occupied_set_other slot hii] at hoi
                  rw [occupied_set_other slot hjj] at hoj
                  rw [bget_set_other slot hii, bget_set_other slot hjj]
                  exact hdk i hi j hj hij hoi hoj)
            (by
              intro i hi hocc2
              by_cases hii : i = idx
              · subst hii
                rw [bget_set_self slot hslen]
                intro hcon
                exact hkey i hidx hoccidx (Eq.symm hcon)
              · rw [occupied_set_other slot hii] at hocc2
                rw [bget_set_other slot hii]
                intro hcon
                exact hdk i hi idx hidx hii hocc2 hoccidx hcon)
            he
            (by
              rw [occupied_set_other slot (Ne.symm heidx)] at *
              exact fun hcon => hempty hcon)
            (by omega) (by omega)
          obtain ⟨buf2, hloop2, hl2, hrh2, hdk2, hoc2, hpair2, hP2⟩ := hIH
          refine ⟨buf2, ?_, hl2, hrh2, hdk2, ?_, ?_, ?_⟩
          · simp only [insertSlotLoop]
            rw [if_neg hhe, if_neg hm, if_pos hsw]
            exact hloop2
          · rw [hoc2]
            have := occount_set hslen slot
            rw [if_pos (by simpa using hhe), if_pos hshash] at this
            omega
          · intro k2 v2
            rw [hpair2 k2 v2]
            constructor
            · rintro (⟨i, hi, hocc2, hdata⟩ | hdata)
              · by_cases hii : i = idx
                · subst hii
                  rw [bget_set_self slot hslen] at hdata
                  exact Or.inr hdata
                · rw [occupied_set_other slot hii] at hocc2
                  rw [bget_set_other slot hii] at hdata
                  exact Or.inl ⟨i, hi, hocc2, hdata⟩
              · exact Or.inl ⟨idx, hidx, hoccidx, hdata⟩
            · rintro (⟨i, hi, hocc2, hdata⟩ | hdata)
              · by_cases hii : i = idx
                · subst hii
                  exact Or.inr (by rw [← hdata])
                · refine Or.inl ⟨i, hi, ?_, ?_⟩
                  · rw [occupied_set_other slot hii]; exact hocc2
                  · rw [bget_set_other slot hii]; exact hdata
              · refine Or.inl ⟨idx, hidx, ?_, ?_⟩
                · unfold occupied
                  rw [bget_set_self slot hslen]
                  exact hshash
                · rw [bget_set_self slot hslen]; exact hdata
          · intro P hPs hPb i hi
            refine hP2 P (hPb idx hidx) ?_ i hi
            intro j hj
            by_cases hjj : j = idx
            · subst hjj
              rw [bget_set_self slot hslen]
              exact hPs
            · rw [bget_set_other slot hjj]
              exact hPb j hj
        · have hIH := IH buf slot (nextIdx cap idx) (dist + 1) e hlen hideal hsideal
            hshash hnlt
            (by
              rw [← hJ1]
              exact kdistOf_from_next hidx hsideal (by omega))
            hinv
            (by
              intro _
              rw [prevIdx_nextIdx hidx]
              refine ⟨hoccidx, ?_⟩
              have : slotDist cap shift buf idx =
                  kdistOf cap idx ((bget buf idx).hash >>> shift) := rfl
              omega)
            hdk hkey he hempty (by omega) (by omega)
          obtain ⟨buf2, hloop2, hrest⟩ := hIH
          refine ⟨buf2, ?_, hrest⟩
          simp only [insertSlotLoop]
          rw [if_neg hhe, if_neg hm, if_neg hsw]
          exact hloop2

theorem kdistOf_sub {cap q idx j : Nat} (hq : q < cap) (hi : idx < cap) (hj : j < cap)
    (hr : kdistOf cap j idx ≤ kdistOf cap j q) :
    kdistOf cap idx q = kdistOf cap j q - kdistOf cap j idx := by
  unfold kdistOf at *
  split_ifs at hr ⊢ <;> omega

theorem exists_empty_of_occount_lt {buf : List (Slot K V)}
    (h : occount buf < buf.length) : ∃ e < buf.length, ¬occupied buf e := by
  by_contra hcon
  push_neg at hcon
  have hall : ∀ s ∈ buf, s.hash ≠ 0 := by
    intro s hs
    obtain ⟨n, hn⟩ := List.mem_iff_get?.1 hs
    obtain ⟨hnb, hn2⟩ := List.get?_eq_some.1 hn
    have := hcon n hnb
    unfold occupied bget at this
    rw [hn] at this
    simpa [← hn2] using this
  have : occount buf = buf.length := by
    unfold occount
    rw [List.countP_eq_length]
    intro a ha
    simpa using hall a ha
  omega

theorem insertSlotLoop_dup {cap shift : Nat} {buf : List (Slot K V)} {slot : Slot K V}
    {j : Nat}
    (hlen : buf.length = cap)
    (hideal : ∀ i < cap, idealOf shift buf i < cap)
    (hinv : rhInv cap shift buf)
    (hdk : distinctKeys cap buf)
    (hj : j < cap) (hocc : occupied buf j)
    (hmatch : (bget buf j).hash = slot.hash ∧ keysMatch (bget buf j) slot) :
    ∀ r idx dist fuel, idx < cap →
      kdistOf cap j idx = r →
      dist = slotDist cap shift buf j - r →
      r ≤ slotDist cap shift buf j →
      r < fuel →
      insertSlotLoop cap shift buf slot idx dist fuel = some (buf.set j slot) := by
  have hqideal : (bget buf j).hash >>> shift = slot.hash >>> shift := by
    rw [hmatch.1]
  intro r
  induction r with
  | zero =>
    intro idx dist fuel hidx hkz hdist hrD hf
    obtain rfl : j = idx := (kdistOf_eq_zero hj hidx).1 hkz
    cases fuel with
    | zero => omega
    | succ fuel =>
      simp only [insertSlotLoop]
      rw [if_neg hocc, if_pos hmatch]
  | succ r IH =>
    intro idx dist fuel hidx hkr hdist hrD hf
    have hchain := rh_chain hideal hinv hj hocc (r + 1) hrD idx hidx hkr
    have hoccidx := hchain.1
    cases fuel with
    | zero => omega
    | succ fuel =>
      simp only [insertSlotLoop]
      rw [if_neg hoccidx]
      have hne : idx ≠ j := by
        intro hcon
        rw [hcon] at hkr
        rw [(kdistOf_eq_zero hj hj).2 rfl] at hkr
        omega
      rw [if_neg (by
        intro hcon
        have hk1 := keysMatch_keyOf hcon.2
        have hk2 := keysMatch_keyOf hmatch.2
        exact hdk idx hidx j hj hne hoccidx hocc (by
          unfold keyOf at hk1 hk2
          rw [hk1, hk2]))]
      rw [if_neg (by
        have : slotDist cap shift buf idx =
            kdistOf cap idx ((bget buf idx).hash >>> shift) := rfl
        omega)]
      have hknext := kdistOf_next_to hj hidx (by omega)
      exact IH (nextIdx cap idx) (dist + 1) fuel (nextIdx_lt hidx) (by omega)
        (by omega) (by omega) (by omega)

theorem all_occupied_of_occount {buf : List (Slot K V)} (h : occount buf = buf.length) :
    ∀ i < buf.length, occupied buf i := by
  intro i hi
  have hall := List.countP_eq_length.1 h
  have hget := List.get?_eq_get hi
  have hmem : buf.get ⟨i, hi⟩ ∈ buf := List.get_mem buf _ _
  have := hall _ hmem
  unfold occupied bget
  rw [hget]
  simpa using this

theorem set_fresh_distinct {cap : Nat} {buf : List (Slot K V)} {slot : Slot K V} {idx : Nat}
    (hlen : buf.length = cap) (hidx : idx < cap) (hdk : distinctKeys cap buf)
    (hkey : ∀ i < cap, occupied buf i → keyOf (bget buf i) ≠ keyOf slot) :
    distinctKeys cap (buf.set idx slot) := by
  have hslen : idx < buf.length := by omega
  intro i hi j hj hij hoi hoj
  by_cases hii : i = idx
  · subst hii
    have hjne : j ≠ i := Ne.symm hij
    rw [occupied_set_other slot hjne] at hoj
    rw [bget_set_self slot hslen, bget_set_other slot hjne]
    exact fun hcon => hkey j hj hoj (by unfold keyOf; rw [hcon])
  · by_cases hjj : j = idx
    · subst hjj
      rw [occupied_set_other slot hii] at hoi
      rw [bget_set_self slot hslen, bget_set_other slot hii]
      exact fun hcon => hkey i hi hoi (by unfold keyOf; rw [← hcon])
    · rw [occupied_set_other slot hii] at hoi
      rw [occupied_set_other slot hjj] at hoj
      rw [bget_set_other slot hii, bget_set_other slot hjj]
      exact hdk i hi j hj hij hoi hoj

theorem set_fresh_keys {cap : Nat} {buf : List (Slot K V)} {slot : Slot K V} {idx : Nat}
    (hlen : buf.length = cap) (hidx : idx < cap) (hocc : occupied buf idx)
    (hdk : distinctKeys cap buf)
    (hkey : ∀ i < cap, occupied buf i → keyOf (bget buf i) ≠ keyOf slot) :
    ∀ i < cap, occupied (buf.set idx slot) i →
      keyOf (bget (buf.set idx slot) i) ≠ keyOf (bget buf idx) := by
  intro i hi hocc2
  by_cases hii : i = idx
  · subst hii
    rw [bget_set_self slot (by omega)]
    intro hcon
    exact hkey i hidx hocc (Eq.symm hcon)
  · rw [occupied_set_other slot hii] at hocc2
    rw [bget_set_other slot hii]
    intro hcon
    exact hdk i hi idx hidx hii hocc2 hocc hcon

theorem insertSlotLoop_full {cap shift : Nat} :
    ∀ (fuel : Nat) (buf : List (Slot K V)) (slot : Slot K V) (idx dist : Nat),
      buf.length = cap →
      occount buf = cap →
      distinctKeys cap buf →
      (∀ i < cap, occupied buf i → keyOf (bget buf i) ≠ keyOf slot) →
      slot.hash ≠ 0 →
      idx < cap →
      insertSlotLoop cap shift buf slot idx dist fuel = none := by
  intro fuel
  induction fuel with
  | zero => intro buf slot idx dist _ _ _ _ _ _; rfl
  | succ fuel IH =>
    intro buf slot idx dist hlen hfull hdk hkey hsne hidx
    have hoccidx : occupied buf idx := all_occupied_of_occount (by omega) idx (by omega)
    simp only [insertSlotLoop]
    rw [if_neg hoccidx]
    rw [if_neg (fun hcon => hkey idx hidx hoccidx (keysMatch_keyOf hcon.2))]
    have hslen : idx < buf.length := by omega
    by_cases hsw : kdistOf cap idx ((bget buf idx).hash >>> shift) < dist
    · rw [if_pos hsw]
      refine IH (buf.set idx slot) (bget buf idx) (nextIdx cap idx) _
        (by rw [List.length_set, hlen]) ?_ ?_ ?_ hoccidx (nextIdx_lt hidx)
      · have := occount_set hslen slot
        rw [if_pos (by simpa using hoccidx), if_pos hsne] at this
        omega
      · exact set_fresh_distinct hlen hidx hdk hkey
      · exact set_fresh_keys hlen hidx hoccidx hdk hkey
    · rw [if_neg hsw]
      exact IH buf slot (nextIdx cap idx) (dist + 1) hlen hfull hdk hkey hsne (nextIdx_lt hidx)

theorem slotWF_occ {hf : K → Nat} {s : Slot K V} (hwf : slotWF hf s) (ho : s.hash ≠ 0) :
    ∃ p, s.data = some p ∧ s.hash = hashOf hf p.1 := by
  unfold slotWF at hwf
  rcases hd : s.data with _ | p
  · rw [hd] at hwf; exact absurd hwf ho
  · rw [hd] at hwf; exact ⟨p, rfl, hwf⟩

theorem slotWF_ideal {hf : K → Nat} {s : Slot K V} {shift cap : Nat}
    (hwf : slotWF hf s) (hs : shift ≤ 64) (hcap : 2 ^ (64 - shift) ≤ cap) :
    s.hash >>> shift < cap := by
  have hcpos : 0 < cap := lt_of_lt_of_le (Nat.pos_pow_of_pos _ (by norm_num)) hcap
  unfold slotWF at hwf
  rcases hd : s.data with _ | p
  · rw [hd] at hwf
    rw [hwf]
    simpa using hcpos
  · rw [hd] at hwf
    rw [hwf]
    exact lt_of_lt_of_le (shiftRight_lt_of_lt hs (hashOf_lt hf p.1)) hcap

theorem rehash_good {cap2 shift2 : Nat} (hf : K → Nat) (hs64 : shift2 ≤ 64)
    (hpow : 2 ^ (64 - shift2) ≤ cap2) :
    ∀ (src acc : List (Slot K V)),
      (∀ s ∈ src, slotWF hf s) →
      ListDistinctKeys src →
      acc.length = cap2 →
      (∀ i < cap2, slotWF hf (bget acc i)) →
      rhInv cap2 shift2 acc →
      distinctKeys cap2 acc →
      (∀ s ∈ src, s.hash ≠ 0 → ∀ i < cap2, occupied acc i →
        keyOf (bget acc i) ≠ keyOf s) →
      occount acc + occount src < cap2 + 1 →
      ∃ acc2, rehash cap2 shift2 src acc = some acc2 ∧
        acc2.length = cap2 ∧
        (∀ i < cap2, slotWF hf (bget acc2 i)) ∧
        rhInv cap2 shift2 acc2 ∧
        distinctKeys cap2 acc2 ∧
        occount acc2 = occount acc + occount src ∧
        (∀ k v, HasPairB cap2 acc2 k v ↔ (HasPairB cap2 acc k v ∨ ListHasPair src k v)) := by
  intro src
  induction src with
  | nil =>
    intro acc _ _ hlen hswf hinv hdk _ _
    refine ⟨acc, rfl, hlen, hswf, hinv, hdk, by simp [occount], ?_⟩
    intro k v
    simp only [ListHasPair, List.not_mem_nil]
    constructor
    · exact Or.inl
    · rintro (h | ⟨s, hs, _⟩)
      · exact h
      · cases hs
  | cons s rest IH =>
    intro acc hswf hldk hlen haccwf hinv hdk hdisj hsum
    have hswf0 : slotWF hf s := hswf s (List.mem_cons_self s rest)
    have hoccs : occount (s :: rest) =
        occount rest + (if s.hash ≠ 0 then 1 else 0) := by
      unfold occount
      rw [List.countP_cons]
      by_cases h0 : s.hash ≠ 0 <;> simp [h0]
    by_cases h0 : s.hash = 0
    · have hskip : rehash cap2 shift2 (s :: rest) acc = rehash cap2 shift2 rest acc := by
        simp only [rehash]
        rw [if_neg (by simpa using h0)]
      obtain ⟨acc2, hrun, hrest⟩ := IH acc
        (fun t ht => hswf t (List.mem_cons_of_mem s ht))
        (List.Pairwise.of_cons hldk) hlen haccwf hinv hdk
        (fun t ht h1 => hdisj t (List.mem_cons_of_mem s ht) h1)
        (by rw [hoccs] at hsum; simp [h0] at hsum; omega)
      refine ⟨acc2, by rw [hskip]; exact hrun, hrest.1, hrest.2.1, hrest.2.2.1,
        hrest.2.2.2.1, ?_, ?_⟩
      · rw [hrest.2.2.2.2.1, hoccs]
        simp [h0]
      · intro k v
        rw [hrest.2.2.2.2.2 k v]
        constructor
        · rintro (h | ⟨t, ht, hto, htd⟩)
          · exact Or.inl h
          · exact Or.inr ⟨t, List.mem_cons_of_mem s ht, hto, htd⟩
        · rintro (h | ⟨t, ht, hto, htd⟩)
          · exact Or.inl h
          · rcases List.mem_cons.1 ht with rfl | ht2
            · exact absurd h0 hto
            · exact Or.inr ⟨t, ht2, hto, htd⟩
    · obtain ⟨p, hpd, hph⟩ := slotWF_occ hswf0 h0
      have hsideal : s.hash >>> shift2 < cap2 := slotWF_ideal hswf0 hs64 hpow
      have hocclt : occount acc < cap2 := by
        rw [hoccs] at hsum
        simp [h0] at hsum
        omega
      obtain ⟨e, he, hempty⟩ := exists_empty_of_occount_lt (by omega :
        occount acc < acc.length)
      have he2 : e < cap2 := by omega
      have hkd : kdistOf cap2 e (s.hash >>> shift2) < cap2 := kdistOf_lt he2 hsideal
      obtain ⟨buf2, hloop, hl2, hrh2, hdk2, hoc2, hpair2, hP2⟩ :=
        insertSlotLoop_fresh (cap2 + 1) acc s (s.hash >>> shift2) 0 e hlen
          (fun i hi => slotWF_ideal (haccwf i hi) hs64 hpow) hsideal h0 hsideal
          ((kdistOf_eq_zero hsideal hsideal).2 rfl)
          hinv (fun hcon => absurd hcon (by omega)) hdk
          (fun i hi ho => hdisj s (List.mem_cons_self s rest) h0 i hi ho)
          he2 hempty (by omega) (by omega)
      have hbuf2wf : ∀ i < cap2, slotWF hf (bget buf2 i) :=
        hP2 (slotWF hf) hswf0 haccwf
      have hstep : rehash cap2 shift2 (s :: rest) acc =
          (insertSlotLoop cap2 shift2 acc s (s.hash >>> shift2) 0 (cap2 + 1)).bind
            (fun a2 => rehash cap2 shift2 rest a2) := by
        simp only [rehash]
        rw [if_pos (by simpa using h0)]
      obtain ⟨acc2, hrun, hlen2, hwf2, hinv2, hdk2b, hocc2, hpairs2⟩ := IH buf2
        (fun t ht => hswf t (List.mem_cons_of_mem s ht))
        (List.Pairwise.of_cons hldk) hl2 hbuf2wf hrh2 hdk2
        (by
          intro t ht h1 i hi hocc3
          obtain ⟨q, hqd, hqh⟩ := slotWF_occ (hbuf2wf i hi) hocc3
          have hpairq : HasPairB cap2 buf2 q.1 q.2 := ⟨i, hi, hocc3, by rw [hqd]⟩
          rw [hpair2 q.1 q.2] at hpairq
          intro hcon
          rcases hpairq with ⟨i2, hi2, hocc4, hdata4⟩ | hdata4
          · refine hdisj t (List.mem_cons_of_mem s ht) h1 i2 hi2 hocc4 ?_
            unfold keyOf at hcon ⊢
            rw [hdata4]
            rw [hqd] at hcon
            simpa using hcon
          · have hkeys : keyOf s = keyOf t := by
              unfold keyOf at hcon ⊢
              rw [hdata4, hqd] at *
              simpa using hcon
            have := List.rel_of_pairwise_cons hldk ht
            exact this h0 h1 hkeys)
        (by
          rw [hoc2]
          rw [hoccs] at hsum
          simp [h0] at hsum
          omega)
      refine ⟨acc2, ?_, hlen2, hwf2, hinv2, hdk2b, ?_, ?_⟩
      · rw [hstep, hloop]
        exact hrun
      · rw [hocc2, hoc2, hoccs]
        simp [h0]
        omega
      · intro k v
        rw [hpairs2 k v]
        constructor
        · rintro (hb | hr)
          · rw [hpair2 k v] at hb
            rcases hb with hacc | hsp
            · exact Or.inl hacc
            · exact Or.inr ⟨s, List.mem_cons_self s rest, h0, hsp⟩
          · obtain ⟨t, ht, hto, htd⟩ := hr
            exact Or.inr ⟨t, List.mem_cons_of_mem s ht, hto, htd⟩
        · rintro (hacc | ⟨t, ht, hto, htd⟩)
          · exact Or.inl ((hpair2 k v).2 (Or.inl hacc))
          · rcases List.mem_cons.1 ht with rfl | ht2
            · exact Or.inl ((hpair2 k v).2 (Or.inr htd))
            · exact Or.inr ⟨t, ht2, hto, htd⟩

theorem bitLenF_spec : ∀ fuel n, n < 2 ^ fuel →
    n < 2 ^ bitLenF fuel n ∧
      (1 ≤ n → 1 ≤ bitLenF fuel n ∧ 2 ^ (bitLenF fuel n - 1) ≤ n) := by
  intro fuel
  induction fuel with
  | zero =>
    intro n hn
    simp only [pow_zero] at hn
    interval_cases n
    simp [bitLenF]
  | succ fuel IH =>
    intro n hn
    by_cases h0 : n = 0
    · subst h0
      simp [bitLenF]
    · have hrec : bitLenF (fuel + 1) n = bitLenF fuel (n / 2) + 1 := by
        simp [bitLenF, h0]
      have hhalf : n / 2 < 2 ^ fuel := by
        rw [pow_succ] at hn
        omega
      obtain ⟨hup, hlow⟩ := IH (n / 2) hhalf
      rw [hrec]
      constructor
      · rw [pow_succ]
        omega
      · intro _
        refine ⟨by omega, ?_⟩
        by_cases hh : 1 ≤ n / 2
        · obtain ⟨hb1, hb2⟩ := hlow hh
          have : 2 ^ (bitLenF fuel (n / 2) - 1 + 1) ≤ 2 * (n / 2) := by
            rw [pow_succ]
            omega
          have he : bitLenF fuel (n / 2) - 1 + 1 = bitLenF fuel (n / 2) := by omega
          rw [he] at this
          simp only [Nat.add_sub_cancel]
          omega
        · have hz : n / 2 = 0 := by omega
          have hn1 : n = 1 := by omega
          have hb0 : bitLenF fuel (n / 2) = 0 := by
            rw [hz]; cases fuel <;> simp [bitLenF]
          rw [hb0, hn1]
          norm_num

theorem bitLenF_min : ∀ fuel n, 2 ^ fuel ≤ n → bitLenF fuel n = fuel := by
  intro fuel
  induction fuel with
  | zero => intro n _; rfl
  | succ fuel IH =>
    intro n hn
    have h0 : n ≠ 0 := by
      have h1 : 0 < 2 ^ (fuel + 1) := Nat.pos_pow_of_pos _ (by norm_num)
      omega
    have : bitLenF (fuel + 1) n = bitLenF fuel (n / 2) + 1 := by simp [bitLenF, h0]
    rw [this, IH (n / 2) (by rw [pow_succ] at hn; omega)]

theorem ctlz_shift_spec {n : Nat} (hn : 1 ≤ n) :
    1 ≤ ctlz n + 1 ∧ ctlz n + 1 ≤ 64 ∧ 2 ^ (64 - (ctlz n + 1)) ≤ n := by
  unfold ctlz bitLen
  by_cases hbig : n < 2 ^ 128
  · obtain ⟨hup, hlow⟩ := bitLenF_spec 128 n hbig
    obtain ⟨hb1, hb2⟩ := hlow hn
    by_cases h64 : bitLenF 128 n ≤ 64
    · refine ⟨by omega, by omega, ?_⟩
      have : 64 - (64 - bitLenF 128 n + 1) = bitLenF 128 n - 1 := by omega
      rw [this]
      exact hb2
    · refine ⟨by omega, by omega, ?_⟩
      have h1 : 64 - bitLenF 128 n = 0 := by omega
      rw [h1]
      have h2 : (64 : Nat) - (0 + 1) = 63 := by norm_num
      rw [h2]
      calc (2 : Nat) ^ 63 ≤ 2 ^ (bitLenF 128 n - 1) :=
            Nat.pow_le_pow_right (by norm_num) (by omega)
        _ ≤ n := hb2
  · have h128 : bitLenF 128 n = 128 := bitLenF_min 128 n (by omega)
    rw [h128]
    refine ⟨by omega, by omega, ?_⟩
    have h1 : (64 : Nat) - 128 = 0 := by norm_num
    rw [h1]
    have h2 : (64 : Nat) - (0 + 1) = 63 := by norm_num
    rw [h2]
    calc (2 : Nat) ^ 63 ≤ 2 ^ 128 := Nat.pow_le_pow_right (by norm_num) (by norm_num)
      _ ≤ n := by omega

theorem bget_replicate (c i : Nat) :
    bget (List.replicate c (⟨0, none⟩ : Slot K V)) i = (⟨0, none⟩ : Slot K V) := by
  unfold bget
  rcases h : (List.replicate c (⟨0, none⟩ : Slot K V)).get? i with _ | s
  · rfl
  · obtain ⟨hb, hg⟩ := List.get?_eq_some.1 h
    have := List.get_mem _ i hb
    rw [hg] at this
    simp only [Option.getD_some]
    exact List.eq_of_mem_replicate this

theorem occount_replicate (c : Nat) :
    occount (List.replicate c (⟨0, none⟩ : Slot K V)) = 0 := by
  unfold occount
  rw [List.countP_eq_zero]
  intro s hs
  rw [List.eq_of_mem_replicate hs]
  simp

theorem listHasPair_iff {cap : Nat} {buf : List (Slot K V)} (hlen : buf.length = cap)
    (k : K) (v : V) : ListHasPair buf k v ↔ HasPairB cap buf k v := by
  constructor
  · rintro ⟨s, hs, h0, hd⟩
    obtain ⟨n, hn⟩ := List.mem_iff_get?.1 hs
    obtain ⟨hnb, hg⟩ := List.get?_eq_some.1 hn
    refine ⟨n, by omega, ?_, ?_⟩
    · unfold occupied bget
      rw [hn]
      simpa [hg] using h0
    · unfold bget
      rw [hn]
      simpa [hg] using hd
  · rintro ⟨i, hi, hocc, hd⟩
    have hib : i < buf.length := by omega
    refine ⟨bget buf i, ?_, hocc, hd⟩
    unfold bget
    rw [List.get?_eq_get hib]
    exact List.get_mem _ i hib

theorem listDistinct_of_distinct {cap : Nat} {buf : List (Slot K V)}
    (hlen : buf.length = cap) (hdk : distinctKeys cap buf) : ListDistinctKeys buf := by
  rw [ListDistinctKeys, List.pairwise_iff_get]
  intro i j hij h1 h2
  have hbi : bget buf i = buf.get i := by
    unfold bget
    rw [List.get?_eq_get i.2]
    rfl
  have hbj : bget buf j = buf.get j := by
    unfold bget
    rw [List.get?_eq_get j.2]
    rfl
  have hthis := hdk i (by omega) j (by omega) (by omega)
  unfold occupied at hthis
  rw [hbi, hbj] at hthis
  unfold keyOf
  exact hthis h1 h2

theorem reserveMap_good {hf : K → Nat} {m : Map K V} (hg : GoodMap hf m) (n : Nat) :
    ∃ m2, reserveMap m n = some m2 ∧ GoodMap hf m2 ∧ m2.length = m.length ∧
      m.capacity ≤ m2.capacity ∧ occount m2.data = occount m.data ∧
      (∀ k v, HasPair m2 k v ↔ HasPair m k v) ∧
      (n ≤ m.capacity ∧ m2 = m ∨ m2.capacity = n ∧ m2.usable = n / 4 * 3) := by
  obtain ⟨hwf, hinv, hdk, hocc⟩ := hg
  by_cases hle : n ≤ m.capacity
  · refine ⟨m, ?_, ⟨hwf, hinv, hdk, hocc⟩, rfl, le_refl _, rfl, fun k v => Iff.rfl,
      Or.inl ⟨hle, rfl⟩⟩
    unfold reserveMap
    rw [if_pos hle]
  · have hn1 : 1 ≤ n := by omega
    obtain ⟨hs1, hs64, hspow⟩ := ctlz_shift_spec hn1
    have hsrcwf : ∀ s ∈ m.data, slotWF hf s := by
      intro s hs
      obtain ⟨i, hi⟩ := List.mem_iff_get?.1 hs
      obtain ⟨hib, hg2⟩ := List.get?_eq_some.1 hi
      have hml : m.data.length = m.capacity := hwf.1
      have := hwf.2.2.2.2 i (by omega)
      unfold bget at this
      rw [hi] at this
      simpa [hg2] using this
    obtain ⟨acc2, hrun, hlen2, hwf2, hinv2, hdk2, hocc2, hpairs2⟩ :=
      rehash_good hf hs64 hspow m.data (List.replicate n ⟨0, none⟩)
        hsrcwf (listDistinct_of_distinct hwf.1 hdk)
        (by simp)
        (by intro i _; rw [bget_replicate]; rfl)
        (by
          intro i _ ho
          unfold occupied at ho
          rw [bget_replicate] at ho
          exact absurd rfl ho)
        (by
          intro i _ j _ _ ho
          unfold occupied at ho
          rw [bget_replicate] at ho
          exact absurd rfl ho)
        (by
          intro s _ _ i _ ho
          unfold occupied at ho
          rw [bget_replicate] at ho
          exact absurd rfl ho)
        (by
          rw [occount_replicate]
          have h1 : occount m.data ≤ m.data.length := List.countP_le_length _
          have h2 : m.data.length = m.capacity := hwf.1
          omega)
    refine ⟨⟨acc2, n, m.length, n / 4 * 3, ctlz n + 1⟩, ?_, ?_, rfl,
      (by show m.capacity ≤ n; omega), ?_, ?_, Or.inr ⟨rfl, rfl⟩⟩
    · unfold reserveMap
      rw [if_neg hle]
      unfold emptySlot
      rw [hrun]
      rfl
    · refine ⟨⟨hlen2, hs1, hs64, hspow, hwf2⟩, hinv2, hdk2, ?_⟩
      show occount acc2 ≤ m.length
      rw [hocc2, occount_replicate]
      omega
    · show occount acc2 = occount m.data
      rw [hocc2, occount_replicate]
      exact Nat.zero_add _
    · intro k v
      unfold HasPair
      simp only
      rw [hpairs2 k v, listHasPair_iff hwf.1 k v]
      constructor
      · rintro (⟨i, _, ho, _⟩ | h)
        · unfold occupied at ho
          rw [bget_replicate] at ho
          exact absurd rfl ho
        · exact h
      · exact Or.inr

theorem occount_pos {buf : List (Slot K V)} {j : Nat} (hj : j < buf.length)
    (hocc : occupied buf j) : 1 ≤ occount buf := by
  unfold occount
  rw [Nat.succ_le, List.countP_pos]
  refine ⟨buf.get ⟨j, hj⟩, List.get_mem _ _ _, ?_⟩
  unfold occupied bget at hocc
  rw [List.get?_eq_get hj] at hocc
  simpa using hocc

theorem tryGetLoop_finds {cap shift : Nat} {buf : List (Slot K V)} {hf : K → Nat}
    (hideal : ∀ i < cap, idealOf shift buf i < cap)
    (hinv : rhInv cap shift buf) (hdk : distinctKeys cap buf)
    {j : Nat} {key : K} {v : V} (hj : j < cap)
    (hdata : (bget buf j).data = some (key, v))
    (hhash : (bget buf j).hash = hashOf hf key) :
    ∀ r, r ≤ slotDist cap shift buf j → ∀ idx, idx < cap → kdistOf cap j idx = r →
      ∀ fuel, r < fuel →
        tryGetLoop cap shift buf (hashOf hf key) key idx
          (slotDist cap shift buf j - r) fuel = some (some v) := by
  have hoccj : occupied buf j := by
    unfold occupied
    rw [hhash]
    exact hashOf_ne_zero hf key
  intro r
  induction r with
  | zero =>
    intro _ idx hidx hk
    obtain rfl : j = idx := (kdistOf_eq_zero hj hidx).1 hk
    intro fuel hfuel
    match fuel, hfuel with
    | fuel + 1, _ =>
      simp only [tryGetLoop]
      rw [if_neg (by rw [hhash]; exact hashOf_ne_zero hf key)]
      rw [if_pos ⟨hhash, by unfold slotKeyIs; rw [hdata]⟩]
      rw [hdata]
  | succ r IH =>
    intro hr idx hidx hk
    intro fuel hfuel
    have hkpos : 0 < kdistOf cap j idx := by omega
    have hchain := rh_chain hideal hinv hj hoccj (r + 1) hr idx hidx hk
    obtain ⟨hocci, hdle⟩ := hchain
    match fuel, hfuel with
    | fuel + 1, hfuel =>
      simp only [tryGetLoop]
      rw [if_neg hocci]
      rw [if_neg ?hnm]
      case hnm =>
        rintro ⟨hh2, hsk⟩
        cases hd : (bget buf idx).data with
        | none => unfold slotKeyIs at hsk; rw [hd] at hsk; exact hsk
        | some p =>
          unfold slotKeyIs at hsk
          rw [hd] at hsk
          have hne : j ≠ idx := by
            intro hc; rw [hc] at hk
            rw [(kdistOf_eq_zero hidx hidx).2 rfl] at hk
            omega
          have := hdk j hj idx hidx hne hoccj hocci
          rw [hdata, hd] at this
          exact this (by simp [hsk])
      have hslot : kdistOf cap idx ((bget buf idx).hash >>> shift) =
          slotDist cap shift buf idx := rfl
      rw [hslot]
      rw [if_neg (by omega)]
      have hnext := kdistOf_next_to hj hidx hkpos
      have harith : slotDist cap shift buf j - (r + 1) + 1 =
          slotDist cap shift buf j - r := by omega
      rw [harith]
      exact IH (by omega) (nextIdx cap idx) (nextIdx_lt hidx) (by omega) fuel (by omega)

theorem tryGet_finds {hf : K → Nat} {m : Map K V} {key : K} {v : V}
    (hg : GoodMap hf m) (hp : HasPair m key v) :
    tryGet hf m key = some (some v) := by
  obtain ⟨hwf, hinv, hdk, hocc⟩ := hg
  obtain ⟨j, hj, hoccj, hdata⟩ := hp
  have hkey : (bget m.data j).data = some (key, v) := hdata
  have hswf := hwf.2.2.2.2 j hj
  unfold slotWF at hswf
  rw [hkey] at hswf
  have hhash : (bget m.data j).hash = hashOf hf key := hswf
  have hlenpos : m.length ≠ 0 := by
    have h1 := occount_pos (by rw [hwf.1]; exact hj) hoccj
    omega
  unfold tryGet
  rw [if_neg hlenpos]
  have hidx0 : hashOf hf key >>> m.shift = idealOf m.shift m.data j := by
    unfold idealOf
    rw [hhash]
  have hD : kdistOf m.capacity j (hashOf hf key >>> m.shift) =
      slotDist m.capacity m.shift m.data j := by
    rw [hidx0]
    rfl
  have hDlt : slotDist m.capacity m.shift m.data j < m.capacity :=
    kdistOf_lt hj (WF_ideal hwf j hj)
  have := tryGetLoop_finds (WF_ideal hwf) hinv hdk hj hkey hhash
    (slotDist m.capacity m.shift m.data j) (le_refl _)
    (hashOf hf key >>> m.shift)
    (by rw [hidx0]; exact WF_ideal hwf j hj) hD (m.capacity + 1) (by omega)
  rw [Nat.sub_self] at this
  exact this

theorem fixNext_eq {cap e : Nat} (he : e < cap) :
    (if e = cap - 1 then 0 else e + 1) = nextIdx cap e := by
  unfold nextIdx; split_ifs <;> omega

theorem nextIdx_ne {cap i : Nat} (h2 : 2 ≤ cap) (hi : i < cap) : nextIdx cap i ≠ i := by
  unfold nextIdx; split <;> omega

theorem kdistOf_prev_of_next {cap e q : Nat} (he : e < cap) (hq : q < cap)
    (h1 : 1 ≤ kdistOf cap (nextIdx cap e) q) :
    kdistOf cap e q = kdistOf cap (nextIdx cap e) q - 1 := by
  unfold nextIdx kdistOf at h1 ⊢
  split_ifs at h1 ⊢ <;> omega

theorem slotWF_emptySlot (hf : K → Nat) : slotWF hf (emptySlot : Slot K V) := rfl

theorem fixUpLoop_some_good {cap shift : Nat} {hf : K → Nat} :
    ∀ (fuel : Nat) (buf : List (Slot K V)) (e : Nat) (buf2 : List (Slot K V)),
      buf.length = cap →
      (∀ i < cap, slotWF hf (bget buf i)) →
      (∀ i < cap, idealOf shift buf i < cap) →
      e < cap →
      ¬occupied buf e →
      (∀ i < cap, i ≠ nextIdx cap e → rhAt cap shift buf i) →
      (occupied buf (nextIdx cap e) →
        2 ≤ slotDist cap shift buf (nextIdx cap e) →
        occupied buf (prevIdx cap e) ∧
          slotDist cap shift buf (nextIdx cap e) - 2 ≤
            slotDist cap shift buf (prevIdx cap e)) →
      distinctKeys cap buf →
      fixUpLoop cap shift buf e fuel = some buf2 →
      buf2.length = cap ∧
        (∀ i < cap, slotWF hf (bget buf2 i)) ∧
        rhInv cap shift buf2 ∧
        distinctKeys cap buf2 ∧
        occount buf2 = occount buf ∧
        (∃ e2, e2 < cap ∧ ¬occupied buf2 e2) ∧
        (∀ k v, HasPairB cap buf2 k v ↔ HasPairB cap buf k v) := by
  intro fuel
  induction fuel with
  | zero =>
    intro buf e buf2 _ _ _ _ _ _ _ _ hrun
    exact absurd hrun (by simp [fixUpLoop])
  | succ fuel IH =>
    intro buf e buf2 hlen hwf hideal he hhole hW2 hW3 hdk hrun
    simp only [fixUpLoop] at hrun
    rw [fixNext_eq he] at hrun
    by_cases h0 : (bget buf (nextIdx cap e)).hash = 0
    · rw [if_pos h0] at hrun
      obtain rfl : buf = buf2 := Option.some.inj hrun
      refine ⟨hlen, hwf, ?_, hdk, rfl, ⟨e, he, hhole⟩, fun k v => Iff.rfl⟩
      intro i hi
      by_cases hin : i = nextIdx cap e
      · intro hocc
        rw [hin] at hocc
        exact absurd h0 hocc
      · exact hW2 i hi hin
    · rw [if_neg h0] at hrun
      by_cases hd0 : (bget buf (nextIdx cap e)).hash >>> shift = nextIdx cap e
      · rw [if_pos hd0] at hrun
        obtain rfl : buf = buf2 := Option.some.inj hrun
        refine ⟨hlen, hwf, ?_, hdk, rfl, ⟨e, he, hhole⟩, fun k v => Iff.rfl⟩
        intro i hi
        by_cases hin : i = nextIdx cap e
        · intro _ hdpos
          have hz : slotDist cap shift buf i = 0 := by
            unfold slotDist idealOf
            rw [hin, hd0]
            exact (kdistOf_eq_zero (nextIdx_lt he) (nextIdx_lt he)).2 rfl
          omega
        · exact hW2 i hi hin
      · rw [if_neg hd0] at hrun
        have hnlt : nextIdx cap e < cap := nextIdx_lt he
        have hoccn : occupied buf (nextIdx cap e) := h0
        have hne : e ≠ nextIdx cap e := by
          intro hc
          exact hhole (by rw [hc]; exact hoccn)
        have hcap2 : 2 ≤ cap := by
          by_contra hc
          apply hne
          unfold nextIdx
          split <;> omega
        have hlen1 : (buf.set e (bget buf (nextIdx cap e))).length = cap := by
          rw [List.length_set]; exact hlen
        set sn := bget buf (nextIdx cap e) with hsn
        set bufm := (buf.set e sn).set (nextIdx cap e) emptySlot with hbufm
        have b2 : ∀ j, bget bufm j =
            if j = nextIdx cap e then emptySlot
            else if j = e then sn else bget buf j := by
          intro j
          rw [hbufm]
          rw [bget_set emptySlot (by rw [hlen1]; exact hnlt) j]
          by_cases hj : j = nextIdx cap e
          · rw [if_pos hj, if_pos hj]
          · rw [if_neg hj, if_neg hj, bget_set sn (by omega) j]
        have hsnh : sn.hash ≠ 0 := hoccn
        have hq : idealOf shift buf (nextIdx cap e) < cap := hideal _ hnlt
        have hdn1 : 1 ≤ slotDist cap shift buf (nextIdx cap e) := by
          by_contra hc
          have h00 : slotDist cap shift buf (nextIdx cap e) = 0 := by omega
          unfold slotDist at h00
          have := (kdistOf_eq_zero hnlt hq).1 h00
          exact hd0 (by unfold idealOf at this; rw [← hsn] at this; omega)
        have hidealm : idealOf shift bufm e = idealOf shift buf (nextIdx cap e) := by
          unfold idealOf
          rw [b2 e, if_neg hne, if_pos rfl]
        have hdiste : slotDist cap shift bufm e =
            slotDist cap shift buf (nextIdx cap e) - 1 := by
          unfold slotDist
          rw [hidealm]
          exact kdistOf_prev_of_next he hq hdn1
        have hoccme : occupied bufm e := by
          unfold occupied
          rw [b2 e, if_neg hne, if_pos rfl]
          exact hsnh
        have hIH := IH bufm (nextIdx cap e) buf2
          (by rw [hbufm, List.length_set]; exact hlen1)
          (by
            intro i hi
            rw [b2 i]
            split_ifs with h1 h2
            · exact slotWF_emptySlot hf
            · exact hwf _ hnlt
            · exact hwf i hi)
          (by
            intro i hi
            unfold idealOf
            rw [b2 i]
            split_ifs with h1 h2
            · show (0 : Nat) >>> shift < cap
              rw [Nat.zero_shiftRight]
              omega
            · exact hq
            · exact hideal i hi)
          hnlt
          (by
            unfold occupied
            rw [b2 _, if_pos rfl]
            exact fun hc => hc rfl)
          ?hW2m ?hW3m ?hdkm hrun
        case hW2m =>
          intro i hi hin2
          intro hocci hdposi
          by_cases hieq : i = nextIdx cap e
          · exfalso
            unfold occupied at hocci
            rw [b2 i, if_pos hieq] at hocci
            exact hocci rfl
          · by_cases hie : i = e
            · have hdpos2 : 2 ≤ slotDist cap shift buf (nextIdx cap e) := by
                rw [hie, hdiste] at hdposi
                omega
              obtain ⟨hop, hdp⟩ := hW3 hoccn hdpos2
              have hpne : prevIdx cap e ≠ e := prevIdx_ne hcap2 he
              have hpnn : prevIdx cap e ≠ nextIdx cap e := by
                intro hc
                apply hin2
                rw [hie]
                conv_lhs => rw [← nextIdx_prevIdx he]
                rw [hc]
              rw [hie]
              constructor
              · unfold occupied
                rw [b2 _, if_neg hpnn, if_neg hpne]
                exact hop
              · rw [hdiste]
                have hsp : slotDist cap shift bufm (prevIdx cap e) =
                    slotDist cap shift buf (prevIdx cap e) := by
                  unfold slotDist idealOf
                  rw [b2 _, if_neg hpnn, if_neg hpne]
                rw [hsp]
                omega
            · have hilt : i < cap := hi
              have hpne2 : prevIdx cap i ≠ e := by
                intro hc
                apply hieq
                conv_lhs => rw [← nextIdx_prevIdx hilt]
                rw [hc]
              have hpnn2 : prevIdx cap i ≠ nextIdx cap e := by
                intro hc
                apply hin2
                conv_lhs => rw [← nextIdx_prevIdx hilt]
                rw [hc]
              have hbi : bget bufm i = bget buf i := by
                rw [b2 i, if_neg hieq, if_neg hie]
              have hbp : bget bufm (prevIdx cap i) = bget buf (prevIdx cap i) := by
                rw [b2 _, if_neg hpnn2, if_neg hpne2]
              have hocci2 : occupied buf i := by
                unfold occupied at hocci ⊢
                rw [hbi] at hocci
                exact hocci
              have hdposi2 : 0 < slotDist cap shift buf i := by
                unfold slotDist idealOf at hdposi ⊢
                rw [hbi] at hdposi
                exact hdposi
              obtain ⟨hco, hcd⟩ := hW2 i hi hieq hocci2 hdposi2
              constructor
              · unfold occupied at hco ⊢
                rw [hbp]
                exact hco
              · unfold slotDist idealOf at hcd ⊢
                rw [hbi, hbp]
                exact hcd
        case hW3m =>
          intro hoccn2 hd2
          rw [prevIdx_nextIdx he]
          by_cases hn2e : nextIdx cap (nextIdx cap e) = e
          · refine ⟨hoccme, ?_⟩
            rw [hn2e] at hd2 ⊢
            omega
          · have hn2n : nextIdx cap (nextIdx cap e) ≠ nextIdx cap e :=
              nextIdx_ne hcap2 hnlt
            have hb2 : bget bufm (nextIdx cap (nextIdx cap e)) =
                bget buf (nextIdx cap (nextIdx cap e)) := by
              rw [b2 _, if_neg hn2n, if_neg hn2e]
            have hoccb : occupied buf (nextIdx cap (nextIdx cap e)) := by
              unfold occupied at hoccn2 ⊢
              rw [hb2] at hoccn2
              exact hoccn2
            have hdb : slotDist cap shift bufm (nextIdx cap (nextIdx cap e)) =
                slotDist cap shift buf (nextIdx cap (nextIdx cap e)) := by
              unfold slotDist idealOf
              rw [hb2]
            have hrh := hW2 (nextIdx cap (nextIdx cap e)) (nextIdx_lt hnlt) hn2n
              hoccb (by rw [hdb] at hd2; omega)
            rw [prevIdx_nextIdx hnlt] at hrh
            refine ⟨hoccme, ?_⟩
            rw [hdb, hdiste]
            omega
        case hdkm =>
          intro i hi j hj hij hoi hoj
          unfold occupied at hoi hoj
          rw [b2 i] at hoi
          rw [b2 j] at hoj
          rw [b2 i, b2 j]
          by_cases hino : i = nextIdx cap e
          · rw [if_pos hino] at hoi
            exact absurd rfl hoi
          · rw [if_neg hino] at hoi ⊢
            by_cases hjno : j = nextIdx cap e
            · rw [if_pos hjno] at hoj
              exact absurd rfl hoj
            · rw [if_neg hjno] at hoj ⊢
              by_cases hie : i = e
              · rw [if_pos hie] at hoi ⊢
                have hjne2 : j ≠ e := by
                  intro hc
                  exact hij (by rw [hie, hc])
                rw [if_neg hjne2] at hoj ⊢
                exact hdk (nextIdx cap e) hnlt j hj (Ne.symm hjno) hoccn hoj
              · rw [if_neg hie] at hoi ⊢
                by_cases hje : j = e
                · rw [if_pos hje] at hoj ⊢
                  exact hdk i hi (nextIdx cap e) hnlt hino hoi hoccn
                · rw [if_neg hje] at hoj ⊢
                  exact hdk i hi j hj hij hoi hoj
        obtain ⟨hl2, hwf2, hinv2, hdk2, hoc2, hemp2, hpairs2⟩ := hIH
        have h0e : (bget buf e).hash = 0 := by
          by_contra hc
          exact hhole hc
        have hocm : occount bufm = occount buf := by
          have hs1 := occount_set (show e < buf.length by omega) sn
          rw [if_neg (by rw [h0e]; exact fun hc => hc rfl), if_pos hsnh] at hs1
          have hs2 := occount_set (show nextIdx cap e < (buf.set e sn).length by rw [hlen1]; exact hnlt)
            emptySlot
          have hbn : bget (buf.set e sn) (nextIdx cap e) = sn := by
            rw [bget_set sn (by omega) _, if_neg (Ne.symm hne)]
          rw [hbn, if_pos hsnh,
            if_neg (by show ¬(emptySlot : Slot K V).hash ≠ 0; exact fun hc => hc rfl)]
            at hs2
          rw [hbufm]
          omega
        have hpm : ∀ k v, HasPairB cap bufm k v ↔ HasPairB cap buf k v := by
          intro k v
          constructor
          · rintro ⟨i, hi, ho, hd⟩
            unfold occupied at ho
            rw [b2 i] at ho hd
            by_cases h1 : i = nextIdx cap e
            · rw [if_pos h1] at ho
              exact absurd rfl ho
            · rw [if_neg h1] at ho hd
              by_cases h2 : i = e
              · rw [if_pos h2] at ho hd
                exact ⟨nextIdx cap e, hnlt, ho, hd⟩
              · rw [if_neg h2] at ho hd
                exact ⟨i, hi, ho, hd⟩
          · rintro ⟨i, hi, ho, hd⟩
            by_cases h1 : i = nextIdx cap e
            · refine ⟨e, he, ?_, ?_⟩
              · exact hoccme
              · rw [b2 e, if_neg hne, if_pos rfl, hsn]
                rw [h1] at hd
                exact hd
            · by_cases h2 : i = e
              · rw [h2] at ho
                exact absurd ho hhole
              · refine ⟨i, hi, ?_, ?_⟩
                · unfold occupied
                  rw [b2 i, if_neg h1, if_neg h2]
                  exact ho
                · rw [b2 i, if_neg h1, if_neg h2]
                  exact hd
        refine ⟨hl2, hwf2, hinv2, hdk2, ?_, hemp2, ?_⟩
        · rw [hoc2, hocm]
        · intro k v
          rw [hpairs2 k v, hpm k v]

theorem tryEraseLoop_cases {cap shift : Nat} {buf : List (Slot K V)} {h : Nat} {key : K} :
    ∀ (fuel idx dist : Nat) (r : Bool × List (Slot K V)), idx < cap →
      tryEraseLoop cap shift buf h key idx dist fuel = some r →
      r = (false, buf) ∨
        (∃ j, j < cap ∧ (bget buf j).hash = h ∧ slotKeyIs (bget buf j) key ∧
          fixUpLoop cap shift (buf.set j emptySlot) j (cap + 1) = some r.2 ∧
          r.1 = true) := by
  intro fuel
  induction fuel with
  | zero =>
    intro idx dist r _ hrun
    exact absurd hrun (by simp [tryEraseLoop])
  | succ fuel IH =>
    intro idx dist r hidx hrun
    simp only [tryEraseLoop] at hrun
    by_cases hm : (bget buf idx).hash = h ∧ slotKeyIs (bget buf idx) key
    · rw [if_pos hm] at hrun
      obtain ⟨d, hd, hr⟩ := Option.map_eq_some'.1 hrun
      refine Or.inr ⟨idx, hidx, hm.1, hm.2, ?_, ?_⟩
      · rw [← hr]
        exact hd
      · rw [← hr]
    · rw [if_neg hm] at hrun
      by_cases hex : kdistOf cap idx ((bget buf idx).hash >>> shift) < dist
      · rw [if_pos hex] at hrun
        exact Or.inl (Option.some.inj hrun).symm
      · rw [if_neg hex] at hrun
        exact IH (nextIdx cap idx) (dist + 1) r (nextIdx_lt hidx) hrun

theorem tryErase_good {hf : K → Nat} {m : Map K V} {key : K} {b : Bool} {m2 : Map K V}
    (hg : GoodMap hf m) (hrun : tryErase hf m key = some (b, m2)) :
    GoodMap hf m2 ∧ m2.capacity = m.capacity ∧ m2.usable = m.usable ∧
      m2.shift = m.shift ∧ occount m2.data ≤ occount m.data := by
  obtain ⟨hwf, hinv, hdk, hocc⟩ := hg
  simp only [tryErase] at hrun
  by_cases hl0 : m.length = 0
  · rw [if_pos hl0] at hrun
    obtain hbm := Option.some.inj hrun
    obtain ⟨hb, hm2⟩ := Prod.mk.injEq _ _ _ _ ▸ hbm
    rw [← hm2]
    exact ⟨⟨hwf, hinv, hdk, hocc⟩, rfl, rfl, rfl, le_refl _⟩
  · rw [if_neg hl0] at hrun
    rcases hloop : tryEraseLoop m.capacity m.shift m.data (hashOf hf key) key
        (hashOf hf key >>> m.shift) 0 (m.capacity + 1) with _ | r
    · rw [hloop] at hrun
      exact absurd hrun (by simp)
    · rw [hloop] at hrun
      have hidx0 : hashOf hf key >>> m.shift < m.capacity :=
        lt_of_lt_of_le (shiftRight_lt_of_lt hwf.2.2.1 (hashOf_lt hf key)) hwf.2.2.2.1
      have hcases := tryEraseLoop_cases (m.capacity + 1) (hashOf hf key >>> m.shift) 0 r
        hidx0 hloop
      rcases r with ⟨b', d⟩
      cases b'
      · dsimp only at hrun
        obtain ⟨hb, hm2⟩ := Prod.mk.injEq _ _ _ _ ▸ Option.some.inj hrun
        rcases hcases with hsame | ⟨j, _, _, _, _, htrue⟩
        · have hdm : d = m.data := congrArg Prod.snd hsame
          rw [← hm2, hdm]
          exact ⟨⟨hwf, hinv, hdk, hocc⟩, rfl, rfl, rfl, le_refl _⟩
        · exact absurd htrue (by simp)
      · dsimp only at hrun
        obtain ⟨hb, hm2⟩ := Prod.mk.injEq _ _ _ _ ▸ Option.some.inj hrun
        rcases hcases with hsame | ⟨j, hj, hjh, hjk, hfix, _⟩
        · exact absurd (congrArg Prod.fst hsame) (by simp)
        · have hoccj : occupied m.data j := by
            unfold occupied
            rw [hjh]
            exact hashOf_ne_zero hf key
          have hlenb : m.data.length = m.capacity := hwf.1
          have hjb : j < m.data.length := by omega
          have hlene : (m.data.set j emptySlot).length = m.capacity := by
            rw [List.length_set]; exact hlenb
          have hbe : ∀ i, bget (m.data.set j emptySlot) i =
              if i = j then emptySlot else bget m.data i := by
            intro i
            exact bget_set emptySlot hjb i
          have hyp_wf : ∀ i < m.capacity, slotWF hf (bget (m.data.set j emptySlot) i) := by
            intro i hi
            rw [hbe i]
            split_ifs with h1
            · exact slotWF_emptySlot hf
            · exact hwf.2.2.2.2 i hi
          have hyp_ideal : ∀ i < m.capacity,
              idealOf m.shift (m.data.set j emptySlot) i < m.capacity := by
            intro i hi
            unfold idealOf
            rw [hbe i]
            split_ifs with h1
            · show (0 : Nat) >>> m.shift < m.capacity
              rw [Nat.zero_shiftRight]
              omega
            · exact WF_ideal hwf i hi
          have hyp_hole : ¬occupied (m.data.set j emptySlot) j := by
            unfold occupied
            rw [hbe j, if_pos rfl]
            exact fun hc => hc rfl
          have hyp_W2 : ∀ i < m.capacity, i ≠ nextIdx m.capacity j →
              rhAt m.capacity m.shift (m.data.set j emptySlot) i := by
            intro i hi hinj
            intro hocci hdposi
            by_cases hij : i = j
            · exfalso
              unfold occupied at hocci
              rw [hbe i, if_pos hij] at hocci
              exact hocci rfl
            · have hpij : prevIdx m.capacity i ≠ j := by
                intro hc
                apply hinj
                conv_lhs => rw [← nextIdx_prevIdx (hi : i < m.capacity)]
                rw [hc]
              have hb1 : bget (m.data.set j emptySlot) i = bget m.data i := by
                rw [hbe i, if_neg hij]
              have hb2 : bget (m.data.set j emptySlot) (prevIdx m.capacity i) =
                  bget m.data (prevIdx m.capacity i) := by
                rw [hbe _, if_neg hpij]
              have hocci2 : occupied m.data i := by
                unfold occupied at hocci ⊢
                rw [hb1] at hocci
                exact hocci
              have hdposi2 : 0 < slotDist m.capacity m.shift m.data i := by
                unfold slotDist idealOf at hdposi ⊢
                rw [hb1] at hdposi
                exact hdposi
              obtain ⟨hco, hcd⟩ := hinv i hi hocci2 hdposi2
              constructor
              · unfold occupied at hco ⊢
                rw [hb2]
                exact hco
              · unfold slotDist idealOf at hcd ⊢
                rw [hb1, hb2]
                exact hcd
          have hyp_W3 : occupied (m.data.set j emptySlot) (nextIdx m.capacity j) →
              2 ≤ slotDist m.capacity m.shift (m.data.set j emptySlot)
                (nextIdx m.capacity j) →
              occupied (m.data.set j emptySlot) (prevIdx m.capacity j) ∧
                slotDist m.capacity m.shift (m.data.set j emptySlot)
                    (nextIdx m.capacity j) - 2 ≤
                  slotDist m.capacity m.shift (m.data.set j emptySlot)
                    (prevIdx m.capacity j) := by
            intro hon hd2
            by_cases hnj : nextIdx m.capacity j = j
            · exfalso
              unfold occupied at hon
              rw [hbe _, if_pos hnj] at hon
              exact hon rfl
            · have hcap2 : 2 ≤ m.capacity := by
                by_contra hc
                apply hnj
                unfold nextIdx
                split <;> omega
              have hbn : bget (m.data.set j emptySlot) (nextIdx m.capacity j) =
                  bget m.data (nextIdx m.capacity j) := by
                rw [hbe _, if_neg hnj]
              have hon2 : occupied m.data (nextIdx m.capacity j) := by
                unfold occupied at hon ⊢
                rw [hbn] at hon
                exact hon
              have hdn2 : slotDist m.capacity m.shift (m.data.set j emptySlot)
                  (nextIdx m.capacity j) =
                  slotDist m.capacity m.shift m.data (nextIdx m.capacity j) := by
                unfold slotDist idealOf
                rw [hbn]
              obtain ⟨hoj2, hdj2⟩ := hinv (nextIdx m.capacity j) (nextIdx_lt hj) hon2
                (by rw [hdn2] at hd2; omega)
              rw [prevIdx_nextIdx hj] at hoj2 hdj2
              have hpj : prevIdx m.capacity j ≠ j := prevIdx_ne hcap2 hj
              have hbp : bget (m.data.set j emptySlot) (prevIdx m.capacity j) =
                  bget m.data (prevIdx m.capacity j) := by
                rw [hbe _, if_neg hpj]
              by_cases hdj0 : slotDist m.capacity m.shift m.data j = 0
              · exfalso
                rw [hdn2] at hd2
                omega
              · obtain ⟨hop, hdp⟩ := hinv j hj hoccj (by omega)
                constructor
                · unfold occupied at hop ⊢
                  rw [hbp]
                  exact hop
                · rw [hdn2]
                  have hdps : slotDist m.capacity m.shift (m.data.set j emptySlot)
                      (prevIdx m.capacity j) =
                      slotDist m.capacity m.shift m.data (prevIdx m.capacity j) := by
                    unfold slotDist idealOf
                    rw [hbp]
                  rw [hdps]
                  omega
          have hyp_dk : distinctKeys m.capacity (m.data.set j emptySlot) := by
            intro i hi j2 hj2 hij hoi hoj2
            unfold occupied at hoi hoj2
            rw [hbe i] at hoi
            rw [hbe j2] at hoj2
            rw [hbe i, hbe j2]
            by_cases h1 : i = j
            · rw [if_pos h1] at hoi
              exact absurd rfl hoi
            · rw [if_neg h1] at hoi ⊢
              by_cases h2 : j2 = j
              · rw [if_pos h2] at hoj2
                exact absurd rfl hoj2
              · rw [if_neg h2] at hoj2 ⊢
                exact hdk i hi j2 hj2 hij hoi hoj2
          obtain ⟨hl2, hwf2, hinv2, hdk2, hoc2, _, hpairs2⟩ :=
            fixUpLoop_some_good (m.capacity + 1) (m.data.set j emptySlot) j d
              hlene hyp_wf hyp_ideal hj hyp_hole hyp_W2 hyp_W3 hyp_dk hfix
          have hocs : occount (m.data.set j emptySlot) + 1 = occount m.data := by
            have hs := occount_set hjb emptySlot
            rw [if_pos (show (bget m.data j).hash ≠ 0 from hoccj),
              if_neg (by show ¬(emptySlot : Slot K V).hash ≠ 0; exact fun hc => hc rfl)]
              at hs
            omega
          have hocc1 : 1 ≤ occount m.data := occount_pos hjb hoccj
          rw [← hm2]
          refine ⟨⟨⟨hl2, hwf.2.1, hwf.2.2.1, hwf.2.2.2.1, hwf2⟩, hinv2, hdk2, ?_⟩,
            rfl, rfl, rfl, ?_⟩
          · show occount d ≤ m.length - 1
            rw [hoc2]
            omega
          · show occount d ≤ occount m.data
            rw [hoc2]
            omega

theorem reserveMap_zero_good {hf : K → Nat} {m : Map K V} (hz : ZeroMap m)
    {n : Nat} (hn : 1 ≤ n) :
    ∃ m2, reserveMap m n = some m2 ∧ GoodMap hf m2 ∧ m2.length = 0 ∧
      occount m2.data = 0 ∧ m2.capacity = n ∧ m2.usable = n / 4 * 3 := by
  obtain ⟨hc0, hd0, hl0⟩ := hz
  obtain ⟨hs1, hs64, hspow⟩ := ctlz_shift_spec hn
  have hb : ∀ i, bget (List.replicate n (emptySlot : Slot K V)) i = emptySlot := by
    intro i
    unfold emptySlot
    exact bget_replicate n i
  have hoc : occount (List.replicate n (emptySlot : Slot K V)) = 0 := by
    unfold emptySlot
    exact occount_replicate n
  refine ⟨⟨List.replicate n emptySlot, n, m.length, n / 4 * 3, ctlz n + 1⟩,
    ?_, ?_, hl0, hoc, rfl, rfl⟩
  · unfold reserveMap
    rw [if_neg (by omega), hd0]
    rfl
  · refine ⟨⟨by simp, hs1, hs64, hspow, ?_⟩, ?_, ?_, ?_⟩
    · intro i _
      rw [hb i]
      exact slotWF_emptySlot hf
    · intro i _
      intro ho
      exfalso
      unfold occupied at ho
      rw [hb i] at ho
      exact ho rfl
    · intro i _ j _ _ ho
      exfalso
      unfold occupied at ho
      rw [hb i] at ho
      exact ho rfl
    · rw [hoc]
      omega

theorem growMap_good {hf : K → Nat} {m : Map K V} (hg : GoodMap hf m) :
    ∃ m2, growMap m = some m2 ∧ GoodMap hf m2 ∧ m2.length = m.length ∧
      occount m2.data = occount m.data ∧ occount m2.data < m2.capacity ∧
      m2.usable = m2.capacity / 4 * 3 ∧ m.capacity < m2.capacity ∧
      (∀ k v, HasPair m2 k v ↔ HasPair m k v) := by
  have hcap1 : 0 < m.capacity := WF_cap_pos hg.1
  obtain ⟨m2, hr, hg2, hlen, hle, hoc, hpairs, hor⟩ :=
    reserveMap_good hg (if m.capacity = 0 then 32 else 2 * m.capacity)
  rw [if_neg (by omega)] at hr hor
  rcases hor with ⟨hle2, _⟩ | ⟨hcap2, hus⟩
  · omega
  · refine ⟨m2, ?_, hg2, hlen, hoc, ?_, ?_, by omega, hpairs⟩
    · unfold growMap
      rw [if_neg (by omega)]
      exact hr
    · have h1 : occount m.data ≤ m.data.length := List.countP_le_length _
      have h2 : m.data.length = m.capacity := hg.1.1
      omega
    · rw [hus, hcap2]

theorem growMap_zero_good {hf : K → Nat} {m : Map K V} (hz : ZeroMap m) :
    ∃ m2, growMap m = some m2 ∧ GoodMap hf m2 ∧ m2.length = 0 ∧
      occount m2.data = 0 ∧ m2.capacity = 32 ∧ m2.usable = 24 := by
  obtain ⟨m2, hr, hg2, hl, ho, hc, hu⟩ :=
    @reserveMap_zero_good K V _ _ hf _ hz 32 (by norm_num)
  refine ⟨m2, ?_, hg2, hl, ho, hc, by rw [hu]⟩
  unfold growMap
  rw [if_pos hz.1]
  exact hr

theorem set_same_hash_good {cap shift : Nat} {hf : K → Nat} {buf : List (Slot K V)}
    {j : Nat} {slot : Slot K V}
    (hlen : buf.length = cap) (hj : j < cap)
    (hhash : slot.hash = (bget buf j).hash)
    (hkey : keyOf slot = keyOf (bget buf j))
    (hwfs : slotWF hf slot)
    (hwf : ∀ i < cap, slotWF hf (bget buf i))
    (hinv : rhInv cap shift buf) (hdk : distinctKeys cap buf) :
    (∀ i < cap, slotWF hf (bget (buf.set j slot) i)) ∧
      rhInv cap shift (buf.set j slot) ∧
      distinctKeys cap (buf.set j slot) ∧
      occount (buf.set j slot) = occount buf := by
  have hjb : j < buf.length := by omega
  have hb : ∀ i, bget (buf.set j slot) i = if i = j then slot else bget buf i :=
    fun i => bget_set slot hjb i
  have hhashes : ∀ i, (bget (buf.set j slot) i).hash = (bget buf i).hash := by
    intro i
    rw [hb i]
    split_ifs with h1
    · rw [hhash, h1]
    · rfl
  have hkeys : ∀ i, keyOf (bget (buf.set j slot) i) = keyOf (bget buf i) := by
    intro i
    rw [hb i]
    split_ifs with h1
    · rw [hkey, h1]
    · rfl
  have hoc : ∀ i, occupied (buf.set j slot) i ↔ occupied buf i := by
    intro i
    unfold occupied
    rw [hhashes i]
  have hsd : ∀ i, slotDist cap shift (buf.set j slot) i = slotDist cap shift buf i := by
    intro i
    unfold slotDist idealOf
    rw [hhashes i]
  refine ⟨?_, ?_, ?_, ?_⟩
  · intro i hi
    rw [hb i]
    split_ifs with h1
    · exact hwfs
    · exact hwf i hi
  · intro i hi ho hd
    rw [hoc i] at ho
    rw [hsd i] at hd
    obtain ⟨h1, h2⟩ := hinv i hi ho hd
    rw [hoc _, hsd _, hsd _]
    exact ⟨h1, h2⟩
  · intro i hi j2 hj2 hij hoi hoj
    rw [hoc i] at hoi
    rw [hoc j2] at hoj
    have := hdk i hi j2 hj2 hij hoi hoj
    intro hcon
    apply this
    have hki := hkeys i
    have hkj := hkeys j2
    unfold keyOf at hki hkj
    rw [← hki, ← hkj, hcon]
  · have hs := occount_set hjb slot
    by_cases hh : (bget buf j).hash ≠ 0
    · rw [if_pos hh, if_pos (by rw [hhash]; exact hh)] at hs
      omega
    · rw [if_neg hh, if_neg (by rw [hhash]; exact hh)] at hs
      omega

theorem insertSlot_good {hf : K → Nat} {m : Map K V} {k : K} {v : V} {m2 : Map K V}
    (hg : GoodMap hf m)
    (hrun : insertSlot m ⟨hashOf hf k, some (k, v)⟩ = some m2) :
    m2.capacity = m.capacity ∧ m2.length = m.length ∧ m2.usable = m.usable ∧
      m2.shift = m.shift ∧ m2.data.length = m.capacity ∧
      (∀ i < m.capacity, slotWF hf (bget m2.data i)) ∧
      rhInv m.capacity m.shift m2.data ∧
      distinctKeys m.capacity m2.data ∧
      occount m2.data ≤ occount m.data + 1 := by
  obtain ⟨hwf, hinv, hdk, hocc⟩ := hg
  have hswf : slotWF hf (⟨hashOf hf k, some (k, v)⟩ : Slot K V) := rfl
  have hsidx : (hashOf hf k) >>> m.shift < m.capacity :=
    lt_of_lt_of_le (shiftRight_lt_of_lt hwf.2.2.1 (hashOf_lt hf k)) hwf.2.2.2.1
  simp only [insertSlot] at hrun
  obtain ⟨d, hd, hm2⟩ := Option.map_eq_some'.1 hrun
  rw [← hm2]
  refine ⟨rfl, rfl, rfl, rfl, ?_⟩
  show d.length = m.capacity ∧ _
  by_cases hp : ∃ j, j < m.capacity ∧ occupied m.data j ∧ keyOf (bget m.data j) = some k
  · obtain ⟨j, hj, hoj, hkj⟩ := hp
    obtain ⟨q, hq, hqh⟩ := slotWF_occ (hwf.2.2.2.2 j hj) hoj
    have hq1 : q.1 = k := by
      unfold keyOf at hkj
      rw [hq] at hkj
      simpa using hkj
    have hhash : (bget m.data j).hash = hashOf hf k := by
      rw [hqh, hq1]
    have hski : slotKeyIs (bget m.data j) k := by
      unfold slotKeyIs
      rw [hq]
      exact hq1
    have hmatch : (bget m.data j).hash = (⟨hashOf hf k, some (k, v)⟩ : Slot K V).hash ∧
        keysMatch (bget m.data j) (⟨hashOf hf k, some (k, v)⟩ : Slot K V) :=
      ⟨hhash, hski⟩
    have hidj : idealOf m.shift m.data j = hashOf hf k >>> m.shift := by
      unfold idealOf
      rw [hhash]
    have happ := insertSlotLoop_dup hwf.1 (WF_ideal hwf) hinv hdk hj hoj hmatch
      (kdistOf m.capacity j (hashOf hf k >>> m.shift)) (hashOf hf k >>> m.shift) 0
      (m.capacity + 1) hsidx rfl
      (by unfold slotDist; rw [hidj]; omega)
      (by unfold slotDist; rw [hidj])
      (by exact Nat.lt_succ_of_lt (kdistOf_lt hj hsidx))
    rw [happ] at hd
    obtain rfl : m.data.set j ⟨hashOf hf k, some (k, v)⟩ = d := Option.some.inj hd
    obtain ⟨hwf2, hinv2, hdk2, hoc2⟩ := set_same_hash_good hwf.1 hj hhash.symm
      (by unfold keyOf; rw [hq]; simp [hq1]) hswf hwf.2.2.2.2 hinv hdk
    refine ⟨by rw [List.length_set]; exact hwf.1, hwf2, hinv2, hdk2, by dsimp only; omega⟩
  · push_neg at hp
    have hkeyne : ∀ i < m.capacity, occupied m.data i →
        keyOf (bget m.data i) ≠ keyOf (⟨hashOf hf k, some (k, v)⟩ : Slot K V) := by
      intro i hi ho
      have h1 := hp i hi ho
      unfold keyOf at h1 ⊢
      intro hc
      exact h1 (by rw [hc]; rfl)
    by_cases hfull : occount m.data = m.capacity
    · exfalso
      have hnone := @insertSlotLoop_full K V _ _ m.capacity m.shift
        (m.capacity + 1) m.data
        ⟨hashOf hf k, some (k, v)⟩ (hashOf hf k >>> m.shift) 0 hwf.1 hfull hdk hkeyne
        (hashOf_ne_zero hf k) hsidx
      rw [hnone] at hd
      exact absurd hd (by simp)
    · have hlt : occount m.data < m.capacity := by
        have h1 : occount m.data ≤ m.data.length := List.countP_le_length _
        have h2 : m.data.length = m.capacity := hwf.1
        omega
      obtain ⟨e, heb, hne⟩ := exists_empty_of_occount_lt (by rw [hwf.1]; exact hlt)
      have hecap : e < m.capacity := by
        rw [hwf.1] at heb
        exact heb
      obtain ⟨buf2, heq, hlen2, hinv2, hdk2, hocc2, _, hP⟩ :=
        insertSlotLoop_fresh (m.capacity + 1) m.data ⟨hashOf hf k, some (k, v)⟩
          (hashOf hf k >>> m.shift) 0 e hwf.1 (WF_ideal hwf) hsidx
          (hashOf_ne_zero hf k) hsidx
          ((kdistOf_eq_zero hsidx hsidx).2 rfl) hinv
          (fun h => absurd h (lt_irrefl 0)) hdk hkeyne hecap hne
          (by have := kdistOf_lt hecap hsidx; omega)
          (by exact Nat.lt_succ_of_lt (kdistOf_lt hecap hsidx))
      rw [heq] at hd
      obtain rfl : buf2 = d := Option.some.inj hd
      refine ⟨hlen2, ?_, hinv2, hdk2, by dsimp only; omega⟩
      exact hP (slotWF hf) hswf hwf.2.2.2.2

theorem insertPair_inv {hf : K → Nat} {m : Map K V} {k : K} {v : V} {m2 : Map K V}
    (hg : MapInv hf m) (hrun : insertPair hf m k v = some m2) :
    MapInv hf m2 := by
  obtain ⟨hgz, hu⟩ := hg
  unfold insertPair at hrun
  obtain ⟨m1, hm1, hrest⟩ := Option.bind_eq_some.1 hrun
  obtain ⟨m2', hins, hm2⟩ := Option.map_eq_some'.1 hrest
  have hg1 : GoodMap hf m1 ∧ UsableInv m1 := by
    by_cases hfull : m.length = m.usable
    · rw [if_pos hfull] at hm1
      rcases hgz with hgood | hzero
      · obtain ⟨m1', hr, hgm, _, _, _, husable, _, _⟩ := growMap_good hgood
        rw [hr] at hm1
        obtain rfl : m1' = m1 := Option.some.inj hm1
        exact ⟨hgm, husable⟩
      · obtain ⟨m1', hr, hgm, _, _, hc, husable⟩ := @growMap_zero_good K V _ _ hf _ hzero
        rw [hr] at hm1
        obtain rfl : m1' = m1 := Option.some.inj hm1
        refine ⟨hgm, ?_⟩
        unfold UsableInv
        rw [husable, hc]
    · rw [if_neg hfull] at hm1
      obtain rfl : m = m1 := Option.some.inj hm1
      rcases hgz with hgood | hzero
      · exact ⟨hgood, hu⟩
      · exfalso
        apply hfull
        rw [hzero.2.2]
        unfold UsableInv at hu
        rw [hu, hzero.1]
  obtain ⟨hgm1, hu1⟩ := hg1
  obtain ⟨hcap, hlen, hus, hshift, hdl, hswf, hinv2, hdk2, hoc2⟩ :=
    insertSlot_good hgm1 hins
  rw [← hm2]
  constructor
  · left
    refine ⟨⟨?_, ?_, ?_, ?_, ?_⟩, ?_, ?_, ?_⟩
    · show m2'.data.length = m2'.capacity
      rw [hdl, hcap]
    · show 1 ≤ m2'.shift
      rw [hshift]
      exact hgm1.1.2.1
    · show m2'.shift ≤ 64
      rw [hshift]
      exact hgm1.1.2.2.1
    · show 2 ^ (64 - m2'.shift) ≤ m2'.capacity
      rw [hshift, hcap]
      exact hgm1.1.2.2.2.1
    · show ∀ i < m2'.capacity, slotWF hf (bget m2'.data i)
      rw [hcap]
      exact hswf
    · show rhInv m2'.capacity m2'.shift m2'.data
      rw [hcap, hshift]
      exact hinv2
    · show distinctKeys m2'.capacity m2'.data
      rw [hcap]
      exact hdk2
    · show occount m2'.data ≤ m2'.length + 1
      have := hgm1.2.2.2
      omega
  · show m2'.usable = m2'.capacity / 4 * 3
    rw [hus, hcap]
    exact hu1

theorem clearMap_inv {hf : K → Nat} {m : Map K V} (hg : MapInv hf m) :
    MapInv hf (clearMap m) := by
  obtain ⟨hgz, hu⟩ := hg
  have hb : ∀ i, bget (List.replicate m.capacity (emptySlot : Slot K V)) i = emptySlot := by
    intro i
    unfold emptySlot
    exact bget_replicate m.capacity i
  rcases hgz with hgood | hzero
  · refine ⟨Or.inl ⟨⟨by simp [clearMap], hgood.1.2.1, hgood.1.2.2.1, hgood.1.2.2.2.1, ?_⟩,
      ?_, ?_, ?_⟩, hu⟩
    · intro i _
      show slotWF hf (bget (List.replicate m.capacity emptySlot) i)
      rw [hb i]
      exact slotWF_emptySlot hf
    · intro i _ ho
      exfalso
      unfold occupied at ho
      rw [show bget (clearMap m).data i = emptySlot from hb i] at ho
      exact ho rfl
    · intro i _ j _ _ ho
      exfalso
      unfold occupied at ho
      rw [show bget (clearMap m).data i = emptySlot from hb i] at ho
      exact ho rfl
    · show occount (List.replicate m.capacity emptySlot) ≤ 0
      unfold emptySlot
      rw [occount_replicate]
  · refine ⟨Or.inr ⟨hzero.1, ?_, rfl⟩, hu⟩
    show List.replicate m.capacity (emptySlot : Slot K V) = []
    rw [hzero.1]
    rfl

theorem runMap_inv {hf : K → Nat} : ∀ (ops : List (MOp K V)) (m m2 : Map K V),
    MapInv hf m → runMap hf m ops = some m2 → MapInv hf m2 := by
  intro ops
  induction ops with
  | nil =>
    intro m m2 hg hrun
    obtain rfl : m = m2 := Option.some.inj hrun
    exact hg
  | cons op rest IH =>
    intro m m2 hg hrun
    cases op with
    | ins k v =>
      simp only [runMap] at hrun
      obtain ⟨m1, h1, h2⟩ := Option.bind_eq_some.1 hrun
      exact IH m1 m2 (insertPair_inv hg h1) h2
    | del k =>
      simp only [runMap] at hrun
      obtain ⟨r, h1, h2⟩ := Option.bind_eq_some.1 hrun
      refine IH r.2 m2 ?_ h2
      obtain ⟨hgz, hu⟩ := hg
      rcases hgz with hgood | hzero
      · rcases r with ⟨b, m1⟩
        obtain ⟨hgm, hcap, hus, _, _⟩ := tryErase_good hgood h1
        refine ⟨Or.inl hgm, ?_⟩
        unfold UsableInv at hu ⊢
        rw [hus, hcap]
        exact hu
      · simp only [tryErase] at h1
        rw [if_pos hzero.2.2] at h1
        obtain rfl : ((false, m) : Bool × Map K V) = r := Option.some.inj h1
        exact ⟨Or.inr hzero, hu⟩
    | gro =>
      simp only [runMap] at hrun
      obtain ⟨m1, h1, h2⟩ := Option.bind_eq_some.1 hrun
      refine IH m1 m2 ?_ h2
      obtain ⟨hgz, hu⟩ := hg
      rcases hgz with hgood | hzero
      · obtain ⟨m1', hr, hgm, _, _, _, husable, _, _⟩ := growMap_good hgood
        rw [hr] at h1
        obtain rfl : m1' = m1 := Option.some.inj h1
        exact ⟨Or.inl hgm, husable⟩
      · obtain ⟨m1', hr, hgm, _, _, hc, husable⟩ := @growMap_zero_good K V _ _ hf _ hzero
        rw [hr] at h1
        obtain rfl : m1' = m1 := Option.some.inj h1
        refine ⟨Or.inl hgm, ?_⟩
        unfold UsableInv
        rw [husable, hc]
    | res n =>
      simp only [runMap] at hrun
      obtain ⟨m1, h1, h2⟩ := Option.bind_eq_some.1 hrun
      refine IH m1 m2 ?_ h2
      obtain ⟨hgz, hu⟩ := hg
      rcases hgz with hgood | hzero
      · obtain ⟨m1', hr, hgm, _, _, _, _, hor⟩ := reserveMap_good hgood (n % 2 ^ 64)
        rw [hr] at h1
        obtain rfl : m1' = m1 := Option.some.inj h1
        rcases hor with ⟨_, heq⟩ | ⟨hcap, hus⟩
        · rw [heq]
          exact ⟨Or.inl hgood, hu⟩
        · refine ⟨Or.inl hgm, ?_⟩
          unfold UsableInv
          rw [hus, hcap]
      · by_cases hn0 : n % 2 ^ 64 = 0
        · unfold reserveMap at h1
          rw [if_pos (by omega)] at h1
          obtain rfl : m = m1 := Option.some.inj h1
          exact ⟨Or.inr hzero, hu⟩
        · obtain ⟨m1', hr, hgm, _, _, hc, hus⟩ :=
            @reserveMap_zero_good K V _ _ hf _ hzero (n % 2 ^ 64) (by omega)
          rw [hr] at h1
          obtain rfl : m1' = m1 := Option.some.inj h1
          refine ⟨Or.inl hgm, ?_⟩
          unfold UsableInv
          rw [hus, hc]
    | clr =>
      simp only [runMap] at hrun
      exact IH (clearMap m) m2 (clearMap_inv hg) hrun

theorem construct_inv (hf : K → Nat) (c : Nat) : MapInv hf (construct c : Map K V) := by
  unfold construct constructJunk
  by_cases hc0 : c = 0
  · subst hc0
    refine ⟨Or.inr ⟨?_, ?_, rfl⟩, ?_⟩
    · show nextPow2 0 = 0
      rfl
    · show (List.range (nextPow2 0)).map (fun _ => (emptySlot : Slot K V)) = []
      rfl
    · show (nextPow2 0) / 4 * 3 = (nextPow2 0) / 4 * 3
      rfl
  · have hcap1 : 1 ≤ nextPow2 c := by
      unfold nextPow2
      rw [if_neg hc0]
      exact Nat.pos_pow_of_pos _ (by norm_num)
    obtain ⟨hs1, hs64, hspow⟩ := ctlz_shift_spec hcap1
    have hmap : (List.range (nextPow2 c)).map (fun _ => (emptySlot : Slot K V)) =
        List.replicate (nextPow2 c) emptySlot := by
      simp
    have hb : ∀ i, bget ((List.range (nextPow2 c)).map
        (fun _ => (emptySlot : Slot K V))) i = emptySlot := by
      intro i
      rw [hmap]
      unfold emptySlot
      exact bget_replicate _ i
    refine ⟨Or.inl ⟨⟨by simp, hs1, hs64, hspow, ?_⟩, ?_, ?_, ?_⟩, rfl⟩
    · intro i _
      rw [hb i]
      exact slotWF_emptySlot hf
    · intro i _ ho
      exfalso
      unfold occupied at ho
      rw [hb i] at ho
      exact ho rfl
    · intro i _ j _ _ ho
      exfalso
      unfold occupied at ho
      rw [hb i] at ho
      exact ho rfl
    · show occount ((List.range (nextPow2 c)).map (fun _ => (emptySlot : Slot K V))) ≤ 0
      rw [hmap]
      unfold emptySlot
      rw [occount_replicate]

theorem growIter_good {hf : K → Nat} :
    ∀ (j : Nat) (m m2 : Map K V), GoodMap hf m → growIter m j = some m2 →
      GoodMap hf m2 ∧ (∀ k v, HasPair m2 k v ↔ HasPair m k v) ∧
        occount m2.data = occount m.data := by
  intro j
  induction j with
  | zero =>
    intro m m2 hg hrun
    obtain rfl : m = m2 := Option.some.inj hrun
    exact ⟨hg, fun k v => Iff.rfl, rfl⟩
  | succ j IH =>
    intro m m2 hg hrun
    simp only [growIter] at hrun
    obtain ⟨m1, h1, h2⟩ := Option.bind_eq_some.1 hrun
    obtain ⟨m1', hr, hg1, _, hoc1, _, _, _, hpairs1⟩ := growMap_good hg
    rw [hr] at h1
    obtain rfl : m1' = m1 := Option.some.inj h1
    obtain ⟨hg2, hpairs2, hoc2⟩ := IH m1' m2 hg1 h2
    refine ⟨hg2, ?_, by rw [hoc2, hoc1]⟩
    intro k v
    rw [hpairs2 k v, hpairs1 k v]

theorem add_mod_ne_self {cap e u : Nat} (he : e < cap) (hu1 : 1 ≤ u) (hu2 : u < cap) :
    (e + u) % cap ≠ e := by
  by_cases hlt : e + u < cap
  · rw [Nat.mod_eq_of_lt hlt]
    omega
  · have h1 : (e + u) % cap = (e + u - cap) % cap := Nat.mod_eq_sub_mod (by omega)
    rw [h1, Nat.mod_eq_of_lt (by omega)]
    omega

theorem add_kdist_mod {cap j e2 : Nat} (hj : j < cap) (he2 : e2 < cap) :
    (j + kdistOf cap e2 j) % cap = e2 := by
  unfold kdistOf
  split_ifs with h
  · rw [show j + (e2 - j) = e2 by omega, Nat.mod_eq_of_lt he2]
  · rw [show j + (cap + e2 - j) = cap + e2 by omega, Nat.add_mod_left,
      Nat.mod_eq_of_lt he2]

theorem fixUpLoop_stops {cap shift : Nat} :
    ∀ (t : Nat) (buf : List (Slot K V)) (e : Nat), e < cap → buf.length = cap →
      1 ≤ t → t ≤ cap - 1 →
      ((bget buf ((e + t) % cap)).hash = 0 ∨
        (bget buf ((e + t) % cap)).hash >>> shift = (e + t) % cap) →
      ∀ fuel, t < fuel → (fixUpLoop cap shift buf e fuel).isSome := by
  intro t
  induction t with
  | zero =>
    intro buf e _ _ h1 _ _ fuel _
    exact absurd h1 (by omega)
  | succ t IH =>
    intro buf e he hlen _ ht2 hstop fuel hfuel
    match fuel, hfuel with
    | fuel + 1, hfuel =>
      simp only [fixUpLoop]
      rw [fixNext_eq he]
      by_cases h0 : (bget buf (nextIdx cap e)).hash = 0
      · rw [if_pos h0]
        rfl
      · rw [if_neg h0]
        by_cases hd0 : (bget buf (nextIdx cap e)).hash >>> shift = nextIdx cap e
        · rw [if_pos hd0]
          rfl
        · rw [if_neg hd0]
          have hnmod : nextIdx cap e = (e + 1) % cap := by
            unfold nextIdx
            split_ifs with h
            · rw [h, Nat.mod_self]
            · rw [Nat.mod_eq_of_lt (by omega)]
          by_cases ht0 : t = 0
          · exfalso
            rw [ht0] at hstop
            simp only [Nat.zero_add] at hstop
            rw [← hnmod] at hstop
            rcases hstop with hh | hh
            · exact h0 hh
            · exact hd0 hh
          · apply IH ((buf.set e (bget buf (nextIdx cap e))).set (nextIdx cap e)
                emptySlot) (nextIdx cap e)
              (nextIdx_lt he) (by simp [hlen]) (by omega) (by omega) ?_ fuel (by omega)
            have hpos : (nextIdx cap e + t) % cap = (e + (t + 1)) % cap := by
              rw [hnmod, Nat.mod_add_mod, show e + 1 + t = e + (t + 1) by omega]
            rw [hpos]
            have hsne : (e + (t + 1)) % cap ≠ nextIdx cap e := by
              intro hc
              rw [hc] at hstop
              rcases hstop with hh | hh
              · exact h0 hh
              · exact hd0 hh
            have hsee : (e + (t + 1)) % cap ≠ e :=
              add_mod_ne_self he (by omega) (by omega)
            have hbv : bget ((buf.set e (bget buf (nextIdx cap e))).set (nextIdx cap e)
                emptySlot) ((e + (t + 1)) % cap) = bget buf ((e + (t + 1)) % cap) := by
              rw [bget_set emptySlot
                  (by rw [List.length_set, hlen]; exact nextIdx_lt he) _, if_neg hsne,
                bget_set (bget buf (nextIdx cap e)) (by rw [hlen]; exact he) _,
                if_neg hsee]
            rw [hbv]
            exact hstop

theorem tryEraseLoop_reaches {cap shift : Nat} {buf : List (Slot K V)} {hf : K → Nat}
    (hideal : ∀ i < cap, idealOf shift buf i < cap)
    (hinv : rhInv cap shift buf) (hdk : distinctKeys cap buf)
    {j : Nat} {key : K} (hj : j < cap)
    (hkeyj : slotKeyIs (bget buf j) key)
    (hhash : (bget buf j).hash = hashOf hf key) :
    ∀ r, r ≤ slotDist cap shift buf j → ∀ idx, idx < cap → kdistOf cap j idx = r →
      ∀ fuel, r < fuel →
        tryEraseLoop cap shift buf (hashOf hf key) key idx
          (slotDist cap shift buf j - r) fuel =
          (fixUpLoop cap shift (buf.set j emptySlot) j (cap + 1)).map
            (fun d => (true, d)) := by
  have hoccj : occupied buf j := by
    unfold occupied
    rw [hhash]
    exact hashOf_ne_zero hf key
  intro r
  induction r with
  | zero =>
    intro _ idx hidx hk
    obtain rfl : j = idx := (kdistOf_eq_zero hj hidx).1 hk
    intro fuel hfuel
    match fuel, hfuel with
    | fuel + 1, _ =>
      simp only [tryEraseLoop]
      rw [if_pos ⟨hhash, hkeyj⟩]
  | succ r IH =>
    intro hr idx hidx hk
    intro fuel hfuel
    have hkpos : 0 < kdistOf cap j idx := by omega
    obtain ⟨hocci, hdle⟩ := rh_chain hideal hinv hj hoccj (r + 1) hr idx hidx hk
    match fuel, hfuel with
    | fuel + 1, hfuel =>
      simp only [tryEraseLoop]
      rw [if_neg ?hnm]
      case hnm =>
        rintro ⟨hh2, hsk⟩
        cases hd : (bget buf idx).data with
        | none =>
          unfold slotKeyIs at hsk
          rw [hd] at hsk
          exact hsk
        | some p =>
          unfold slotKeyIs at hsk
          rw [hd] at hsk
          have hne : j ≠ idx := by
            intro hc
            rw [hc] at hk
            rw [(kdistOf_eq_zero hidx hidx).2 rfl] at hk
            omega
          have hkj2 : keyOf (bget buf j) = some key := by
            unfold slotKeyIs at hkeyj
            unfold keyOf
            cases hd2 : (bget buf j).data with
            | none => rw [hd2] at hkeyj; exact absurd hkeyj (by simp)
            | some q =>
              rw [hd2] at hkeyj
              simp [hkeyj]
          have := hdk j hj idx hidx hne hoccj hocci
          apply this
          unfold keyOf at hkj2
          rw [hkj2, hd]
          simp [hsk]
      have hslot : kdistOf cap idx ((bget buf idx).hash >>> shift) =
          slotDist cap shift buf idx := rfl
      rw [hslot]
      rw [if_neg (by omega)]
      have hnext := kdistOf_next_to hj hidx hkpos
      have harith : slotDist cap shift buf j - (r + 1) + 1 =
          slotDist cap shift buf j - r := by omega
      rw [harith]
      exact IH (by omega) (nextIdx cap idx) (nextIdx_lt hidx) (by omega) fuel (by omega)

theorem insertSlot_some {hf : K → Nat} {m : Map K V} (k : K) (v : V)
    (hg : GoodMap hf m) (hlt : occount m.data < m.capacity) :
    (insertSlot m ⟨hashOf hf k, some (k, v)⟩).isSome := by
  obtain ⟨hwf, hinv, hdk, hocc⟩ := hg
  have hsidx : (hashOf hf k) >>> m.shift < m.capacity :=
    lt_of_lt_of_le (shiftRight_lt_of_lt hwf.2.2.1 (hashOf_lt hf k)) hwf.2.2.2.1
  simp only [insertSlot]
  by_cases hp : ∃ j, j < m.capacity ∧ occupied m.data j ∧ keyOf (bget m.data j) = some k
  · obtain ⟨j, hj, hoj, hkj⟩ := hp
    obtain ⟨q, hq, hqh⟩ := slotWF_occ (hwf.2.2.2.2 j hj) hoj
    have hq1 : q.1 = k := by
      unfold keyOf at hkj
      rw [hq] at hkj
      simpa using hkj
    have hhash : (bget m.data j).hash = hashOf hf k := by
      rw [hqh, hq1]
    have hski : slotKeyIs (bget m.data j) k := by
      unfold slotKeyIs
      rw [hq]
      exact hq1
    have hidj : idealOf m.shift m.data j = hashOf hf k >>> m.shift := by
      unfold idealOf
      rw [hhash]
    have hmatch : (bget m.data j).hash = (⟨hashOf hf k, some (k, v)⟩ : Slot K V).hash ∧
        keysMatch (bget m.data j) (⟨hashOf hf k, some (k, v)⟩ : Slot K V) :=
      ⟨hhash, hski⟩
    have happ := insertSlotLoop_dup hwf.1 (WF_ideal hwf) hinv hdk hj hoj hmatch
      (kdistOf m.capacity j (hashOf hf k >>> m.shift)) (hashOf hf k >>> m.shift) 0
      (m.capacity + 1) hsidx rfl
      (by unfold slotDist; rw [hidj]; omega)
      (by unfold slotDist; rw [hidj])
      (Nat.lt_succ_of_lt (kdistOf_lt hj hsidx))
    rw [happ]
    rfl
  · push_neg at hp
    have hkeyne : ∀ i < m.capacity, occupied m.data i →
        keyOf (bget m.data i) ≠ keyOf (⟨hashOf hf k, some (k, v)⟩ : Slot K V) := by
      intro i hi ho
      have h1 := hp i hi ho
      unfold keyOf at h1 ⊢
      intro hc
      exact h1 (by rw [hc]; rfl)
    obtain ⟨e, heb, hne⟩ := exists_empty_of_occount_lt (by rw [hwf.1]; exact hlt)
    have hecap : e < m.capacity := by
      rw [hwf.1] at heb
      exact heb
    obtain ⟨buf2, heq, _⟩ :=
      insertSlotLoop_fresh (m.capacity + 1) m.data ⟨hashOf hf k, some (k, v)⟩
        (hashOf hf k >>> m.shift) 0 e hwf.1 (WF_ideal hwf) hsidx
        (hashOf_ne_zero hf k) hsidx
        ((kdistOf_eq_zero hsidx hsidx).2 rfl) hinv
        (fun h => absurd h (lt_irrefl 0)) hdk hkeyne hecap hne
        (by have := kdistOf_lt hecap hsidx; omega)
        (Nat.lt_succ_of_lt (kdistOf_lt hecap hsidx))
    rw [heq]
    rfl

theorem insertPair_some {hf : K → Nat} {m : Map K V} (k : K) (v : V)
    (hg : GoodMap hf m) (hlt : occount m.data < m.capacity) :
    (insertPair hf m k v).isSome := by
  unfold insertPair
  by_cases hfull : m.length = m.usable
  · rw [if_pos hfull]
    obtain ⟨m1, hr, hg1, _, _, hlt1, _, _, _⟩ := growMap_good hg
    rw [hr]
    rw [Option.some_bind]
    have := insertSlot_some k v hg1 hlt1
    obtain ⟨m2', hm2'⟩ := Option.isSome_iff_exists.1 this
    rw [hm2']
    rfl
  · rw [if_neg hfull]
    rw [Option.some_bind]
    have := insertSlot_some k v hg hlt
    obtain ⟨m2', hm2'⟩ := Option.isSome_iff_exists.1 this
    rw [hm2']
    rfl

theorem tryGet_some {hf : K → Nat} {m : Map K V} (k : K) (hg : GoodMap hf m) :
    (tryGet hf m k).isSome := by
  obtain ⟨hwf, hinv, hdk, hocc⟩ := hg
  by_cases hl0 : m.length = 0
  · unfold tryGet
    rw [if_pos hl0]
    rfl
  · by_cases hp : ∃ j, j < m.capacity ∧ occupied m.data j ∧ slotKeyIs (bget m.data j) k
    · obtain ⟨j, hj, hoj, hkj⟩ := hp
      obtain ⟨q, hq, _⟩ := slotWF_occ (hwf.2.2.2.2 j hj) hoj
      have hq1 : q.1 = k := by
        unfold slotKeyIs at hkj
        rw [hq] at hkj
        exact hkj
      have hpair : HasPair m k q.2 := by
        refine ⟨j, hj, hoj, ?_⟩
        rw [hq, ← hq1]
      rw [tryGet_finds ⟨hwf, hinv, hdk, hocc⟩ hpair]
      rfl
    · push_neg at hp
      unfold tryGet
      rw [if_neg hl0]
      have hidx0 : hashOf hf k >>> m.shift < m.capacity :=
        lt_of_lt_of_le (shiftRight_lt_of_lt hwf.2.2.1 (hashOf_lt hf k)) hwf.2.2.2.1
      rw [tryGetLoop_absent (WF_ideal hwf) ?nom (m.capacity + 1)
        (hashOf hf k >>> m.shift) 0 hidx0 (by omega) (by omega)]
      · rfl
      case nom =>
        intro i hi
        rintro ⟨hh, hsk⟩
        have hoi : occupied m.data i := by
          unfold occupied
          rw [hh]
          exact hashOf_ne_zero hf k
        exact hp i hi hoi hsk

theorem tryErase_some {hf : K → Nat} {m : Map K V} (k : K) (hg : GoodMap hf m)
    (hlt : occount m.data < m.capacity) :
    (tryErase hf m k).isSome := by
  obtain ⟨hwf, hinv, hdk, hocc⟩ := hg
  simp only [tryErase]
  by_cases hl0 : m.length = 0
  · rw [if_pos hl0]
    rfl
  · rw [if_neg hl0]
    have hidx0 : hashOf hf k >>> m.shift < m.capacity :=
      lt_of_lt_of_le (shiftRight_lt_of_lt hwf.2.2.1 (hashOf_lt hf k)) hwf.2.2.2.1
    by_cases hp : ∃ j, j < m.capacity ∧ occupied m.data j ∧ slotKeyIs (bget m.data j) k
    · obtain ⟨j, hj, hoj, hkj⟩ := hp
      obtain ⟨q, hq, hqh⟩ := slotWF_occ (hwf.2.2.2.2 j hj) hoj
      have hq1 : q.1 = k := by
        unfold slotKeyIs at hkj
        rw [hq] at hkj
        exact hkj
      have hhash : (bget m.data j).hash = hashOf hf k := by
        rw [hqh, hq1]
      have hidj : idealOf m.shift m.data j = hashOf hf k >>> m.shift := by
        unfold idealOf
        rw [hhash]
      have hD : kdistOf m.capacity j (hashOf hf k >>> m.shift) =
          slotDist m.capacity m.shift m.data j := by
        unfold slotDist
        rw [hidj]
      have hreach := tryEraseLoop_reaches (WF_ideal hwf) hinv hdk hj hkj hhash
        (slotDist m.capacity m.shift m.data j) (le_refl _)
        (hashOf hf k >>> m.shift) hidx0 hD (m.capacity + 1)
        (Nat.lt_succ_of_lt (kdistOf_lt hj (WF_ideal hwf j hj)))
      rw [Nat.sub_self] at hreach
      rw [hreach]
      obtain ⟨e2, he2b, hne2⟩ := exists_empty_of_occount_lt (by rw [hwf.1]; exact hlt)
      have he2cap : e2 < m.capacity := by
        rw [hwf.1] at he2b
        exact he2b
      have hne2j : e2 ≠ j := by
        intro hc
        rw [hc] at hne2
        exact hne2 hoj
      have ht1 : 1 ≤ kdistOf m.capacity e2 j := by
        by_contra hc
        have h00 : kdistOf m.capacity e2 j = 0 := by omega
        exact hne2j ((kdistOf_eq_zero he2cap hj).1 h00)
      have htc : kdistOf m.capacity e2 j < m.capacity := kdistOf_lt he2cap hj
      have hstop := @fixUpLoop_stops K V _ _ m.capacity m.shift (kdistOf m.capacity e2 j)
        (m.data.set j emptySlot) j hj
        (by rw [List.length_set]; exact hwf.1) ht1 (by omega) ?stopcond
        (m.capacity + 1) (by omega)
      case stopcond =>
        rw [add_kdist_mod hj he2cap]
        left
        rw [bget_set emptySlot (by rw [hwf.1]; exact hj) e2, if_neg hne2j]
        by_contra hc
        exact hne2 hc
      obtain ⟨d2, hd2⟩ := Option.isSome_iff_exists.1 hstop
      rw [hd2]
      rfl
    · push_neg at hp
      rw [tryEraseLoop_absent (WF_ideal hwf) ?nom2 (m.capacity + 1)
        (hashOf hf k >>> m.shift) 0 hidx0 (by omega) (by omega)]
      · rfl
      case nom2 =>
        intro i hi
        rintro ⟨hh, hsk⟩
        have hoi : occupied m.data i := by
          unfold occupied
          rw [hh]
          exact hashOf_ne_zero hf k
        exact hp i hi hoi hsk

end MapProofs

section ClaimTheorems

/-- C4 (amended): after every map operation — in particular after every
insert and every erase — the local Robin Hood balance invariant holds:
every occupied slot with nonzero displacement has an occupied cyclic
predecessor whose displacement is at least its own minus one.  (The
claimed global form — displacements non-decreasing along a scan until the
first empty slot — is refuted by `C4_scan_invariant_counterexample`.) -/
theorem C4_local_invariant_after_ops {K V : Type} [DecidableEq K] [DecidableEq V]
    (hf : K → Nat) (c : Nat) (ops : List (MOp K V)) (m : Map K V)
    (hrun : runMap hf (construct c) ops = some m) :
    rhInv m.capacity m.shift m.data := by
  have hinv := runMap_inv ops (construct c) m (construct_inv hf c) hrun
  rcases hinv with ⟨hgood | hzero, _⟩
  · exact hgood.2.1
  · intro i hi
    rw [hzero.1] at hi
    exact absurd hi (by omega)

/-- C7: `Map::reserve(n)` is a no-op when `n ≤ capacity_`, and growth is a
full rehash that never loses or duplicates entries: after any number of
`grow()` calls the held pairs are exactly the original ones, the number of
occupied slots is unchanged, and every previously inserted, non-erased key
remains retrievable via `try_get` with its current value. -/
theorem C7_reserve_noop_and_grow_rehashes {K V : Type} [DecidableEq K] [DecidableEq V] :
    (∀ (m : Map K V) (n : Nat), n ≤ m.capacity → reserveMap m n = some m) ∧
      (∀ (hf : K → Nat) (m : Map K V), GoodMap hf m →
        ∀ (j : Nat) (m2 : Map K V), growIter m j = some m2 →
          (∀ k v, HasPair m2 k v ↔ HasPair m k v) ∧
            occount m2.data = occount m.data ∧
            (∀ k v, HasPair m k v → tryGet hf m2 k = some (some v))) := by
  constructor
  · intro m n hle
    unfold reserveMap
    rw [if_pos hle]
  · intro hf m hg j m2 hrun
    obtain ⟨hg2, hpairs, hoc⟩ := growIter_good j m m2 hg hrun
    refine ⟨hpairs, hoc, ?_⟩
    intro k v hp
    exact tryGet_finds hg2 ((hpairs k v).2 hp)

/-- C10 (amended): `length ≤ usable` is refuted
(`C10_length_le_usable_counterexample`); what does hold after every
operation sequence is `occount ≤ length` together with
`usable = capacity / 4 * 3` (hence `usable < capacity` whenever the
capacity is nonzero), and whenever the table is not completely full
(`occount < capacity`) the probe loops of `insert`/`insert_slot`,
`try_get` and `try_erase` all terminate.  A completely full table is
reachable — `reserve(1)` then three inserts — and there the insert probe
loop of a fresh key never terminates (the run is `none`). -/
theorem C10_invariant_and_termination :
    (∀ (K V : Type) [DecidableEq K] [DecidableEq V] (hf : K → Nat) (c : Nat)
        (ops : List (MOp K V)) (m : Map K V),
        runMap hf (construct c) ops = some m →
        occount m.data ≤ m.length ∧ m.usable = m.capacity / 4 * 3 ∧
          (0 < m.capacity → m.usable < m.capacity)) ∧
      (∀ (K V : Type) [DecidableEq K] [DecidableEq V] (hf : K → Nat) (m : Map K V)
          (k : K) (v : V), GoodMap hf m → occount m.data < m.capacity →
          (insertPair hf m k v).isSome ∧ (tryGet hf m k).isSome ∧
            (tryErase hf m k).isSome) ∧
      runMap hash8 (construct 0 : Map Nat Nat) [.res 1, .ins 0 0, .ins 1 1, .ins 2 2]
        = none := by
  refine ⟨?_, ?_, by decide⟩
  · intro K V _ _ hf c ops m hrun
    have hinv := runMap_inv ops (construct c) m (construct_inv hf c) hrun
    have h4 : m.capacity / 4 * 4 ≤ m.capacity := Nat.div_mul_le_self m.capacity 4
    rcases hinv with ⟨hgood | hzero, hu⟩
    · refine ⟨hgood.2.2.2, hu, ?_⟩
      intro hc
      unfold UsableInv at hu
      omega
    · obtain ⟨hc0, hd0, hl0⟩ := hzero
      refine ⟨?_, hu, ?_⟩
      · rw [hd0]
        exact Nat.zero_le _
      · intro hc
        rw [hc0] at hc
        exact absurd hc (by omega)
  · intro K V _ _ hf m k v hg hlt
    exact ⟨insertPair_some k v hg hlt, tryGet_some k hg, tryErase_some k hg hlt⟩

/-- Witness for C4 at a concrete run: capacity-8 map, three inserts (two
sharing ideal bucket 0) and one erase; the amended local invariant holds
on the resulting table. -/
theorem C4_local_invariant_after_ops_witness :
    runMap hash8 (construct 8 : Map Nat Nat) [.ins 0 0, .ins 8 1, .ins 2 2, .del 8]
        = some ⟨[⟨1, some (0, 0)⟩, ⟨0, none⟩, ⟨2 ^ 62 + 1, some (2, 2)⟩, ⟨0, none⟩,
            ⟨0, none⟩, ⟨0, none⟩, ⟨0, none⟩, ⟨0, none⟩], 8, 2, 6, 61⟩ ∧
      rhInv 8 61 [⟨1, some (0, 0)⟩, ⟨0, none⟩, ⟨2 ^ 62 + 1, some (2, 2)⟩, ⟨0, none⟩,
        ⟨0, none⟩, ⟨0, none⟩, ⟨0, none⟩, ⟨0, none⟩] :=
  ⟨by decide, C4_local_invariant_after_ops hash8 8 [.ins 0 0, .ins 8 1, .ins 2 2, .del 8]
    ⟨[⟨1, some (0, 0)⟩, ⟨0, none⟩, ⟨2 ^ 62 + 1, some (2, 2)⟩, ⟨0, none⟩,
      ⟨0, none⟩, ⟨0, none⟩, ⟨0, none⟩, ⟨0, none⟩], 8, 2, 6, 61⟩ (by decide)⟩

/-- Witness for C7 at a concrete input: `reserve(4)` is a no-op on a
capacity-8 map, and one `grow()` of a capacity-8 map holding the pair
`(5, 7)` keeps the pair retrievable via `try_get`. -/
theorem C7_reserve_noop_and_grow_rehashes_witness :
    ((4 : Nat) ≤ (construct 8 : Map Nat Nat).capacity ∧
      reserveMap (construct 8 : Map Nat Nat) 4 = some (construct 8)) ∧
      (GoodMap hash8 (⟨[⟨0, none⟩, ⟨0, none⟩, ⟨0, none⟩, ⟨0, none⟩, ⟨0, none⟩,
          ⟨5 * 2 ^ 61 + 1, some (5, 7)⟩, ⟨0, none⟩, ⟨0, none⟩], 8, 1, 6, 61⟩ : Map Nat Nat) ∧
        HasPair (⟨[⟨0, none⟩, ⟨0, none⟩, ⟨0, none⟩, ⟨0, none⟩, ⟨0, none⟩,
          ⟨5 * 2 ^ 61 + 1, some (5, 7)⟩, ⟨0, none⟩, ⟨0, none⟩], 8, 1, 6, 61⟩ : Map Nat Nat) 5 7 ∧
        growIter (⟨[⟨0, none⟩, ⟨0, none⟩, ⟨0, none⟩, ⟨0, none⟩, ⟨0, none⟩,
            ⟨5 * 2 ^ 61 + 1, some (5, 7)⟩, ⟨0, none⟩, ⟨0, none⟩], 8, 1, 6, 61⟩ : Map Nat Nat) 1
          = some ⟨[⟨0, none⟩, ⟨0, none⟩, ⟨0, none⟩, ⟨0, none⟩, ⟨0, none⟩, ⟨0, none⟩,
            ⟨0, none⟩, ⟨0, none⟩, ⟨0, none⟩, ⟨0, none⟩, ⟨5 * 2 ^ 61 + 1, some (5, 7)⟩,
            ⟨0, none⟩, ⟨0, none⟩, ⟨0, none⟩, ⟨0, none⟩, ⟨0, none⟩], 16, 1, 12, 60⟩ ∧
        tryGet hash8 (⟨[⟨0, none⟩, ⟨0, none⟩, ⟨0, none⟩, ⟨0, none⟩, ⟨0, none⟩, ⟨0, none⟩,
            ⟨0, none⟩, ⟨0, none⟩, ⟨0, none⟩, ⟨0, none⟩, ⟨5 * 2 ^ 61 + 1, some (5, 7)⟩,
            ⟨0, none⟩, ⟨0, none⟩, ⟨0, none⟩, ⟨0, none⟩, ⟨0, none⟩], 16, 1, 12, 60⟩ : Map Nat Nat)
          5 = some (some 7)) :=
  ⟨⟨by decide, (C7_reserve_noop_and_grow_rehashes.1 (construct 8 : Map Nat Nat) 4 (by decide))⟩,
    by decide, by decide, by decide,
    (C7_reserve_noop_and_grow_rehashes.2 hash8
        (⟨[⟨0, none⟩, ⟨0, none⟩, ⟨0, none⟩, ⟨0, none⟩, ⟨0, none⟩,
          ⟨5 * 2 ^ 61 + 1, some (5, 7)⟩, ⟨0, none⟩, ⟨0, none⟩], 8, 1, 6, 61⟩ : Map Nat Nat)
        (by decide) 1
        (⟨[⟨0, none⟩, ⟨0, none⟩, ⟨0, none⟩, ⟨0, none⟩, ⟨0, none⟩, ⟨0, none⟩,
          ⟨0, none⟩, ⟨0, none⟩, ⟨0, none⟩, ⟨0, none⟩, ⟨5 * 2 ^ 61 + 1, some (5, 7)⟩,
          ⟨0, none⟩, ⟨0, none⟩, ⟨0, none⟩, ⟨0, none⟩, ⟨0, none⟩], 16, 1, 12, 60⟩ : Map Nat Nat)
        (by decide)).2.2 5 7 (by decide)⟩

/-- Witness for C10 at concrete inputs: the invariant conjunct evaluated on
the `reserve(1)`-then-insert state (where `length > usable`), and the
termination conjunct on a capacity-8 map holding one pair. -/
theorem C10_invariant_and_termination_witness :
    (occount c10State.data ≤ c10State.length ∧
      c10State.usable = c10State.capacity / 4 * 3 ∧
      (0 < c10State.capacity → c10State.usable < c10State.capacity)) ∧
      ((insertPair hash8 (⟨[⟨0, none⟩, ⟨0, none⟩, ⟨0, none⟩, ⟨0, none⟩, ⟨0, none⟩,
          ⟨5 * 2 ^ 61 + 1, some (5, 7)⟩, ⟨0, none⟩, ⟨0, none⟩], 8, 1, 6, 61⟩ : Map Nat Nat)
          3 3).isSome ∧
        (tryGet hash8 (⟨[⟨0, none⟩, ⟨0, none⟩, ⟨0, none⟩, ⟨0, none⟩, ⟨0, none⟩,
          ⟨5 * 2 ^ 61 + 1, some (5, 7)⟩, ⟨0, none⟩, ⟨0, none⟩], 8, 1, 6, 61⟩ : Map Nat Nat)
          3).isSome ∧
        (tryErase hash8 (⟨[⟨0, none⟩, ⟨0, none⟩, ⟨0, none⟩, ⟨0, none⟩, ⟨0, none⟩,
          ⟨5 * 2 ^ 61 + 1, some (5, 7)⟩, ⟨0, none⟩, ⟨0, none⟩], 8, 1, 6, 61⟩ : Map Nat Nat)
          3).isSome) :=
  ⟨C10_invariant_and_termination.1 Nat Nat hash8 0 [.res 1, .ins 1 1] c10State (by decide),
    C10_invariant_and_termination.2.1 Nat Nat hash8
      (⟨[⟨0, none⟩, ⟨0, none⟩, ⟨0, none⟩, ⟨0, none⟩, ⟨0, none⟩,
        ⟨5 * 2 ^ 61 + 1, some (5, 7)⟩, ⟨0, none⟩, ⟨0, none⟩], 8, 1, 6, 61⟩ : Map Nat Nat)
      3 3 (by decide) (by decide)⟩

end ClaimTheorems

end rpp

